import Mathlib

/-!
# libstrophe `sock.c`: DNS SRV codec and socket helpers

A shallow embedding of `src/src/sock.c`.  The byte buffer `unsigned char *buf`
is a `List Nat` (one entry per byte); `int *offset` is threaded through as a
natural number that every operation returns next to its result.  C has no
bounds checks here, so a read or write outside the buffer is undefined
behaviour: the embedding reports it as `Fault.oob`.  `while` loops whose
termination depends on the data run on fuel and report `Fault.fuel` when the
fuel runs out.  C strings are lists of bytes without their terminator; a zero
byte inside such a list ends the string where the C code would stop reading.

What `sock_srv_lookup` and `sock_connect` get from the operating system (the
native resolver, the name-server list, the outcome of every `recvfrom`,
`socket` and `connect`, the initial contents of the stack array) is a
parameter of the embedding.

The file has two parts: the definitions (the embedding, then the devices the
statements are written with), and the properties.
-/

namespace Strophe

/-- Ways in which a run of the C code fails to return normally. -/
inductive Fault where
  /-- an access outside the buffer: undefined behaviour in C -/
  | oob
  /-- a loop that is still running when the fuel is used up -/
  | fuel
  /-- any other undefined behaviour (a conversion in a format string that has no argument) -/
  | ub
deriving DecidableEq, Repr

/-- Outcome of running a piece of the C code. -/
abbrev Res (α : Type) := Except Fault α

instance instDecidableEqRes {α : Type} [DecidableEq α] : DecidableEq (Res α)
  | .ok a, .ok b =>
    if h : a = b then isTrue (congrArg Except.ok h)
    else isFalse (fun h' => h (Except.ok.inj h'))
  | .error e, .error f =>
    if h : e = f then isTrue (congrArg Except.error h)
    else isFalse (fun h' => h (Except.error.inj h'))
  | .ok _, .error _ => isFalse (fun h => Except.noConfusion h)
  | .error _, .ok _ => isFalse (fun h => Except.noConfusion h)

/-- Read of `buf[i]` (`*p` with `p = buf + i`). -/
def load (buf : List Nat) (i : Nat) : Res Nat :=
  match buf[i]? with
  | some b => .ok b
  | none => .error .oob

/-- Store `buf[i] = x` (`*p = x`, converted to `unsigned char`). -/
def store (buf : List Nat) (i : Nat) (x : Nat) : Res (List Nat) :=
  if i < buf.length then .ok (buf.set i (x % 256)) else .error .oob

/-! ## Big-endian integers (`sock.c` 230-282) -/

/-- `netbuf_add_32bitnum`: returns the new buffer and the new `*offset`. -/
def netbuf_add_32bitnum (buf : List Nat) (buflen : Nat) (offset : Nat) (num : Nat) :
    Res (List Nat × Nat) := do
  let p := offset
  let buf ← store buf p ((num >>> 24) &&& 0xff)
  let buf ← store buf (p + 1) ((num >>> 16) &&& 0xff)
  let buf ← store buf (p + 2) ((num >>> 8) &&& 0xff)
  let buf ← store buf (p + 3) (num &&& 0xff)
  pure (buf, offset + 4)

/-- `netbuf_get_32bitnum`: returns `*num` (an `unsigned int`) and the new `*offset`. -/
def netbuf_get_32bitnum (buf : List Nat) (buflen : Nat) (offset : Nat) : Res (Nat × Nat) := do
  let p := offset
  let b0 ← load buf p
  let b1 ← load buf (p + 1)
  let b2 ← load buf (p + 2)
  let b3 ← load buf (p + 3)
  pure (((b0 <<< 24) ||| (b1 <<< 16) ||| (b2 <<< 8) ||| b3) % 2 ^ 32, offset + 4)

/-- `netbuf_add_16bitnum`: returns the new buffer and the new `*offset`. -/
def netbuf_add_16bitnum (buf : List Nat) (buflen : Nat) (offset : Nat) (num : Nat) :
    Res (List Nat × Nat) := do
  let p := offset
  let buf ← store buf p ((num >>> 8) &&& 0xff)
  let buf ← store buf (p + 1) (num &&& 0xff)
  pure (buf, offset + 2)

/-- `netbuf_get_16bitnum`: returns `*num` (an `unsigned short`) and the new `*offset`. -/
def netbuf_get_16bitnum (buf : List Nat) (buflen : Nat) (offset : Nat) : Res (Nat × Nat) := do
  let p := offset
  let b0 ← load buf p
  let b1 ← load buf (p + 1)
  pure (((b0 <<< 8) ||| b1) % 2 ^ 16, offset + 2)

/-! ## Message structures (`sock.c` 188-228) -/

/-- `struct dnsquery_header`. -/
structure dnsquery_header where
  id : Nat
  qr : Nat
  opcode : Nat
  aa : Nat
  tc : Nat
  rd : Nat
  ra : Nat
  z : Nat
  rcode : Nat
  qdcount : Nat
  ancount : Nat
  nscount : Nat
  arcount : Nat
deriving DecidableEq, Repr

/-- `struct dnsquery_question`; `qname` is the C string without its terminator. -/
structure dnsquery_question where
  qname : List Nat
  qtype : Nat
  qclass : Nat
deriving DecidableEq, Repr

/-- `struct dnsquery_srvrdata`; `target` is the C string without its terminator. -/
structure dnsquery_srvrdata where
  priority : Nat
  weight : Nat
  port : Nat
  target : List Nat
deriving DecidableEq, Repr

/-- The `void *rdata` of a resource record: a freshly decoded SRV payload for
type 33, otherwise the pointer `buf + *offset` into the message. -/
inductive rdata_t where
  | srv (d : dnsquery_srvrdata)
  | raw (at_offset : Nat)
deriving DecidableEq, Repr

/-- `struct dnsquery_resourcerecord`. -/
structure dnsquery_resourcerecord where
  name : List Nat
  type : Nat
  _class : Nat
  ttl : Nat
  rdlength : Nat
  rdata : rdata_t
deriving DecidableEq, Repr

/-! ## Domain names (`sock.c` 284-426) -/

/-- The inner scan `while (*wordend && *wordend != '.') wordend++`: the number
of bytes of the C string `s` before the first dot or the terminator. -/
def wordLength : List Nat → Nat
  | [] => 0
  | c :: cs => if c = 0 ∨ c = 46 then 0 else wordLength cs + 1

/-- The copy loop `while (wordstart != wordend) *p++ = *wordstart++`. -/
def copyWord (buf : List Nat) (p : Nat) : List Nat → Res (List Nat × Nat)
  | [] => pure (buf, p)
  | c :: cs => do
    let buf ← store buf p c
    copyWord buf (p + 1) cs

/-- The outer loop `while (*wordstart)` of `netbuf_add_domain_name`; `name` is
what is left of the C string at `wordstart`.  Every pass consumes at least one
byte of `name`, so `name.length` passes are always enough. -/
def netbuf_add_domain_name_loop : Nat → List Nat → Nat → List Nat → Res (List Nat × Nat)
  | 0, _, _, _ => .error .fuel
  | fuel + 1, buf, p, name =>
    if name.headD 0 = 0 then pure (buf, p)
    else do
      let wordlen := wordLength name
      let len := if wordlen > 0x3F then 0x3F else wordlen
      let buf ← store buf p len
      let (buf, p) ← copyWord buf (p + 1) (name.take wordlen)
      let rest := name.drop wordlen
      let rest := if rest.headD 0 = 46 then rest.drop 1 else rest
      netbuf_add_domain_name_loop fuel buf p rest

/-- `netbuf_add_domain_name`: returns the new buffer and the new `*offset`. -/
def netbuf_add_domain_name (buf : List Nat) (buflen : Nat) (offset : Nat) (name : List Nat) :
    Res (List Nat × Nat) := do
  let start := offset
  let (buf, p) ← netbuf_add_domain_name_loop (name.length + 1) buf start name
  let buf ← store buf p 0
  let p := p + 1
  pure (buf, offset + (p - start))

/-- The loop of `calc_domain_name_size`, at position `p` with `len` counted so far. -/
def calc_domain_name_size_loop (buf : List Nat) : Nat → Nat → Nat → Res Nat
  | 0, _, _ => .error .fuel
  | fuel + 1, p, len => do
    let b ← load buf p
    if b = 0 then pure len
    else if b &&& 0xC0 = 0xC0 then do
      let b1 ← load buf (p + 1)
      let newoffset := ((b &&& 0x3F) <<< 8) ||| b1
      calc_domain_name_size_loop buf fuel newoffset len
    else
      let len := if len ≠ 0 then len + 1 else len
      calc_domain_name_size_loop buf fuel (p + (b + 1)) (len + b)

/-- `calc_domain_name_size`. -/
def calc_domain_name_size (fuel : Nat) (buf : List Nat) (buflen : Nat) (offset : Nat) : Res Nat :=
  calc_domain_name_size_loop buf fuel offset 0

/-- `strncat(dst, buf + p, n)`: appends bytes of the buffer from `p` on to `dst`,
stopping after `n` bytes or before the first zero byte, whichever comes first. -/
def strncat (buf : List Nat) (dst : List Nat) (p : Nat) : Nat → Res (List Nat)
  | 0 => pure dst
  | n + 1 => do
    let c ← load buf p
    if c = 0 then pure dst else strncat buf (dst ++ [c]) (p + 1) n

/-- The loop of `netbuf_get_domain_name`.  `off` is the current value of the
caller's `*offset`; `curroffset` is `true` while the pointer `curroffset` still
refers to it and `false` once it has been set to `NULL`.  Returns `*name`
(without its terminator) and the final `*offset`. -/
def netbuf_get_domain_name_loop (buf : List Nat) (start : Nat) :
    Nat → Nat → List Nat → Bool → Nat → Res (List Nat × Nat)
  | 0, _, _, _, _ => .error .fuel
  | fuel + 1, p, name, curroffset, off => do
    let b ← load buf p
    if b = 0 then
      if curroffset then pure (name, off + ((p + 1) - start)) else pure (name, off)
    else if b &&& 0xC0 = 0xC0 then do
      let b1 ← load buf (p + 1)
      let newoffset := ((b &&& 0x3F) <<< 8) ||| b1
      let off := if curroffset then off + ((p + 2) - start) else off
      netbuf_get_domain_name_loop buf start fuel newoffset name false off
    else do
      let name := if name ≠ [] then name ++ [46] else name
      let name ← strncat buf name (p + 1) b
      netbuf_get_domain_name_loop buf start fuel (p + (b + 1)) name curroffset off

/-- `netbuf_get_domain_name`: the size pre-scan for `malloc`, then the decoding
loop.  Returns `*name` (without its terminator) and the new `*offset`. -/
def netbuf_get_domain_name (fuel : Nat) (buf : List Nat) (buflen : Nat) (offset : Nat) :
    Res (List Nat × Nat) := do
  let start := offset
  let _size ← calc_domain_name_size fuel buf buflen offset
  netbuf_get_domain_name_loop buf start fuel start [] true offset

/-! ## Header, question and resource record (`sock.c` 501-592) -/

/-- `netbuf_add_dnsquery_header`: returns the new buffer and the new `*offset`. -/
def netbuf_add_dnsquery_header (buf : List Nat) (buflen : Nat) (offset : Nat)
    (header : dnsquery_header) : Res (List Nat × Nat) := do
  let (buf, offset) ← netbuf_add_16bitnum buf buflen offset header.id
  let p := offset
  let buf ← store buf p
    (((header.qr &&& 0x01) <<< 7) ||| ((header.opcode &&& 0x0F) <<< 3)
      ||| ((header.aa &&& 0x01) <<< 2) ||| ((header.tc &&& 0x01) <<< 1)
      ||| (header.rd &&& 0x01))
  let buf ← store buf (p + 1)
    (((header.ra &&& 0x01) <<< 7) ||| ((header.z &&& 0x07) <<< 4) ||| (header.rcode &&& 0x0F))
  let offset := offset + 2
  let (buf, offset) ← netbuf_add_16bitnum buf buflen offset header.qdcount
  let (buf, offset) ← netbuf_add_16bitnum buf buflen offset header.ancount
  let (buf, offset) ← netbuf_add_16bitnum buf buflen offset header.nscount
  let (buf, offset) ← netbuf_add_16bitnum buf buflen offset header.arcount
  pure (buf, offset)

/-- `netbuf_get_dnsquery_header`: returns `*header` and the new `*offset`. -/
def netbuf_get_dnsquery_header (buf : List Nat) (buflen : Nat) (offset : Nat) :
    Res (dnsquery_header × Nat) := do
  let (id, offset) ← netbuf_get_16bitnum buf buflen offset
  let p := offset
  let f0 ← load buf p
  let f1 ← load buf (p + 1)
  let offset := offset + 2
  let (qdcount, offset) ← netbuf_get_16bitnum buf buflen offset
  let (ancount, offset) ← netbuf_get_16bitnum buf buflen offset
  let (nscount, offset) ← netbuf_get_16bitnum buf buflen offset
  let (arcount, offset) ← netbuf_get_16bitnum buf buflen offset
  pure ({ id := id
          qr := (f0 >>> 7) &&& 0x01
          opcode := (f0 >>> 3) &&& 0x0F
          aa := (f0 >>> 2) &&& 0x01
          tc := (f0 >>> 1) &&& 0x01
          rd := f0 &&& 0x01
          ra := (f1 >>> 7) &&& 0x01
          z := (f1 >>> 4) &&& 0x07
          rcode := f1 &&& 0x0F
          qdcount := qdcount
          ancount := ancount
          nscount := nscount
          arcount := arcount }, offset)

/-- `netbuf_add_dnsquery_question`: returns the new buffer and the new `*offset`. -/
def netbuf_add_dnsquery_question (buf : List Nat) (buflen : Nat) (offset : Nat)
    (question : dnsquery_question) : Res (List Nat × Nat) := do
  let (buf, offset) ← netbuf_add_domain_name buf buflen offset question.qname
  let (buf, offset) ← netbuf_add_16bitnum buf buflen offset question.qtype
  let (buf, offset) ← netbuf_add_16bitnum buf buflen offset question.qclass
  pure (buf, offset)

/-- `netbuf_get_dnsquery_question`: returns `*question` and the new `*offset`. -/
def netbuf_get_dnsquery_question (fuel : Nat) (buf : List Nat) (buflen : Nat) (offset : Nat) :
    Res (dnsquery_question × Nat) := do
  let (qname, offset) ← netbuf_get_domain_name fuel buf buflen offset
  let (qtype, offset) ← netbuf_get_16bitnum buf buflen offset
  let (qclass, offset) ← netbuf_get_16bitnum buf buflen offset
  pure ({ qname := qname, qtype := qtype, qclass := qclass }, offset)

/-- `netbuf_get_dnsquery_srvrdata`: returns `*srvrdata` and the new `*offset`. -/
def netbuf_get_dnsquery_srvrdata (fuel : Nat) (buf : List Nat) (buflen : Nat) (offset : Nat) :
    Res (dnsquery_srvrdata × Nat) := do
  let (priority, offset) ← netbuf_get_16bitnum buf buflen offset
  let (weight, offset) ← netbuf_get_16bitnum buf buflen offset
  let (port, offset) ← netbuf_get_16bitnum buf buflen offset
  let (target, offset) ← netbuf_get_domain_name fuel buf buflen offset
  pure ({ priority := priority, weight := weight, port := port, target := target }, offset)

/-- `netbuf_get_dnsquery_resourcerecord`: returns `*rr` and the new `*offset`. -/
def netbuf_get_dnsquery_resourcerecord (fuel : Nat) (buf : List Nat) (buflen : Nat)
    (offset : Nat) : Res (dnsquery_resourcerecord × Nat) := do
  let (name, offset) ← netbuf_get_domain_name fuel buf buflen offset
  let (type, offset) ← netbuf_get_16bitnum buf buflen offset
  let (_class, offset) ← netbuf_get_16bitnum buf buflen offset
  let (ttl, offset) ← netbuf_get_32bitnum buf buflen offset
  let (rdlength, offset) ← netbuf_get_16bitnum buf buflen offset
  let rdata ←
    if type = 33 then do
      let newoffset := offset
      let (srvrdata, _newoffset) ← netbuf_get_dnsquery_srvrdata fuel buf buflen newoffset
      pure (rdata_t.srv srvrdata)
    else
      pure (rdata_t.raw offset)
  pure ({ name := name, type := type, _class := _class, ttl := ttl,
          rdlength := rdlength, rdata := rdata }, offset + rdlength)

/-! ## Specification devices -/

/-- The buffer `buf` with the bytes `bs` written over it from index `o` on. -/
def splice (buf : List Nat) (o : Nat) (bs : List Nat) : List Nat :=
  buf.take o ++ bs ++ buf.drop (o + bs.length)

/-- The bytes `bs` stand in `buf` from index `o` on. -/
def HoldsAt (buf : List Nat) (o : Nat) (bs : List Nat) : Prop :=
  bs <+: buf.drop o

instance instDecidableHoldsAt (buf : List Nat) (o : Nat) (bs : List Nat) :
    Decidable (HoldsAt buf o bs) := by
  unfold HoldsAt; infer_instance

/-- Big-endian bytes of a 16-bit number. -/
def be16 (v : Nat) : List Nat := [v / 256 % 256, v % 256]

/-- The fields of a header lie inside their bit widths: 16-bit id and counts,
one-bit `qr`, `aa`, `tc`, `rd`, `ra`, 4-bit `opcode` and `rcode`, 3-bit `z`. -/
def dnsquery_header.InRange (h : dnsquery_header) : Prop :=
  h.id < 2 ^ 16 ∧ h.qr < 2 ∧ h.opcode < 16 ∧ h.aa < 2 ∧ h.tc < 2 ∧ h.rd < 2 ∧
  h.ra < 2 ∧ h.z < 8 ∧ h.rcode < 16 ∧
  h.qdcount < 2 ^ 16 ∧ h.ancount < 2 ^ 16 ∧ h.nscount < 2 ^ 16 ∧ h.arcount < 2 ^ 16

instance instDecidableInRange (h : dnsquery_header) : Decidable h.InRange := by
  unfold dnsquery_header.InRange; infer_instance

/-- The first flag byte of a header as `netbuf_add_dnsquery_header` computes it. -/
def flagByte0 (h : dnsquery_header) : Nat :=
  ((h.qr &&& 0x01) <<< 7) ||| ((h.opcode &&& 0x0F) <<< 3) ||| ((h.aa &&& 0x01) <<< 2)
    ||| ((h.tc &&& 0x01) <<< 1) ||| (h.rd &&& 0x01)

/-- The second flag byte of a header as `netbuf_add_dnsquery_header` computes it. -/
def flagByte1 (h : dnsquery_header) : Nat :=
  ((h.ra &&& 0x01) <<< 7) ||| ((h.z &&& 0x07) <<< 4) ||| (h.rcode &&& 0x0F)

/-- The twelve bytes of a header on the wire. -/
def headerBytes (h : dnsquery_header) : List Nat :=
  be16 h.id ++ [flagByte0 h % 256, flagByte1 h % 256] ++ be16 h.qdcount ++ be16 h.ancount
    ++ be16 h.nscount ++ be16 h.arcount

/-- A dotted name: the labels joined by single dots (byte 46). -/
def dotJoin : List (List Nat) → List Nat
  | [] => []
  | [l] => l
  | l :: ls => l ++ 46 :: dotJoin ls

/-- The labels of a name on the wire, each as its length byte and its bytes. -/
def wireLabels : List (List Nat) → List Nat
  | [] => []
  | l :: ls => l.length :: l ++ wireLabels ls

/-- An uncompressed name on the wire: its labels, then a zero byte. -/
def wireName (ls : List (List Nat)) : List Nat := wireLabels ls ++ [0]

/-- The two bytes of a compression pointer to offset `t`. -/
def pointerBytes (t : Nat) : List Nat := [192 + t / 256, t % 256]

/-- What `strncat` copies of a label: its bytes up to the first zero byte. -/
def cstr (l : List Nat) : List Nat := l.takeWhile (· ≠ 0)

/-- The string `netbuf_get_domain_name` has built after reading the labels `ls`
when it had `name` before: a dot goes in front of a label only when the string
so far is not empty. -/
def appendLabels (name : List Nat) (ls : List (List Nat)) : List Nat :=
  ls.foldl (fun nm l => (if nm ≠ [] then nm ++ [46] else nm) ++ cstr l) name

/-- The count `calc_domain_name_size` has reached after the labels `ls` when it
had `len` before. -/
def sizeLabels (len : Nat) (ls : List (List Nat)) : Nat :=
  ls.foldl (fun n l => (if n ≠ 0 then n + 1 else n) + l.length) len

/-- A C string: every byte is a non-zero `char`. -/
def IsCString (s : List Nat) : Prop := ∀ c ∈ s, c ≠ 0 ∧ c < 256

instance instDecidableIsCString (s : List Nat) : Decidable (IsCString s) := by
  unfold IsCString; infer_instance

/-- A label of a dotted host name: between 1 and 63 bytes, each a non-zero
`char` other than the dot. -/
def IsLabel (l : List Nat) : Prop :=
  1 ≤ l.length ∧ l.length ≤ 63 ∧ ∀ c ∈ l, c ≠ 0 ∧ c ≠ 46 ∧ c < 256

instance instDecidableIsLabel (l : List Nat) : Decidable (IsLabel l) := by
  unfold IsLabel; infer_instance

/-- A label as it may stand in a message: between 1 and 63 bytes, none of them
zero (the decoded name is a C string). -/
def IsWireLabel (l : List Nat) : Prop :=
  1 ≤ l.length ∧ l.length ≤ 63 ∧ ∀ c ∈ l, c ≠ 0

instance instDecidableIsWireLabel (l : List Nat) : Decidable (IsWireLabel l) := by
  unfold IsWireLabel; infer_instance

/-! ## `sock_srv_lookup` (`sock.c` 648-996) -/

/-- The text `snprintf` produces from a format that is given no further
arguments: ordinary bytes stand for themselves up to the terminator, `%%` stands
for one `%`, and any other conversion has no argument to take (undefined
behaviour). -/
def format_noargs : List Nat → Res (List Nat)
  | [] => pure []
  | c :: cs =>
    if c = 0 then pure []
    else if c = 37 then
      match cs with
      | 37 :: rest => do
        let out ← format_noargs rest
        pure (37 :: out)
      | _ => .error .ub
    else do
      let out ← format_noargs cs
      pure (c :: out)

/-- What `snprintf(dst, n, ...)` leaves in the array `dst` when the formatted
text is `out`.  C99 `snprintf` stores at most `n - 1` bytes and a terminator;
under `_WIN32` the name is defined to `_snprintf`, which stores the text and a
terminator when the text is shorter than `n` and otherwise its first `n` bytes
with no terminator.  Storing beyond the array is an out-of-bounds access. -/
def snprintf_store (win32 : Bool) (dst : List Nat) (n : Nat) (out : List Nat) :
    Res (List Nat) :=
  let stored :=
    if win32 then (if out.length < n then out ++ [0] else out.take n)
    else (if n = 0 then [] else out.take (n - 1) ++ [0])
  if stored.length ≤ dst.length then pure (stored ++ dst.drop stored.length)
  else .error .oob

/-- `snprintf(dst, n, fmt)` with no further arguments, as `sock_srv_lookup`
calls it with the target or the domain in the place of the format. -/
def snprintf_noargs (win32 : Bool) (dst : List Nat) (n : Nat) (fmt : List Nat) :
    Res (List Nat) := do
  let out ← format_noargs fmt
  snprintf_store win32 dst n out

/-- The text of `snprintf(fulldomain, 2048, "_%s._%s.%s", service, proto, domain)`;
each argument is read up to its terminator. -/
def fulldomain_text (service proto domain : List Nat) : List Nat :=
  [95] ++ cstr service ++ [46, 95] ++ cstr proto ++ [46] ++ cstr domain

/-- One record of the list `DnsQuery_A` returns: `wType`, `Data.Srv.pNameTarget`
and `Data.Srv.wPort`. -/
structure DNS_RECORD where
  wType : Nat
  pNameTarget : List Nat
  wPort : Nat
deriving DecidableEq, Repr

/-- Outcome of one `recvfrom` on the nonblocking UDP socket. -/
inductive recv_result where
  /-- `SOCKET_ERROR` with `WSAEWOULDBLOCK` -/
  | would_block
  /-- `SOCKET_ERROR` with any other error -/
  | failed
  /-- a datagram; `insize` is its length -/
  | received (data : List Nat)
deriving DecidableEq, Repr

/-- What `sock_srv_lookup` gets from outside the program.
`dnsapi` is `none` when `dnsapi.dll` or one of its two entry points is missing,
else the status and record list of `DnsQuery_A`; `numdnsservers` is the number
of name servers the three discovery steps found (at most 16);
`recvfrom i j` is the outcome of poll `j` on the socket of name server `i`;
`stack` is what the array `buf[65536]` holds on entry. -/
structure srv_env where
  dnsapi : Option (Nat × List DNS_RECORD)
  numdnsservers : Nat
  recvfrom : Nat → Nat → recv_result
  stack : List Nat

/-- The variables `set`, `resulttarget` (the caller's array) and `*resultport`. -/
structure srv_result where
  set : Nat
  resulttarget : List Nat
  resultport : Nat
deriving DecidableEq, Repr

/-- The scan of the `DnsQuery_A` records (`sock.c` 678-688): the first record of
type SRV gives the result and ends the scan. -/
def dnsapi_scan (win32 : Bool) (resulttargetlength : Nat) :
    List DNS_RECORD → srv_result → Res srv_result
  | [], st => pure st
  | current :: next, st =>
    if current.wType = 33 then do
      let resulttarget ← snprintf_noargs win32 st.resulttarget resulttargetlength
        current.pNameTarget
      pure { set := 1, resulttarget := resulttarget, resultport := current.wPort }
    else dnsapi_scan win32 resulttargetlength next st

/-- The poll loop `for (j = 0; j < 50; j++)` on the socket of name server `i`
(`sock.c` 919-937), from poll `j` on with `n` polls left: returns `insize` and
the buffer. -/
def recv_poll (env : srv_env) (i : Nat) : Nat → Nat → Int → List Nat → Int × List Nat
  | 0, _, insize, buf => (insize, buf)
  | n + 1, j, _, buf =>
    match env.recvfrom i j with
    | .would_block => recv_poll env i n (j + 1) (-1) buf
    | .failed => (-1, buf)
    | .received data =>
      let data := data.take buf.length
      (data.length, data ++ buf.drop data.length)

/-- The loop over the name servers `for (i = 0; i < numdnsservers && insize <= 0; i++)`
(`sock.c` 906-940), from server `i` on with `n` servers left. -/
def nameserver_loop (env : srv_env) : Nat → Nat → Int → List Nat → Int × List Nat
  | 0, _, insize, buf => (insize, buf)
  | n + 1, i, insize, buf =>
    if insize ≤ 0 then
      let (insize, buf) := recv_poll env i 50 0 insize buf
      nameserver_loop env n (i + 1) insize buf
    else (insize, buf)

/-- The loop `for (i = 0; i < header.qdcount; i++)` over the questions. -/
def question_loop (fuel : Nat) (buf : List Nat) : Nat → Nat → Res Nat
  | 0, offset => pure offset
  | n + 1, offset => do
    let (_question, offset) ← netbuf_get_dnsquery_question fuel buf 65536 offset
    question_loop fuel buf n offset

/-- The body `if (rr.type == 33) { ... }` of the first loop over the answers
(`sock.c` 966-973): a record of type 33 stores its target and port and sets `set`. -/
def answer_store (win32 : Bool) (resulttargetlength : Nat) (rr : dnsquery_resourcerecord)
    (st : srv_result) : Res srv_result :=
  if rr.type = 33 then
    match rr.rdata with
    | .srv srvrdata => do
      let resulttarget ← snprintf_noargs win32 st.resulttarget resulttargetlength
        srvrdata.target
      pure { set := 1, resulttarget := resulttarget, resultport := srvrdata.port }
    | .raw _ => .error .ub
  else pure st

/-- The first loop `for (i = 0; i < header.ancount; i++)` over the answers
(`sock.c` 962-974). -/
def answer_loop (win32 : Bool) (fuel : Nat) (buf : List Nat) (resulttargetlength : Nat) :
    Nat → Nat → srv_result → Res (Nat × srv_result)
  | 0, offset, st => pure (offset, st)
  | n + 1, offset, st => do
    let (rr, offset) ← netbuf_get_dnsquery_resourcerecord fuel buf 65536 offset
    let st ← answer_store win32 resulttargetlength rr st
    answer_loop win32 fuel buf resulttargetlength n offset st

/-- The second loop `for (i = 0; i < header.ancount; i++)` (`sock.c` 976-979):
it decodes `ancount` further records from where the first loop stopped. -/
def record_loop (fuel : Nat) (buf : List Nat) : Nat → Nat → Res Nat
  | 0, offset => pure offset
  | n + 1, offset => do
    let (_rr, offset) ← netbuf_get_dnsquery_resourcerecord fuel buf 65536 offset
    record_loop fuel buf n offset

/-- The reply-parsing step `if (offset > 0) { ... }` (`sock.c` 942-980) on the
buffer as the exchange with the name servers left it. -/
def sock_srv_lookup_parse (win32 : Bool) (fuel : Nat) (buf : List Nat) (insize : Int)
    (resulttargetlength : Nat) (st : srv_result) : Res srv_result :=
  let offset := insize
  if offset > 0 then do
    let offset := 0
    let (header, offset) ← netbuf_get_dnsquery_header buf 65536 offset
    let offset ← question_loop fuel buf header.qdcount offset
    let (offset, st) ← answer_loop win32 fuel buf resulttargetlength header.ancount offset st
    let _offset ← record_loop fuel buf header.ancount offset
    pure st
  else pure st

/-- The header of the query (`sock.c` 891-894): all zero but for `id = 12345`,
`rd = 1` and `qdcount = 1`. -/
def srv_query_header : dnsquery_header :=
  { id := 12345, qr := 0, opcode := 0, aa := 0, tc := 0, rd := 1, ra := 0, z := 0,
    rcode := 0, qdcount := 1, ancount := 0, nscount := 0, arcount := 0 }

/-- The query `sock_srv_lookup` builds (`sock.c` 891-903): returns the buffer
and its length `offset`. -/
def sock_srv_lookup_query (buf : List Nat) (fulldomain : List Nat) : Res (List Nat × Nat) := do
  let offset := 0
  let header := srv_query_header
  let (buf, offset) ← netbuf_add_dnsquery_header buf 65536 offset header
  let question : dnsquery_question := { qname := fulldomain, qtype := 33, qclass := 1 }
  netbuf_add_dnsquery_question buf 65536 offset question

/-- `sock_srv_lookup`: returns the return value, the caller's array
`resulttarget` and `*resultport`.  `win32` says whether `_WIN32` is defined:
without it neither the native resolver nor the name servers are asked. -/
def sock_srv_lookup (win32 : Bool) (env : srv_env) (fuel : Nat)
    (service proto domain : List Nat)
    (resulttarget : List Nat) (resulttargetlength : Nat) (resultport : Nat) :
    Res (Int × List Nat × Nat) := do
  let st : srv_result := { set := 0, resulttarget := resulttarget, resultport := resultport }
  let text := fulldomain_text service proto domain
  -- `_snprintf` leaves `fulldomain` without terminator when the text does not fit:
  -- reading it as a string then runs over the end of the array
  let fulldomain : Res (List Nat) := if text.length < 2048 then pure text else .error .oob
  let st ←
    if win32 then do
      -- try using dnsapi first
      let st ←
        match env.dnsapi with
        | some (error, dnsrecords) => do
          let _name ← fulldomain
          if error = 0 then dnsapi_scan win32 resulttargetlength dnsrecords st else pure st
        | none => pure st
      -- if dnsapi didn't work/isn't there, try querying the dns server manually
      if st.set = 0 then
        if env.numdnsservers ≠ 0 then do
          let fulldomain ← fulldomain
          let (buf, _offset) ← sock_srv_lookup_query env.stack fulldomain
          let (insize, buf) := nameserver_loop env env.numdnsservers 0 0 buf
          sock_srv_lookup_parse win32 fuel buf insize resulttargetlength st
        else pure st
      else pure st
    else pure st
  if st.set = 0 then do
    let resulttarget ← snprintf_noargs win32 st.resulttarget resulttargetlength domain
    pure (0, resulttarget, 5222)
  else pure (1, st.resulttarget, st.resultport)

/-! ## `sock_connect` (`sock.c` 60-106) -/

/-- The error codes of the platform that `sock.c` names, and whether `_WIN32` is
defined.  Their values come from the system headers. -/
structure platform where
  win32 : Bool
  EINPROGRESS : Int
  EAGAIN : Int
  EINTR : Int
  ENOTCONN : Int
  WSAEINTR : Int
  WSAEWOULDBLOCK : Int
  WSAEINPROGRESS : Int
  WSAENOTCONN : Int

/-- One element of the `getaddrinfo` list, with what the system answers for it:
the value of `socket(...)`, the value of `connect(...)` on that socket and the
value of `sock_error()` after the `connect`. -/
structure addrinfo where
  socket : Int
  connect : Int
  error : Int
deriving DecidableEq, Repr

/-- `_in_progress`; `errno` is the value `sock_error()` has just returned. -/
def _in_progress (pf : platform) (error : Int) : Bool :=
  if pf.win32 then error = pf.WSAEWOULDBLOCK ∨ error = pf.WSAEINPROGRESS
  else error = pf.EINPROGRESS

/-- The loop `while (ainfo)` of `sock_connect`.  Next to `sock` it returns the
elements of the list for which `socket()` was called, in the order of the calls. -/
def sock_connect_loop (pf : platform) : List addrinfo → Int → List addrinfo →
    Int × List addrinfo
  | [], sock, tried => (sock, tried)
  | ainfo :: next, _, tried =>
    let sock := ainfo.socket
    if sock ≥ 0 then
      let err := ainfo.connect
      if err = 0 ∨ (err < 0 ∧ _in_progress pf ainfo.error) then (sock, tried ++ [ainfo])
      else sock_connect_loop pf next sock (tried ++ [ainfo])
    else sock_connect_loop pf next sock (tried ++ [ainfo])

/-- `sock_connect`; `getaddrinfo` is the value of the call of that name and the
list it stores in `res`. -/
def sock_connect (pf : platform) (getaddrinfo : Int × List addrinfo) : Int × List addrinfo :=
  let sock : Int := -1
  if getaddrinfo.1 ≠ 0 then (-1, [])
  else sock_connect_loop pf getaddrinfo.2 sock []

/-! ## Further specification devices -/

/-- The 16-bit big-endian number that stands at `o` in the buffer. -/
def u16At (buf : List Nat) (o : Nat) : Nat :=
  ((buf.getD o 0 <<< 8) ||| buf.getD (o + 1) 0) % 2 ^ 16

/-- The 32-bit big-endian number that stands at `o` in the buffer. -/
def u32At (buf : List Nat) (o : Nat) : Nat :=
  ((buf.getD o 0 <<< 24) ||| (buf.getD (o + 1) 0 <<< 16) ||| (buf.getD (o + 2) 0 <<< 8)
    ||| buf.getD (o + 3) 0) % 2 ^ 32

/-- Records stand one behind the other from `o` on and each of them decodes:
for every pair (owner-name bytes, rdlength) of the list the owner name decodes
and takes that many bytes, the ten bytes of type, class, ttl and rdlength lie
inside the buffer, the rdlength field has the given value and, for type 33, the
nested SRV decode returns; the next record starts at rdata + rdlength. -/
def RecordsAt (fuel : Nat) (buf : List Nat) : Nat → List (Nat × Nat) → Prop
  | _, [] => True
  | o, (namelen, rdlength) :: rest =>
    (netbuf_get_domain_name fuel buf 65536 o).map Prod.snd = .ok (o + namelen) ∧
    o + namelen + 10 ≤ buf.length ∧
    u16At buf (o + namelen + 8) = rdlength ∧
    (u16At buf (o + namelen) = 33 →
      (netbuf_get_dnsquery_srvrdata fuel buf 65536 (o + namelen + 10)).isOk = true) ∧
    RecordsAt fuel buf (o + namelen + 10 + rdlength) rest

instance instDecidableRecordsAt (fuel : Nat) (buf : List Nat) :
    ∀ (o : Nat) (shapes : List (Nat × Nat)), Decidable (RecordsAt fuel buf o shapes)
  | _, [] => isTrue trivial
  | o, (namelen, rdlength) :: rest =>
    have := instDecidableRecordsAt fuel buf (o + namelen + 10 + rdlength) rest
    inferInstanceAs (Decidable (
      (netbuf_get_domain_name fuel buf 65536 o).map Prod.snd = .ok (o + namelen) ∧
      o + namelen + 10 ≤ buf.length ∧
      u16At buf (o + namelen + 8) = rdlength ∧
      (u16At buf (o + namelen) = 33 →
        (netbuf_get_dnsquery_srvrdata fuel buf 65536 (o + namelen + 10)).isOk = true) ∧
      RecordsAt fuel buf (o + namelen + 10 + rdlength) rest))

/-- The bytes of the SRV query for the name with the given labels: the header
with id 12345, `rd` set and one question, the name, type 33 and class 1. -/
def queryBytes (labels : List (List Nat)) : List Nat :=
  headerBytes srv_query_header ++ (wireName labels ++ be16 33 ++ be16 1)

/-- The end of `sock_srv_lookup` (`sock.c` 988-995) on the variables `st`. -/
def sock_srv_lookup_finish (win32 : Bool) (domain : List Nat) (resulttargetlength : Nat)
    (st : srv_result) : Res (Int × List Nat × Nat) :=
  if st.set = 0 then do
    let resulttarget ← snprintf_noargs win32 st.resulttarget resulttargetlength domain
    pure (0, resulttarget, 5222)
  else pure (1, st.resulttarget, st.resultport)

/-! ## Sample replies -/

/-- The labels of `_xmpp-client._tcp.example.com`. -/
def sample_labels : List (List Nat) :=
  [[95, 120, 109, 112, 112, 45, 99, 108, 105, 101, 110, 116], [95, 116, 99, 112],
    [101, 120, 97, 109, 112, 108, 101], [99, 111, 109]]

/-- A reply to the query for `_xmpp-client._tcp.example.com`: header (id 12345,
`qr`, `rd`, `ra`, one question, one answer), the question, and one SRV answer
(owner a pointer to offset 12, ttl 3600, priority 10, weight 20, port 5269)
whose target is `xmpp.example.com`. -/
def sample_reply : List Nat :=
  [48, 57, 129, 128, 0, 1, 0, 1, 0, 0, 0, 0,
   12, 95, 120, 109, 112, 112, 45, 99, 108, 105, 101, 110, 116, 4, 95, 116, 99, 112,
   7, 101, 120, 97, 109, 112, 108, 101, 3, 99, 111, 109, 0, 0, 33, 0, 1,
   192, 12, 0, 33, 0, 1, 0, 0, 14, 16, 0, 24, 0, 10, 0, 20, 20, 149,
   4, 120, 109, 112, 112, 7, 101, 120, 97, 109, 112, 108, 101, 3, 99, 111, 109, 0]

/-- The same reply with the target `xmpp%%.example.com`. -/
def sample_reply_percent : List Nat :=
  [48, 57, 129, 128, 0, 1, 0, 1, 0, 0, 0, 0,
   12, 95, 120, 109, 112, 112, 45, 99, 108, 105, 101, 110, 116, 4, 95, 116, 99, 112,
   7, 101, 120, 97, 109, 112, 108, 101, 3, 99, 111, 109, 0, 0, 33, 0, 1,
   192, 12, 0, 33, 0, 1, 0, 0, 14, 16, 0, 26, 0, 10, 0, 20, 20, 149,
   6, 120, 109, 112, 112, 37, 37, 7, 101, 120, 97, 109, 112, 108, 101, 3, 99, 111, 109, 0]

/-- A reply with two SRV answers: first `first.example.com` port 5222 (priority
10), then `second.example.com` port 5223 (priority 20). -/
def sample_reply_two : List Nat :=
  [48, 57, 129, 128, 0, 1, 0, 2, 0, 0, 0, 0,
   12, 95, 120, 109, 112, 112, 45, 99, 108, 105, 101, 110, 116, 4, 95, 116, 99, 112,
   7, 101, 120, 97, 109, 112, 108, 101, 3, 99, 111, 109, 0, 0, 33, 0, 1,
   192, 12, 0, 33, 0, 1, 0, 0, 14, 16, 0, 25, 0, 10, 0, 0, 20, 102,
   5, 102, 105, 114, 115, 116, 7, 101, 120, 97, 109, 112, 108, 101, 3, 99, 111, 109, 0,
   192, 12, 0, 33, 0, 1, 0, 0, 14, 16, 0, 26, 0, 20, 0, 0, 20, 103,
   6, 115, 101, 99, 111, 110, 100, 7, 101, 120, 97, 109, 112, 108, 101, 3, 99, 111, 109, 0]

/-- Surroundings in which the native resolver is missing, one name server is
known and it answers the first poll with `reply`; the array `buf` is all zero on
entry. -/
def sample_env (reply : List Nat) : srv_env :=
  { dnsapi := none, numdnsservers := 1, recvfrom := fun _ _ => .received reply,
    stack := List.replicate 65536 0 }

/-- Surroundings in which the native resolver is missing and no name server is
known. -/
def sample_env_none : srv_env :=
  { dnsapi := none, numdnsservers := 0, recvfrom := fun _ _ => .failed, stack := [] }

/-- Surroundings in which the native resolver returns the given records with
status 0. -/
def sample_env_dnsapi (records : List DNS_RECORD) : srv_env :=
  { dnsapi := some (0, records), numdnsservers := 0, recvfrom := fun _ _ => .failed,
    stack := [] }

/-- The error codes of Linux and of Winsock, without `_WIN32`. -/
def sample_platform : platform :=
  { win32 := false, EINPROGRESS := 115, EAGAIN := 11, EINTR := 4, ENOTCONN := 107,
    WSAEINTR := 10004, WSAEWOULDBLOCK := 10035, WSAEINPROGRESS := 10036, WSAENOTCONN := 10057 }

/-! ## `sock_is_recoverable` (`sock.c` 147-155) -/

/-- `sock_is_recoverable`. -/
def sock_is_recoverable (pf : platform) (error : Int) : Bool :=
  if pf.win32 then
    error = pf.WSAEINTR ∨ error = pf.WSAEWOULDBLOCK ∨ error = pf.WSAEINPROGRESS
  else
    error = pf.EAGAIN ∨ error = pf.EINTR

/-! ## Specification devices for the later properties -/

/-- Big-endian bytes of a 32-bit number. -/
def be32 (v : Nat) : List Nat :=
  [v / 16777216 % 256, v / 65536 % 256, v / 256 % 256, v % 256]

/-- The bytes the loop of `netbuf_add_domain_name` writes for the C string
`name`: per pass the length byte (capped at 63) and then every byte of the word. -/
def encodedLabels : Nat → List Nat → List Nat
  | 0, _ => []
  | fuel + 1, name =>
    if name.headD 0 = 0 then []
    else
      let wordlen := wordLength name
      let len := if wordlen > 0x3F then 0x3F else wordlen
      let rest := name.drop wordlen
      let rest := if rest.headD 0 = 46 then rest.drop 1 else rest
      (len :: (name.take wordlen).map (· % 256)) ++ encodedLabels fuel rest

/-- The bytes `netbuf_add_domain_name` writes for the C string `name`. -/
def encodedName (name : List Nat) : List Nat :=
  encodedLabels (name.length + 1) name ++ [0]


/-- The labels the loops of `calc_domain_name_size` and `netbuf_get_domain_name`
reach from position `p`, in the order they reach them: a zero byte ends the
name, a byte with both high bits set and the byte after it give the position to
go on from, and every other byte `b` stands in front of the label made of the `b`
bytes after it. -/
def labelsReached (buf : List Nat) : Nat → Nat → Res (List (List Nat))
  | 0, _ => .error .fuel
  | fuel + 1, p => do
    let b ← load buf p
    if b = 0 then pure []
    else if b &&& 0xC0 = 0xC0 then do
      let b1 ← load buf (p + 1)
      let newoffset := ((b &&& 0x3F) <<< 8) ||| b1
      labelsReached buf fuel newoffset
    else do
      let rest ← labelsReached buf fuel (p + (b + 1))
      pure (((buf.drop (p + 1)).take b) :: rest)

/-- One pass of the loops of `calc_domain_name_size` and `netbuf_get_domain_name`
at position `p`, as far as the position goes: `none` at a zero byte (the loop
ends), the target at a compression pointer, and the position behind the label at
every other byte. -/
def nextPosition (buf : List Nat) (p : Nat) : Res (Option Nat) := do
  let b ← load buf p
  if b = 0 then pure none
  else if b &&& 0xC0 = 0xC0 then do
    let b1 ← load buf (p + 1)
    pure (some (((b &&& 0x3F) <<< 8) ||| b1))
  else pure (some (p + (b + 1)))

/-- The position at which pass number `k` of the loops starts when the first
pass starts at `p`; `none` when the loop has ended or has read outside the
buffer before. -/
def positionAt (buf : List Nat) : Nat → Nat → Option Nat
  | 0, p => some p
  | k + 1, p =>
    match nextPosition buf p with
    | .ok (some q) => positionAt buf k q
    | _ => none

/-- The service `xmpp-client`. -/
def service_xmpp_client : List Nat := [120, 109, 112, 112, 45, 99, 108, 105, 101, 110, 116]

/-- The protocol `tcp`. -/
def proto_tcp : List Nat := [116, 99, 112]

/-- A domain of one label of 64 bytes `a`. -/
def domain_64 : List Nat := List.replicate 64 97

/-- The 100 bytes `sock_srv_lookup` builds as query for `xmpp-client`, `tcp` and
`domain_64`: the header, `_xmpp-client` and `_tcp` behind their length bytes,
then the length byte 63 in front of all 64 bytes of the domain label, the zero
byte, type 33 and class 1. -/
def query_domain_64 : List Nat :=
  [48, 57, 1, 0, 0, 1, 0, 0, 0, 0, 0, 0]
    ++ [12, 95, 120, 109, 112, 112, 45, 99, 108, 105, 101, 110, 116]
    ++ [4, 95, 116, 99, 112]
    ++ [63] ++ List.replicate 64 97 ++ [0]
    ++ [0, 33, 0, 1]
/-! # Properties -/

/-! ## The result monad and buffers -/

@[simp] theorem ok_bind {α β : Type} (a : α) (f : α → Res β) :
    ((Except.ok a : Res α) >>= f) = f a := rfl

@[simp] theorem error_bind {α β : Type} (e : Fault) (f : α → Res β) :
    ((Except.error e : Res α) >>= f) = Except.error e := rfl

@[simp] theorem pure_eq_ok {α : Type} (a : α) : (pure a : Res α) = Except.ok a := rfl

theorem length_splice {buf : List Nat} {o : Nat} {bs : List Nat} (h : o + bs.length ≤ buf.length) :
    (splice buf o bs).length = buf.length := by
  simp [splice]; omega

theorem splice_nil (buf : List Nat) (o : Nat) : splice buf o [] = buf := by
  simp [splice]

theorem splice_splice {buf : List Nat} {o : Nat} {as bs : List Nat}
    (h : o + as.length + bs.length ≤ buf.length) :
    splice (splice buf o as) (o + as.length) bs = splice buf o (as ++ bs) := by
  have h1 : (buf.take o).length = o := by simp; omega
  have e1 : (buf.take o ++ as ++ buf.drop (o + as.length)).take (o + as.length)
      = buf.take o ++ as := by
    rw [List.take_append_eq_append_take]
    simp [h1]
  have e2 : (buf.take o ++ as ++ buf.drop (o + as.length)).drop (o + as.length + bs.length)
      = buf.drop (o + as.length + bs.length) := by
    rw [List.drop_append_eq_append_drop]
    simp [h1]
  unfold splice
  rw [e1, e2]
  simp [List.append_assoc, Nat.add_assoc]

theorem store_eq_splice {buf : List Nat} {i : Nat} (x : Nat) (h : i < buf.length) :
    store buf i x = .ok (splice buf i [x % 256]) := by
  unfold store splice
  rw [if_pos h, List.set_eq_take_append_cons_drop]
  simp [h]

theorem holdsAt_splice {buf : List Nat} {o : Nat} {bs : List Nat} (h : o + bs.length ≤ buf.length) :
    HoldsAt (splice buf o bs) o bs := by
  unfold HoldsAt splice
  have h1 : (buf.take o).length = o := by simp; omega
  rw [List.append_assoc, List.drop_append_eq_append_drop]
  simp [h1]
  rw [List.drop_eq_nil_of_le (by simp [h1])]
  simp

theorem holdsAt_append {buf : List Nat} {o : Nat} {as bs : List Nat} :
    HoldsAt buf o (as ++ bs) ↔ HoldsAt buf o as ∧ HoldsAt buf (o + as.length) bs := by
  unfold HoldsAt
  constructor
  · rintro ⟨t, ht⟩
    refine ⟨⟨bs ++ t, by simpa using ht⟩, ⟨t, ?_⟩⟩
    have := congrArg (List.drop as.length) ht
    simpa [List.drop_drop, Nat.add_comm] using this
  · rintro ⟨⟨t, ht⟩, ⟨u, hu⟩⟩
    refine ⟨u, ?_⟩
    have := congrArg (List.drop as.length) ht
    simp [List.drop_drop] at this
    rw [← ht, this, ← hu]
    simp

theorem load_of_holdsAt {buf : List Nat} {o : Nat} {bs : List Nat} (h : HoldsAt buf o bs)
    {i : Nat} (hi : i < bs.length) : load buf (o + i) = .ok (bs.get ⟨i, hi⟩) := by
  obtain ⟨t, ht⟩ := h
  have : buf[o + i]? = some (bs.get ⟨i, hi⟩) := by
    rw [← List.getElem?_drop, ← ht]
    simp [List.getElem?_append_left hi]
  simp [load, this]

theorem load_head_of_holdsAt {buf : List Nat} {o b : Nat} {bs : List Nat}
    (h : HoldsAt buf o (b :: bs)) : load buf o = .ok b := by
  simpa using load_of_holdsAt h (i := 0) (by simp)

theorem holdsAt_cons {buf : List Nat} {o b : Nat} {bs : List Nat} :
    HoldsAt buf o (b :: bs) ↔ load buf o = .ok b ∧ HoldsAt buf (o + 1) bs := by
  constructor
  · intro h
    refine ⟨load_head_of_holdsAt h, ?_⟩
    have := (@holdsAt_append buf o [b] bs).1 (by simpa using h)
    simpa using this.2
  · rintro ⟨h1, h2⟩
    have h0 : HoldsAt buf o [b] := by
      unfold HoldsAt
      unfold load at h1
      cases hb : buf[o]? with
      | none => simp [hb] at h1
      | some c =>
        simp [hb] at h1
        subst h1
        have hlt : o < buf.length := by
          by_contra hc
          rw [List.getElem?_eq_none (by omega)] at hb
          cases hb
        rw [List.drop_eq_getElem_cons hlt]
        have : buf[o] = c := by
          rw [List.getElem?_eq_getElem hlt] at hb
          exact Option.some.inj hb
        rw [this]
        exact ⟨_, rfl⟩
    have := (@holdsAt_append buf o [b] bs).2 ⟨h0, by simpa using h2⟩
    simpa using this

/-! ## Big-endian integers -/

theorem and_255 (x : Nat) : x &&& 0xff = x % 256 := Nat.and_pow_two_sub_one_eq_mod x 8

theorem shl8_or {b : Nat} (a : Nat) (hb : b < 256) : (a <<< 8) ||| b = a * 256 + b := by
  rw [Nat.shiftLeft_eq, Nat.mul_comm]
  exact (@Nat.mul_add_lt_is_or 8 b hb a).symm

theorem add_16bitnum_eq {buf : List Nat} (buflen : Nat) {o : Nat} (v : Nat)
    (h : o + 2 ≤ buf.length) :
    netbuf_add_16bitnum buf buflen o v = .ok (splice buf o (be16 v), o + 2) := by
  unfold netbuf_add_16bitnum
  dsimp only
  rw [store_eq_splice _ (by omega)]
  simp only [ok_bind]
  rw [store_eq_splice _ (by rw [length_splice (by simpa using by omega)]; omega)]
  simp only [ok_bind, pure_eq_ok]
  have := @splice_splice buf o [((v >>> 8) &&& 0xff) % 256] [(v &&& 0xff) % 256]
    (by simpa using by omega)
  simp only [List.length_singleton] at this
  rw [this]
  simp [be16, and_255, Nat.shiftRight_eq_div_pow]

theorem get_16bitnum_eq {buf : List Nat} (buflen : Nat) {o b0 b1 : Nat}
    (h : HoldsAt buf o [b0, b1]) (h0 : b0 < 256) (h1 : b1 < 256) :
    netbuf_get_16bitnum buf buflen o = .ok (b0 * 256 + b1, o + 2) := by
  unfold netbuf_get_16bitnum
  dsimp only
  have e0 := load_of_holdsAt h (i := 0) (by simp)
  have e1 := load_of_holdsAt h (i := 1) (by simp)
  simp only [Nat.add_zero, List.get_eq_getElem, List.getElem_cons_zero,
    List.getElem_cons_succ] at e0 e1
  rw [e0]
  simp only [ok_bind]
  rw [e1]
  simp only [ok_bind, pure_eq_ok]
  rw [shl8_or _ h1]
  congr 2
  omega

theorem get_16bitnum_be16 {buf : List Nat} (buflen : Nat) {o v : Nat}
    (h : HoldsAt buf o (be16 v)) (hv : v < 2 ^ 16) :
    netbuf_get_16bitnum buf buflen o = .ok (v, o + 2) := by
  rw [get_16bitnum_eq buflen h (Nat.mod_lt _ (by decide)) (Nat.mod_lt _ (by decide))]
  congr 2
  omega

theorem store_splice {buf : List Nat} {o : Nat} {as : List Nat} {i : Nat} (x : Nat)
    (hi : i = o + as.length) (h : i < buf.length) :
    store (splice buf o as) i x = .ok (splice buf o (as ++ [x % 256])) := by
  subst hi
  rw [store_eq_splice _ (by rw [length_splice (by omega)]; exact h),
    splice_splice (by simpa using h)]

theorem add_16bitnum_splice {buf : List Nat} (buflen : Nat) {o : Nat} {as : List Nat} {i : Nat}
    (v : Nat) (hi : i = o + as.length) (h : i + 2 ≤ buf.length) :
    netbuf_add_16bitnum (splice buf o as) buflen i v
      = .ok (splice buf o (as ++ be16 v), i + 2) := by
  subst hi
  rw [add_16bitnum_eq _ _ (by rw [length_splice (by omega)]; exact h),
    splice_splice (by simpa [be16] using h)]

/-! ## Header -/

theorem length_headerBytes (h : dnsquery_header) : (headerBytes h).length = 12 := by
  simp [headerBytes, be16]

theorem add_dnsquery_header_eq {buf : List Nat} (buflen : Nat) {o : Nat} (h : dnsquery_header)
    (hroom : o + 12 ≤ buf.length) :
    netbuf_add_dnsquery_header buf buflen o h = .ok (splice buf o (headerBytes h), o + 12) := by
  unfold netbuf_add_dnsquery_header
  rw [add_16bitnum_eq _ _ (by omega)]
  simp only [ok_bind]
  rw [store_splice _ (by simp [be16]) (by omega)]
  simp only [ok_bind]
  rw [store_splice _ (by simp [be16]) (by omega)]
  simp only [ok_bind]
  rw [add_16bitnum_splice _ _ (by simp [be16]) (by omega)]
  simp only [ok_bind]
  rw [add_16bitnum_splice _ _ (by simp [be16]) (by omega)]
  simp only [ok_bind]
  rw [add_16bitnum_splice _ _ (by simp [be16]) (by omega)]
  simp only [ok_bind]
  rw [add_16bitnum_splice _ _ (by simp [be16]) (by omega)]
  simp only [ok_bind, pure_eq_ok]
  simp [headerBytes, flagByte0, flagByte1]

theorem flags0_round_trip : ∀ qr < 2, ∀ opcode < 16, ∀ aa < 2, ∀ tc < 2, ∀ rd < 2,
    ∀ f, f = ((((qr &&& 0x01) <<< 7) ||| ((opcode &&& 0x0F) <<< 3) ||| ((aa &&& 0x01) <<< 2)
        ||| ((tc &&& 0x01) <<< 1) ||| (rd &&& 0x01)) % 256) →
    ((f >>> 7) &&& 0x01 = qr ∧ (f >>> 3) &&& 0x0F = opcode ∧ (f >>> 2) &&& 0x01 = aa
      ∧ (f >>> 1) &&& 0x01 = tc ∧ f &&& 0x01 = rd) := by
  intro qr hqr opcode hop aa haa tc htc rd hrd f hf
  subst hf
  interval_cases qr <;> interval_cases aa <;> interval_cases tc <;> interval_cases rd <;>
    interval_cases opcode <;> decide

theorem flags1_round_trip : ∀ ra < 2, ∀ z < 8, ∀ rcode < 16,
    ∀ f, f = ((((ra &&& 0x01) <<< 7) ||| ((z &&& 0x07) <<< 4) ||| (rcode &&& 0x0F)) % 256) →
    ((f >>> 7) &&& 0x01 = ra ∧ (f >>> 4) &&& 0x07 = z ∧ f &&& 0x0F = rcode) := by
  intro ra hra z hz rcode hrc f hf
  subst hf
  interval_cases ra <;> interval_cases z <;> interval_cases rcode <;> decide

theorem get_dnsquery_header_eq {buf : List Nat} (buflen : Nat) {o : Nat} {h : dnsquery_header}
    (hb : HoldsAt buf o (headerBytes h)) (hr : h.InRange) :
    netbuf_get_dnsquery_header buf buflen o = .ok (h, o + 12) := by
  obtain ⟨hid, hqr, hop, haa, htc, hrd, hra, hz, hrc, hqd, han, hns, har⟩ := hr
  unfold headerBytes at hb
  simp only [holdsAt_append, List.length_append, be16, List.length_cons, List.length_nil] at hb
  obtain ⟨⟨⟨⟨⟨b_id, b_fl⟩, b_qd⟩, b_an⟩, b_ns⟩, b_ar⟩ := hb
  have e0 := load_of_holdsAt b_fl (i := 0) (by simp)
  have e1 := load_of_holdsAt b_fl (i := 1) (by simp)
  simp only [Nat.add_zero, List.get_eq_getElem, List.getElem_cons_zero,
    List.getElem_cons_succ] at e0 e1
  obtain ⟨f1, f2, f3, f4, f5⟩ := flags0_round_trip _ hqr _ hop _ haa _ htc _ hrd _ rfl
  obtain ⟨g1, g2, g3⟩ := flags1_round_trip _ hra _ hz _ hrc _ rfl
  unfold netbuf_get_dnsquery_header
  rw [get_16bitnum_be16 buflen b_id hid]
  simp only [ok_bind]
  rw [e0]
  simp only [ok_bind]
  rw [e1]
  simp only [ok_bind]
  rw [get_16bitnum_be16 buflen b_qd hqd]
  simp only [ok_bind]
  rw [get_16bitnum_be16 buflen b_an han]
  simp only [ok_bind]
  rw [get_16bitnum_be16 buflen b_ns hns]
  simp only [ok_bind]
  rw [get_16bitnum_be16 buflen b_ar har]
  simp only [ok_bind, pure_eq_ok]
  unfold flagByte0 flagByte1
  rw [f1, f2, f3, f4, f5, g1, g2, g3]

/-- C1. Header round trip: for every header whose fields lie inside their bit
widths and every offset `o` with at least 12 bytes of buffer after it,
`netbuf_add_dnsquery_header` at `o` followed by `netbuf_get_dnsquery_header` at
`o` returns the original header, and both calls advance the cursor by exactly 12. -/
theorem header_round_trip (buf : List Nat) (buflen o : Nat) (h : dnsquery_header)
    (hr : h.InRange) (hroom : o + 12 ≤ buf.length) :
    ∃ buf', netbuf_add_dnsquery_header buf buflen o h = .ok (buf', o + 12) ∧
      netbuf_get_dnsquery_header buf' buflen o = .ok (h, o + 12) :=
  ⟨splice buf o (headerBytes h), add_dnsquery_header_eq buflen h hroom,
    get_dnsquery_header_eq buflen
      (holdsAt_splice (by rw [length_headerBytes]; exact hroom)) hr⟩

/-- C1 at a concrete input: the header of the SRV query (id 12345, `rd` set, one
question) with a response code and flags filled in, written at offset 3 of a
16-byte buffer. -/
theorem header_round_trip_witness :
    ∃ buf', netbuf_add_dnsquery_header (List.replicate 16 7) 16 3
        { id := 12345, qr := 1, opcode := 9, aa := 0, tc := 1, rd := 1, ra := 1, z := 5,
          rcode := 3, qdcount := 1, ancount := 65535, nscount := 0, arcount := 258 }
        = .ok (buf', 3 + 12) ∧
      netbuf_get_dnsquery_header buf' 16 3
        = .ok ({ id := 12345, qr := 1, opcode := 9, aa := 0, tc := 1, rd := 1, ra := 1, z := 5,
                 rcode := 3, qdcount := 1, ancount := 65535, nscount := 0, arcount := 258 },
               3 + 12) :=
  header_round_trip (List.replicate 16 7) 16 3 _ (by decide) (by decide)

/-! ## Domain names: decoding -/

theorem length_byte_plain : ∀ n, 1 ≤ n → n < 192 → n ≠ 0 ∧ ¬ (n &&& 0xC0 = 0xC0) := by
  intro n h1 h2
  interval_cases n <;> decide

theorem pointer_byte (t : Nat) (ht : t < 2 ^ 14) :
    192 + t / 256 ≠ 0 ∧ (192 + t / 256) &&& 0xC0 = 0xC0 ∧
      (((192 + t / 256) &&& 0x3F) <<< 8) ||| (t % 256) = t := by
  have hq : t / 256 < 64 := by omega
  have key : ∀ q < 64, (192 + q) &&& 0xC0 = 0xC0 ∧ (192 + q) &&& 0x3F = q := by
    intro q hq
    interval_cases q <;> decide
  obtain ⟨k1, k2⟩ := key _ hq
  refine ⟨by omega, k1, ?_⟩
  rw [k2, shl8_or _ (Nat.mod_lt _ (by decide))]
  omega

theorem strncat_eq {buf : List Nat} {p : Nat} (l : List Nat) (dst : List Nat)
    (h : HoldsAt buf p l) : strncat buf dst p l.length = .ok (dst ++ cstr l) := by
  induction l generalizing dst p with
  | nil => simp [strncat, cstr]
  | cons c cs ih =>
    obtain ⟨h1, h2⟩ := holdsAt_cons.1 h
    simp only [strncat, List.length_cons, h1, ok_bind]
    by_cases hc : c = 0
    · simp [hc, cstr]
    · rw [if_neg hc, ih _ h2]
      simp [cstr, List.takeWhile_cons, hc]

theorem length_wireLabels_cons (l : List Nat) (ls : List (List Nat)) :
    (wireLabels (l :: ls)).length = l.length + 1 + (wireLabels ls).length := by
  simp [wireLabels]; omega

theorem holdsAt_wireLabels_cons {buf : List Nat} {p : Nat} {l : List Nat} {ls : List (List Nat)}
    (h : HoldsAt buf p (wireLabels (l :: ls) )) :
    load buf p = .ok l.length ∧ HoldsAt buf (p + 1) l ∧
      HoldsAt buf (p + (l.length + 1)) (wireLabels ls) := by
  have h' : HoldsAt buf p (l.length :: (l ++ wireLabels ls)) := by simpa [wireLabels] using h
  obtain ⟨h1, h2⟩ := holdsAt_cons.1 h'
  obtain ⟨h3, h4⟩ := holdsAt_append.1 h2
  refine ⟨h1, h3, ?_⟩
  have e : p + (l.length + 1) = p + 1 + l.length := by omega
  rw [e]; exact h4

/-- The size pre-scan walks over plain labels one pass each. -/
theorem calc_loop_labels {buf : List Nat} (ls : List (List Nat)) (p len fuel : Nat)
    (h : HoldsAt buf p (wireLabels ls)) (hl : ∀ l ∈ ls, 1 ≤ l.length ∧ l.length < 192) :
    calc_domain_name_size_loop buf (ls.length + fuel) p len
      = calc_domain_name_size_loop buf fuel (p + (wireLabels ls).length) (sizeLabels len ls) := by
  induction ls generalizing p len with
  | nil => simp [wireLabels, sizeLabels]
  | cons l ls ih =>
    obtain ⟨h1, -, h3⟩ := holdsAt_wireLabels_cons h
    obtain ⟨n1, n2⟩ := length_byte_plain _ (hl l (by simp)).1 (hl l (by simp)).2
    have e : (l :: ls).length + fuel = (ls.length + fuel) + 1 := by simp; omega
    rw [e, calc_domain_name_size_loop]
    simp only [h1, ok_bind, if_neg n1, if_neg n2]
    rw [ih _ _ h3 (fun l hl' => hl l (by simp [hl']))]
    rw [length_wireLabels_cons]
    simp only [sizeLabels, List.foldl_cons]
    congr 1
    omega

/-- The decoding loop walks over plain labels one pass each, leaving the
caller's cursor alone. -/
theorem get_loop_labels {buf : List Nat} (start : Nat) (ls : List (List Nat))
    (p : Nat) (name : List Nat) (cur : Bool) (off fuel : Nat)
    (h : HoldsAt buf p (wireLabels ls)) (hl : ∀ l ∈ ls, 1 ≤ l.length ∧ l.length < 192) :
    netbuf_get_domain_name_loop buf start (ls.length + fuel) p name cur off
      = netbuf_get_domain_name_loop buf start fuel (p + (wireLabels ls).length)
          (appendLabels name ls) cur off := by
  induction ls generalizing p name with
  | nil => simp [wireLabels, appendLabels]
  | cons l ls ih =>
    obtain ⟨h1, h2, h3⟩ := holdsAt_wireLabels_cons h
    obtain ⟨n1, n2⟩ := length_byte_plain _ (hl l (by simp)).1 (hl l (by simp)).2
    have e : (l :: ls).length + fuel = (ls.length + fuel) + 1 := by simp; omega
    rw [e, netbuf_get_domain_name_loop]
    simp only [h1, ok_bind, if_neg n1, if_neg n2]
    rw [strncat_eq l _ h2]
    simp only [ok_bind]
    rw [ih _ _ h3 (fun l hl' => hl l (by simp [hl']))]
    rw [length_wireLabels_cons]
    simp only [appendLabels, List.foldl_cons]
    congr 1
    omega

theorem cstr_eq_self {l : List Nat} (h : ∀ c ∈ l, c ≠ 0) : cstr l = l := by
  unfold cstr
  rw [List.takeWhile_eq_self_iff]
  intro c hc
  simpa using h c hc

theorem dotJoin_cons_cons (l m : List Nat) (ls : List (List Nat)) :
    dotJoin (l :: m :: ls) = l ++ 46 :: dotJoin (m :: ls) := rfl

theorem appendLabels_eq {ls : List (List Nat)} (h : ∀ l ∈ ls, IsWireLabel l) (name : List Nat) :
    appendLabels name ls
      = if name = [] then dotJoin ls else if ls = [] then name else name ++ 46 :: dotJoin ls := by
  induction ls generalizing name with
  | nil => by_cases hn : name = [] <;> simp [appendLabels, dotJoin, hn]
  | cons l ls ih =>
    have hl := h l (by simp)
    have hne : l ≠ [] := by
      intro hc; have := hl.1; simp [hc] at this
    have step : appendLabels name (l :: ls)
        = appendLabels ((if name ≠ [] then name ++ [46] else name) ++ l) ls := by
      simp only [appendLabels, List.foldl_cons, cstr_eq_self hl.2.2]
    rw [step, ih (fun m hm => h m (by simp [hm]))]
    have hne2 : (if name ≠ [] then name ++ [46] else name) ++ l ≠ [] := by simp [hne]
    rw [if_neg hne2]
    cases ls with
    | nil => by_cases hn : name = [] <;> simp [dotJoin, hn]
    | cons m ms => by_cases hn : name = [] <;> simp [dotJoin_cons_cons, hn]

theorem appendLabels_nil_eq_dotJoin {ls : List (List Nat)} (h : ∀ l ∈ ls, IsWireLabel l) :
    appendLabels [] ls = dotJoin ls := by
  rw [appendLabels_eq h]; simp

theorem appendLabels_append (name : List Nat) (ks ts : List (List Nat)) :
    appendLabels name (ks ++ ts) = appendLabels (appendLabels name ks) ts := by
  simp [appendLabels, List.foldl_append]

theorem sizeLabels_append (len : Nat) (ks ts : List (List Nat)) :
    sizeLabels len (ks ++ ts) = sizeLabels (sizeLabels len ks) ts := by
  simp [sizeLabels, List.foldl_append]

theorem wireLabel_bounds {ls : List (List Nat)} (h : ∀ l ∈ ls, IsWireLabel l) :
    ∀ l ∈ ls, 1 ≤ l.length ∧ l.length < 192 := by
  intro l hl
  obtain ⟨h1, h2, -⟩ := h l hl
  exact ⟨h1, by omega⟩

/-- Decoding an uncompressed name that stands at `o`: the labels with their
C-string contents, and the cursor just behind the closing zero byte. -/
theorem get_domain_name_plain {buf : List Nat} (buflen : Nat) {o : Nat} {ls : List (List Nat)}
    (h : HoldsAt buf o (wireName ls)) (hl : ∀ l ∈ ls, 1 ≤ l.length ∧ l.length < 192)
    (fuel : Nat) (hf : ls.length + 1 ≤ fuel) :
    netbuf_get_domain_name fuel buf buflen o
      = .ok (appendLabels [] ls, o + (wireName ls).length) := by
  obtain ⟨k, rfl⟩ : ∃ k, fuel = ls.length + (k + 1) := ⟨fuel - ls.length - 1, by omega⟩
  obtain ⟨h1, h2⟩ := holdsAt_append.1 h
  have hz : load buf (o + (wireLabels ls).length) = .ok 0 := load_head_of_holdsAt h2
  unfold netbuf_get_domain_name calc_domain_name_size
  rw [calc_loop_labels ls o 0 (k + 1) h1 hl, calc_domain_name_size_loop]
  simp only [hz, ok_bind, if_true, pure_eq_ok]
  rw [get_loop_labels o ls o [] true o (k + 1) h1 hl, netbuf_get_domain_name_loop]
  simp only [hz, ok_bind, if_true, pure_eq_ok]
  congr 2
  simp [wireName]
  omega

/-- Decoding `ks` plain labels followed by a compression pointer to `t`, where
an uncompressed name stands: the labels of both, and the cursor just behind the
pointer. -/
theorem get_domain_name_pointer {buf : List Nat} (buflen : Nat) {o t : Nat}
    {ks ts : List (List Nat)}
    (h : HoldsAt buf o (wireLabels ks ++ pointerBytes t)) (ht : t < 2 ^ 14)
    (h' : HoldsAt buf t (wireName ts))
    (hk : ∀ l ∈ ks, 1 ≤ l.length ∧ l.length < 192)
    (hts : ∀ l ∈ ts, 1 ≤ l.length ∧ l.length < 192)
    (fuel : Nat) (hf : ks.length + ts.length + 2 ≤ fuel) :
    netbuf_get_domain_name fuel buf buflen o
      = .ok (appendLabels [] (ks ++ ts), o + ((wireLabels ks).length + 2)) := by
  obtain ⟨k, rfl⟩ : ∃ k, fuel = ks.length + ((ts.length + (k + 1)) + 1) :=
    ⟨fuel - ks.length - ts.length - 2, by omega⟩
  obtain ⟨h1, h2⟩ := holdsAt_append.1 h
  obtain ⟨p0, p1'⟩ := holdsAt_cons.1 (by simpa [pointerBytes] using h2)
  have p1 : load buf (o + (wireLabels ks).length + 1) = .ok (t % 256) := load_head_of_holdsAt p1'
  obtain ⟨b1, b2, b3⟩ := pointer_byte t ht
  obtain ⟨t1, t2⟩ := holdsAt_append.1 h'
  have hz : load buf (t + (wireLabels ts).length) = .ok 0 := load_head_of_holdsAt t2
  unfold netbuf_get_domain_name calc_domain_name_size
  rw [calc_loop_labels ks o 0 _ h1 hk, calc_domain_name_size_loop]
  simp only [p0, p1, ok_bind, if_neg b1, if_pos b2, b3]
  rw [calc_loop_labels ts t _ (k + 1) t1 hts, calc_domain_name_size_loop]
  simp only [hz, ok_bind, if_true, pure_eq_ok]
  rw [get_loop_labels o ks o [] true o _ h1 hk, netbuf_get_domain_name_loop]
  simp only [p0, p1, ok_bind, if_neg b1, if_pos b2, b3, if_true]
  rw [get_loop_labels o ts t _ false _ (k + 1) t1 hts, netbuf_get_domain_name_loop]
  simp only [hz, ok_bind, if_true, pure_eq_ok]
  rw [appendLabels_append]
  simp
  omega

/-! ## Domain names: encoding -/

theorem wordLength_append {l : List Nat} (hl : ∀ c ∈ l, c ≠ 0 ∧ c ≠ 46) (rest : List Nat)
    (hr : rest.headD 0 = 0 ∨ rest.headD 0 = 46) : wordLength (l ++ rest) = l.length := by
  induction l with
  | nil =>
    cases rest with
    | nil => simp [wordLength]
    | cons c cs =>
      have : c = 0 ∨ c = 46 := by simpa using hr
      simp [wordLength, this]
  | cons c cs ih =>
    have hc := hl c (by simp)
    have : ¬ (c = 0 ∨ c = 46) := by simp [hc.1, hc.2]
    have ih' := ih (fun d hd => hl d (by simp [hd]))
    show wordLength (c :: (cs ++ rest)) = (c :: cs).length
    rw [wordLength, if_neg this, ih', List.length_cons]

theorem copyWord_eq {buf : List Nat} {p : Nat} (w : List Nat) (hw : ∀ c ∈ w, c < 256)
    (h : p + w.length ≤ buf.length) : copyWord buf p w = .ok (splice buf p w, p + w.length) := by
  induction w using List.reverseRecOn generalizing buf p with
  | nil => simp [copyWord, splice_nil]
  | append_singleton w c ih =>
    have hlen : p + w.length < buf.length := by simp at h; omega
    have key : ∀ (v : List Nat) (b : List Nat) (q : Nat),
        copyWord b q (v ++ [c]) = (copyWord b q v >>= fun r => do
          let b' ← store r.1 r.2 c
          pure (b', r.2 + 1)) := by
      intro v
      induction v with
      | nil => intro b q; simp only [List.nil_append, copyWord]; rfl
      | cons d ds ihd =>
        intro b q
        simp only [List.cons_append, copyWord]
        cases hs : store b q d with
        | error e => rfl
        | ok b2 => simp only [ok_bind]; exact ihd b2 (q + 1)
    rw [key, ih (fun d hd => hw d (by simp [hd])) (by omega)]
    simp only [ok_bind]
    rw [store_splice _ rfl hlen]
    simp only [ok_bind, pure_eq_ok]
    have : c % 256 = c := Nat.mod_eq_of_lt (hw c (by simp))
    rw [this]
    simp [Nat.add_assoc]

theorem dotJoin_cons (l : List Nat) (ls : List (List Nat)) :
    ∃ rest, dotJoin (l :: ls) = l ++ rest ∧ (rest.headD 0 = 0 ∨ rest.headD 0 = 46) ∧
      (if rest.headD 0 = 46 then rest.drop 1 else rest) = dotJoin ls ∧
      (ls = [] → rest = []) := by
  cases ls with
  | nil => exact ⟨[], by simp [dotJoin], by simp, by simp [dotJoin], fun _ => rfl⟩
  | cons m ms => exact ⟨46 :: dotJoin (m :: ms), rfl, by simp, by simp, by simp⟩

/-- The encoding loop writes one length byte and the label bytes per label. -/
theorem add_loop_labels (ls : List (List Nat)) (hl : ∀ l ∈ ls, IsLabel l)
    (buf : List Nat) (p k : Nat) (h : p + (wireLabels ls).length ≤ buf.length) :
    netbuf_add_domain_name_loop (ls.length + 1 + k) buf p (dotJoin ls)
      = .ok (splice buf p (wireLabels ls), p + (wireLabels ls).length) := by
  induction ls generalizing buf p with
  | nil =>
    have e : List.length ([] : List (List Nat)) + 1 + k = k + 1 := by simp; omega
    rw [e]
    simp [netbuf_add_domain_name_loop, dotJoin, wireLabels, splice_nil]
  | cons l ls ih =>
    obtain ⟨hl1, hl2, hl3⟩ := hl l (by simp)
    obtain ⟨rest, e1, e2, e3, -⟩ := dotJoin_cons l ls
    rw [length_wireLabels_cons] at h
    have hh : (l ++ rest).headD 0 ≠ 0 := by
      cases l with
      | nil => simp at hl1
      | cons c cs => simpa using (hl3 c (by simp)).1
    have hw : wordLength (l ++ rest) = l.length :=
      wordLength_append (fun d hd => ⟨(hl3 d hd).1, (hl3 d hd).2.1⟩) rest e2
    have e : (l :: ls).length + 1 + k = (ls.length + 1 + k) + 1 := by simp; omega
    have hA : (splice buf p [l.length]).length = buf.length :=
      length_splice (by simp; omega)
    have s1 : splice (splice buf p [l.length]) (p + 1) l = splice buf p (l.length :: l) := by
      have := @splice_splice buf p [l.length] l (by simp; omega)
      simpa using this
    have hB : (splice buf p (l.length :: l)).length = buf.length :=
      length_splice (by simp; omega)
    have s2 : splice (splice buf p (l.length :: l)) (p + 1 + l.length) (wireLabels ls)
        = splice buf p (wireLabels (l :: ls)) := by
      have := @splice_splice buf p (l.length :: l) (wireLabels ls) (by simp; omega)
      simp only [List.length_cons] at this
      rw [show p + 1 + l.length = p + (l.length + 1) by omega, this]
      simp [wireLabels]
    rw [e1, e, netbuf_add_domain_name_loop, if_neg hh]
    simp only [hw]
    have h63 : ¬ (l.length > 0x3F) := by omega
    rw [if_neg h63, store_eq_splice _ (by omega)]
    simp only [ok_bind]
    rw [List.take_left' rfl, List.drop_left' rfl]
    have hm : l.length % 256 = l.length := Nat.mod_eq_of_lt (by omega)
    rw [hm, copyWord_eq _ (fun d hd => (hl3 d hd).2.2) (by rw [hA]; omega)]
    simp only [ok_bind]
    rw [e3, s1, ih (fun m hm => hl m (by simp [hm])) _ _ (by rw [hB]; omega), s2,
      length_wireLabels_cons]
    congr 2
    omega

theorem length_le_dotJoin {ls : List (List Nat)} (hl : ∀ l ∈ ls, 1 ≤ l.length) :
    ls.length ≤ (dotJoin ls).length := by
  induction ls with
  | nil => simp
  | cons l ls ih =>
    have h1 := hl l (by simp)
    have h2 := ih (fun m hm => hl m (by simp [hm]))
    cases ls with
    | nil => simpa [dotJoin] using h1
    | cons m ms => simp [dotJoin_cons_cons] at h2 ⊢; omega

/-- The encoder writes the uncompressed wire form of a dotted name. -/
theorem add_domain_name_eq {buf : List Nat} (buflen : Nat) {o : Nat} (ls : List (List Nat))
    (hl : ∀ l ∈ ls, IsLabel l) (h : o + (wireName ls).length ≤ buf.length) :
    netbuf_add_domain_name buf buflen o (dotJoin ls)
      = .ok (splice buf o (wireName ls), o + (wireName ls).length) := by
  have hlen := length_le_dotJoin (fun l hl' => (hl l hl').1)
  obtain ⟨k, hk⟩ : ∃ k, (dotJoin ls).length + 1 = ls.length + 1 + k :=
    ⟨(dotJoin ls).length - ls.length, by omega⟩
  have h' : o + (wireLabels ls).length + 1 ≤ buf.length := by simpa [wireName] using h
  unfold netbuf_add_domain_name
  dsimp only
  rw [hk, add_loop_labels ls hl buf o k (by omega)]
  simp only [ok_bind]
  rw [store_splice _ rfl (by omega)]
  simp [wireName]
  omega

/-! ## Fuel -/

/-- More fuel does not change a result of the size pre-scan. -/
theorem calc_loop_mono {buf : List Nat} {fuel p len r : Nat}
    (h : calc_domain_name_size_loop buf fuel p len = .ok r) (k : Nat) :
    calc_domain_name_size_loop buf (fuel + k) p len = .ok r := by
  induction fuel generalizing p len with
  | zero => simp [calc_domain_name_size_loop] at h
  | succ n ih =>
    rw [Nat.add_right_comm, calc_domain_name_size_loop]
    rw [calc_domain_name_size_loop] at h
    cases hb : load buf p with
    | error e => simp [hb] at h
    | ok b =>
      simp only [hb, ok_bind] at h ⊢
      by_cases h0 : b = 0
      · simpa [h0] using h
      · rw [if_neg h0] at h ⊢
        by_cases hp : b &&& 0xC0 = 0xC0
        · rw [if_pos hp] at h ⊢
          cases hb1 : load buf (p + 1) with
          | error e => simp [hb1] at h
          | ok b1 =>
            simp only [hb1, ok_bind] at h ⊢
            exact ih h
        · rw [if_neg hp] at h ⊢
          exact ih h

/-- More fuel does not change a result of the decoding loop. -/
theorem get_loop_mono {buf : List Nat} {start fuel p : Nat} {name : List Nat} {cur : Bool}
    {off : Nat} {r : List Nat × Nat}
    (h : netbuf_get_domain_name_loop buf start fuel p name cur off = .ok r) (k : Nat) :
    netbuf_get_domain_name_loop buf start (fuel + k) p name cur off = .ok r := by
  induction fuel generalizing p name cur off with
  | zero => simp [netbuf_get_domain_name_loop] at h
  | succ n ih =>
    rw [Nat.add_right_comm, netbuf_get_domain_name_loop]
    rw [netbuf_get_domain_name_loop] at h
    cases hb : load buf p with
    | error e => simp [hb] at h
    | ok b =>
      simp only [hb, ok_bind] at h ⊢
      by_cases h0 : b = 0
      · simpa [h0] using h
      · rw [if_neg h0] at h ⊢
        by_cases hp : b &&& 0xC0 = 0xC0
        · rw [if_pos hp] at h ⊢
          cases hb1 : load buf (p + 1) with
          | error e => simp [hb1] at h
          | ok b1 =>
            simp only [hb1, ok_bind] at h ⊢
            exact ih h
        · rw [if_neg hp] at h ⊢
          generalize (if name ≠ [] then name ++ [46] else name) = nm0 at h ⊢
          cases hs : strncat buf nm0 (p + 1) b with
          | error e => rw [hs] at h; cases h
          | ok nm =>
            simp only [hs, ok_bind] at h ⊢
            exact ih h

/-- More fuel does not change a result of `netbuf_get_domain_name`. -/
theorem get_domain_name_mono {buf : List Nat} {buflen fuel o : Nat} {r : List Nat × Nat}
    (h : netbuf_get_domain_name fuel buf buflen o = .ok r) (k : Nat) :
    netbuf_get_domain_name (fuel + k) buf buflen o = .ok r := by
  unfold netbuf_get_domain_name calc_domain_name_size at h ⊢
  cases hc : calc_domain_name_size_loop buf fuel o 0 with
  | error e => simp [hc] at h
  | ok s =>
    simp only [hc, ok_bind] at h
    simp only [calc_loop_mono hc k, ok_bind]
    exact get_loop_mono h k

/-- Two runs of `netbuf_get_domain_name` that both return agree, whatever their fuel. -/
theorem get_domain_name_det {buf : List Nat} {buflen f1 f2 o : Nat} {r1 r2 : List Nat × Nat}
    (h1 : netbuf_get_domain_name f1 buf buflen o = .ok r1)
    (h2 : netbuf_get_domain_name f2 buf buflen o = .ok r2) : r1 = r2 := by
  have e1 := get_domain_name_mono h1 f2
  have e2 := get_domain_name_mono h2 f1
  rw [Nat.add_comm] at e2
  rw [e1] at e2
  exact Except.ok.inj e2

/-! ## Question -/

theorem length_wireLabels_le (ls : List (List Nat)) :
    (wireLabels ls).length ≤ (dotJoin ls).length + 1 ∧
      (ls ≠ [] → (wireLabels ls).length = (dotJoin ls).length + 1) := by
  induction ls with
  | nil => simp [wireLabels, dotJoin]
  | cons l ls ih =>
    cases ls with
    | nil => simp [wireLabels, dotJoin]
    | cons m ms =>
      have := ih.2 (by simp)
      rw [length_wireLabels_cons, this, dotJoin_cons_cons]
      simp
      omega

theorem length_wireName_le (ls : List (List Nat)) :
    (wireName ls).length ≤ (dotJoin ls).length + 2 := by
  have := (length_wireLabels_le ls).1
  simp [wireName]
  omega

theorem isWireLabel_of_isLabel {ls : List (List Nat)} (hl : ∀ l ∈ ls, IsLabel l) :
    ∀ l ∈ ls, IsWireLabel l :=
  fun l h => ⟨(hl l h).1, (hl l h).2.1, fun c hc => ((hl l h).2.2 c hc).1⟩

theorem add_dnsquery_question_eq {buf : List Nat} (buflen : Nat) {o : Nat}
    (ls : List (List Nat)) (qtype qclass : Nat) (hl : ∀ l ∈ ls, IsLabel l)
    (h : o + (wireName ls).length + 4 ≤ buf.length) :
    netbuf_add_dnsquery_question buf buflen o
        { qname := dotJoin ls, qtype := qtype, qclass := qclass }
      = .ok (splice buf o (wireName ls ++ be16 qtype ++ be16 qclass),
          o + (wireName ls).length + 4) := by
  unfold netbuf_add_dnsquery_question
  dsimp only
  rw [add_domain_name_eq buflen ls hl (by omega)]
  simp only [ok_bind]
  rw [add_16bitnum_splice _ _ rfl (by omega)]
  simp only [ok_bind]
  rw [add_16bitnum_splice _ _ (by simp [be16]; omega) (by omega)]
  simp only [ok_bind, pure_eq_ok]

theorem get_dnsquery_question_eq {buf : List Nat} (buflen : Nat) {o : Nat}
    {ls : List (List Nat)} {qtype qclass : Nat}
    (hb : HoldsAt buf o (wireName ls ++ be16 qtype ++ be16 qclass))
    (hl : ∀ l ∈ ls, IsWireLabel l) (ht : qtype < 2 ^ 16) (hc : qclass < 2 ^ 16)
    (fuel : Nat) (hf : ls.length + 1 ≤ fuel) :
    netbuf_get_dnsquery_question fuel buf buflen o
      = .ok ({ qname := dotJoin ls, qtype := qtype, qclass := qclass },
          o + (wireName ls).length + 4) := by
  simp only [holdsAt_append, List.length_append] at hb
  obtain ⟨⟨b1, b2⟩, b3⟩ := hb
  have e : o + ((wireName ls).length + (be16 qtype).length) = o + (wireName ls).length + 2 := by
    simp [be16]; omega
  rw [e] at b3
  unfold netbuf_get_dnsquery_question
  rw [get_domain_name_plain buflen b1 (wireLabel_bounds hl) fuel hf]
  simp only [ok_bind]
  rw [get_16bitnum_be16 buflen b2 ht]
  simp only [ok_bind]
  rw [get_16bitnum_be16 buflen b3 hc]
  simp only [ok_bind, pure_eq_ok]
  rw [appendLabels_nil_eq_dotJoin hl]

/-- C2 (amended). Question round trip: for every question whose `qname` is the
dot-join of labels of 1 to 63 bytes each (so it has no leading, trailing or
doubled dot; the empty name is the join of no labels), every 16-bit `qtype` and
`qclass` and every offset `o` with room for the encoding,
`netbuf_add_dnsquery_question` at `o` followed by `netbuf_get_dnsquery_question`
at `o` returns the same `qname`, `qtype` and `qclass`, and the read cursor ends
where the write cursor ended. -/
theorem question_round_trip (buf : List Nat) (buflen o : Nat) (labels : List (List Nat))
    (qtype qclass : Nat) (hl : ∀ l ∈ labels, IsLabel l)
    (ht : qtype < 2 ^ 16) (hc : qclass < 2 ^ 16)
    (hroom : o + (dotJoin labels).length + 6 ≤ buf.length) :
    ∃ buf' e,
      netbuf_add_dnsquery_question buf buflen o
          { qname := dotJoin labels, qtype := qtype, qclass := qclass } = .ok (buf', e) ∧
      ∀ fuel, labels.length + 1 ≤ fuel →
        netbuf_get_dnsquery_question fuel buf' buflen o
          = .ok ({ qname := dotJoin labels, qtype := qtype, qclass := qclass }, e) := by
  have hlen := length_wireName_le labels
  refine ⟨_, _, add_dnsquery_question_eq buflen labels qtype qclass hl (by omega), ?_⟩
  intro fuel hf
  exact get_dnsquery_question_eq buflen
    (holdsAt_splice (by simp [be16]; omega)) (isWireLabel_of_isLabel hl) ht hc fuel hf

/-- C2 at a concrete input: the SRV question for `_x._tcp.ab.c`, written at
offset 12 of a 40-byte buffer and read back. -/
theorem question_round_trip_witness :
    ∃ buf' e,
      netbuf_add_dnsquery_question (List.replicate 40 0) 40 12
          { qname := dotJoin [[95, 120], [95, 116, 99, 112], [97, 98], [99]],
            qtype := 33, qclass := 1 } = .ok (buf', e) ∧
      ∀ fuel, [[95, 120], [95, 116, 99, 112], [97, 98], [99]].length + 1 ≤ fuel →
        netbuf_get_dnsquery_question fuel buf' 40 12
          = .ok ({ qname := dotJoin [[95, 120], [95, 116, 99, 112], [97, 98], [99]],
                   qtype := 33, qclass := 1 }, e) :=
  question_round_trip (List.replicate 40 0) 40 12 [[95, 120], [95, 116, 99, 112], [97, 98], [99]]
    33 1 (by decide) (by decide) (by decide) (by decide)

/-- C2 as stated fails: the name `a.` has the components `a` and the empty
string, both of at most 63 bytes.  Its encoding is `01 61 00`, which decodes to
`a`: no run of `netbuf_get_dnsquery_question` returns the `qname` `a.` that was
written. -/
theorem question_round_trip_fails_on_trailing_dot :
    (∀ l ∈ [[97], []], List.length l ≤ 63 ∧ ∀ c ∈ l, c ≠ 0 ∧ c ≠ 46 ∧ c < 256) ∧
    dotJoin [[97], []] = [97, 46] ∧
    netbuf_add_dnsquery_question (List.replicate 8 0) 8 0
        { qname := [97, 46], qtype := 33, qclass := 1 } = .ok ([1, 97, 0, 0, 33, 0, 1, 0], 7) ∧
    netbuf_get_dnsquery_question 2 [1, 97, 0, 0, 33, 0, 1, 0] 8 0
      = .ok ({ qname := [97], qtype := 33, qclass := 1 }, 7) ∧
    ¬ ∃ fuel e, netbuf_get_dnsquery_question fuel [1, 97, 0, 0, 33, 0, 1, 0] 8 0
      = .ok ({ qname := [97, 46], qtype := 33, qclass := 1 }, e) := by
  refine ⟨by decide, by decide, by decide, by decide, ?_⟩
  rintro ⟨fuel, e, h⟩
  unfold netbuf_get_dnsquery_question at h
  cases hn : netbuf_get_domain_name fuel [1, 97, 0, 0, 33, 0, 1, 0] 8 0 with
  | error f => rw [hn] at h; cases h
  | ok r =>
    have h2 : netbuf_get_domain_name 2 [1, 97, 0, 0, 33, 0, 1, 0] 8 0 = .ok ([97], 3) := by
      decide
    have := get_domain_name_det hn h2
    subst this
    rw [hn] at h
    simp only [ok_bind] at h
    have h3 : netbuf_get_16bitnum [1, 97, 0, 0, 33, 0, 1, 0] 8 3 = .ok (33, 5) := by decide
    have h4 : netbuf_get_16bitnum [1, 97, 0, 0, 33, 0, 1, 0] 8 5 = .ok (1, 7) := by decide
    rw [h3] at h
    simp only [ok_bind] at h
    rw [h4] at h
    simp at h

/-! ## Compression pointers -/

theorem length_wireLabels_eq_sum (ls : List (List Nat)) :
    (wireLabels ls).length = (ls.map (fun l => l.length + 1)).sum := by
  induction ls with
  | nil => rfl
  | cons l ls ih => rw [length_wireLabels_cons, ih]; simp

/-- Once `curroffset` is `NULL` the decoding loop returns the caller's cursor as it is. -/
theorem get_loop_null_cursor {buf : List Nat} {start fuel p : Nat} {name : List Nat}
    {off : Nat} {r : List Nat × Nat}
    (h : netbuf_get_domain_name_loop buf start fuel p name false off = .ok r) : r.2 = off := by
  induction fuel generalizing p name with
  | zero => simp [netbuf_get_domain_name_loop] at h
  | succ n ih =>
    rw [netbuf_get_domain_name_loop] at h
    cases hb : load buf p with
    | error e => simp [hb] at h
    | ok b =>
      simp only [hb, ok_bind] at h
      by_cases h0 : b = 0
      · simp [h0] at h
        rw [← h]
      · rw [if_neg h0] at h
        by_cases hp : b &&& 0xC0 = 0xC0
        · rw [if_pos hp] at h
          cases hb1 : load buf (p + 1) with
          | error e => simp [hb1] at h
          | ok b1 =>
            simp only [hb1, ok_bind] at h
            exact ih h
        · rw [if_neg hp] at h
          generalize (if name ≠ [] then name ++ [46] else name) = nm0 at h
          cases hs : strncat buf nm0 (p + 1) b with
          | error e => rw [hs] at h; cases h
          | ok nm =>
            simp only [hs, ok_bind] at h
            exact ih h

/-- Whatever stands at the target of the pointer: when decoding `ks` plain labels
followed by a pointer returns, the cursor is just behind the pointer. -/
theorem get_domain_name_pointer_cursor {buf : List Nat} {buflen o t : Nat}
    {ks : List (List Nat)} (h : HoldsAt buf o (wireLabels ks ++ pointerBytes t))
    (ht : t < 2 ^ 14) (hk : ∀ l ∈ ks, 1 ≤ l.length ∧ l.length < 192)
    {fuel : Nat} {r : List Nat × Nat}
    (hr : netbuf_get_domain_name fuel buf buflen o = .ok r) :
    r.2 = o + ((wireLabels ks).length + 2) := by
  have hr' := get_domain_name_mono hr (ks.length + 1)
  obtain ⟨h1, h2⟩ := holdsAt_append.1 h
  obtain ⟨p0, p1'⟩ := holdsAt_cons.1 (by simpa [pointerBytes] using h2)
  have p1 : load buf (o + (wireLabels ks).length + 1) = .ok (t % 256) := load_head_of_holdsAt p1'
  obtain ⟨b1, b2, b3⟩ := pointer_byte t ht
  unfold netbuf_get_domain_name at hr'
  cases hc : calc_domain_name_size (fuel + (ks.length + 1)) buf buflen o with
  | error e => rw [hc] at hr'; cases hr'
  | ok s =>
    simp only [hc, ok_bind] at hr'
    have e : fuel + (ks.length + 1) = ks.length + (fuel + 1) := by omega
    rw [e, get_loop_labels o ks o [] true o _ h1 hk, netbuf_get_domain_name_loop] at hr'
    simp only [p0, p1, ok_bind, if_neg b1, if_pos b2, b3, if_true] at hr'
    rw [get_loop_null_cursor hr']
    omega

/-- C3. Compression decoding: let the buffer hold a well-formed uncompressed name
with labels `ts` at an offset `t < 2^14` and, at `o`, the plain labels `ks`
followed by a two-byte compression pointer to `t` (labels of 1 to 63 non-zero
bytes each).  Then decoding at `t` yields the name stored there, and
`netbuf_get_domain_name` at `o` returns the labels `ks` dot-joined with that
name and advances the cursor by the bytes of `ks` (each length + 1) plus 2; for
`ks = []` this is the same string as at `t` and an advance of exactly 2.  The
advance does not depend on what is reached from `t`: in every buffer that holds
the same labels and pointer at `o`, a run that returns leaves the cursor there. -/
theorem compression_decoding (buf : List Nat) (buflen o t : Nat) (ks ts : List (List Nat))
    (hk : ∀ l ∈ ks, IsWireLabel l) (hts : ∀ l ∈ ts, IsWireLabel l) (ht : t < 2 ^ 14)
    (hname : HoldsAt buf t (wireName ts))
    (hptr : HoldsAt buf o (wireLabels ks ++ pointerBytes t)) :
    (∀ fuel, ks.length + ts.length + 2 ≤ fuel →
        netbuf_get_domain_name fuel buf buflen t = .ok (dotJoin ts, t + (wireName ts).length) ∧
        netbuf_get_domain_name fuel buf buflen o
          = .ok (dotJoin (ks ++ ts), o + ((ks.map (fun l => l.length + 1)).sum + 2))) ∧
    (∀ other : List Nat, HoldsAt other o (wireLabels ks ++ pointerBytes t) →
      ∀ fuel name off, netbuf_get_domain_name fuel other buflen o = .ok (name, off) →
        off = o + ((ks.map (fun l => l.length + 1)).sum + 2)) := by
  rw [← length_wireLabels_eq_sum]
  have hall : ∀ l ∈ ks ++ ts, IsWireLabel l := by
    intro l hl
    rcases List.mem_append.1 hl with h | h
    · exact hk l h
    · exact hts l h
  refine ⟨fun fuel hf => ⟨?_, ?_⟩, fun other ho fuel name off h =>
    get_domain_name_pointer_cursor ho ht (wireLabel_bounds hk) h⟩
  · rw [get_domain_name_plain buflen hname (wireLabel_bounds hts) fuel (by omega),
      appendLabels_nil_eq_dotJoin hts]
  · rw [get_domain_name_pointer buflen hptr ht hname (wireLabel_bounds hk)
      (wireLabel_bounds hts) fuel hf, appendLabels_nil_eq_dotJoin hall]

/-- C3 at a concrete input: `xmpp.example.com` stands at offset 2, and at offset
20 the label `A` followed by a pointer to offset 2. -/
theorem compression_decoding_witness :
    (∀ fuel, [[65]].length + [[120, 109, 112, 112], [101, 120, 97, 109, 112, 108, 101],
          [99, 111, 109]].length + 2 ≤ fuel →
        netbuf_get_domain_name fuel
          [0, 0, 4, 120, 109, 112, 112, 7, 101, 120, 97, 109, 112, 108, 101, 3, 99, 111, 109, 0,
            1, 65, 192, 2] 24 2
          = .ok (dotJoin [[120, 109, 112, 112], [101, 120, 97, 109, 112, 108, 101], [99, 111, 109]],
              2 + (wireName [[120, 109, 112, 112], [101, 120, 97, 109, 112, 108, 101],
                [99, 111, 109]]).length) ∧
        netbuf_get_domain_name fuel
          [0, 0, 4, 120, 109, 112, 112, 7, 101, 120, 97, 109, 112, 108, 101, 3, 99, 111, 109, 0,
            1, 65, 192, 2] 24 20
          = .ok (dotJoin ([[65]] ++ [[120, 109, 112, 112], [101, 120, 97, 109, 112, 108, 101],
                [99, 111, 109]]),
              20 + (([[65]].map (fun l => l.length + 1)).sum + 2))) ∧
    (∀ other : List Nat, HoldsAt other 20 (wireLabels [[65]] ++ pointerBytes 2) →
      ∀ fuel name off, netbuf_get_domain_name fuel other 24 20 = .ok (name, off) →
        off = 20 + (([[65]].map (fun l => l.length + 1)).sum + 2)) :=
  compression_decoding _ 24 20 2 [[65]]
    [[120, 109, 112, 112], [101, 120, 97, 109, 112, 108, 101], [99, 111, 109]]
    (by decide) (by decide) (by decide) (by decide) (by decide)

/-! ## Termination of name decoding -/

/-- A run of `netbuf_get_domain_name` that returns has got a size from the pre-scan. -/
theorem calc_ok_of_get_ok {buf : List Nat} {buflen fuel o : Nat} {r : List Nat × Nat}
    (h : netbuf_get_domain_name fuel buf buflen o = .ok r) :
    ∃ size, calc_domain_name_size fuel buf buflen o = .ok size := by
  unfold netbuf_get_domain_name at h
  cases hc : calc_domain_name_size fuel buf buflen o with
  | error e => rw [hc] at h; cases h
  | ok s => exact ⟨s, rfl⟩

/-- The size pre-scan never leaves a pointer that points to itself. -/
theorem calc_loop_self_pointer {buf : List Nat} {s : Nat} (hs : s < 2 ^ 14)
    (h : HoldsAt buf s (pointerBytes s)) (fuel len : Nat) :
    calc_domain_name_size_loop buf fuel s len = .error .fuel := by
  obtain ⟨p0, p1'⟩ := holdsAt_cons.1 (by simpa [pointerBytes] using h)
  have p1 : load buf (s + 1) = .ok (s % 256) := load_head_of_holdsAt p1'
  obtain ⟨b1, b2, b3⟩ := pointer_byte s hs
  induction fuel with
  | zero => rfl
  | succ n ih =>
    rw [calc_domain_name_size_loop]
    simp only [p0, p1, ok_bind, if_neg b1, if_pos b2, b3]
    exact ih

/-- The decoding loop never leaves a pointer that points to itself. -/
theorem get_loop_self_pointer {buf : List Nat} {s : Nat} (hs : s < 2 ^ 14)
    (h : HoldsAt buf s (pointerBytes s)) (start fuel : Nat) (name : List Nat) (cur : Bool)
    (off : Nat) :
    netbuf_get_domain_name_loop buf start fuel s name cur off = .error .fuel := by
  obtain ⟨p0, p1'⟩ := holdsAt_cons.1 (by simpa [pointerBytes] using h)
  have p1 : load buf (s + 1) = .ok (s % 256) := load_head_of_holdsAt p1'
  obtain ⟨b1, b2, b3⟩ := pointer_byte s hs
  induction fuel generalizing cur off with
  | zero => rfl
  | succ n ih =>
    rw [netbuf_get_domain_name_loop]
    simp only [p0, p1, ok_bind, if_neg b1, if_pos b2, b3]
    exact ih _ _

theorem plain_bounds {ks : List (List Nat)} (hk : ∀ l ∈ ks, 1 ≤ l.length ∧ l.length ≤ 63) :
    ∀ l ∈ ks, 1 ≤ l.length ∧ l.length < 192 :=
  fun l hl => ⟨(hk l hl).1, by have := (hk l hl).2; omega⟩

/-- Neither the pre-scan nor `netbuf_get_domain_name` returns at a pointer that
points to itself. -/
theorem get_domain_name_self_pointer {buf : List Nat} {s : Nat} (hs : s < 2 ^ 14)
    (h : HoldsAt buf s (pointerBytes s)) (fuel buflen : Nat) :
    calc_domain_name_size fuel buf buflen s = .error .fuel ∧
    netbuf_get_domain_name fuel buf buflen s = .error .fuel := by
  have hc : calc_domain_name_size fuel buf buflen s = .error .fuel :=
    calc_loop_self_pointer hs h fuel 0
  refine ⟨hc, ?_⟩
  unfold netbuf_get_domain_name
  rw [hc]
  rfl

/-- Name decoding (`netbuf_get_domain_name` and its size pre-scan
`calc_domain_name_size`) terminates on every buffer that holds at `o` plain
labels (length bytes 1 to 63) closed by a zero byte, or plain labels closed by a
compression pointer to an uncompressed name.  The code has no bound on pointer
hops and no record of visited offsets: on a buffer `bad` whose bytes at `s` are a
compression pointer with target `s` itself, neither function returns, whatever
the number of loop passes, and no decode error is produced. -/
theorem plain_name_decoding_termination (buf bad : List Nat) (buflen o s : Nat)
    (ks : List (List Nat)) (hk : ∀ l ∈ ks, 1 ≤ l.length ∧ l.length ≤ 63)
    (hwf : HoldsAt buf o (wireName ks) ∨
      ∃ t ts, t < 2 ^ 14 ∧ (∀ l ∈ ts, 1 ≤ List.length l ∧ List.length l ≤ 63) ∧
        HoldsAt buf o (wireLabels ks ++ pointerBytes t) ∧ HoldsAt buf t (wireName ts))
    (hs : s < 2 ^ 14) (hself : HoldsAt bad s (pointerBytes s)) :
    (∃ n, ∀ fuel, n ≤ fuel → ∃ size r,
        calc_domain_name_size fuel buf buflen o = .ok size ∧
        netbuf_get_domain_name fuel buf buflen o = .ok r) ∧
    (∀ fuel, calc_domain_name_size fuel bad buflen s = .error .fuel ∧
        netbuf_get_domain_name fuel bad buflen s = .error .fuel) := by
  constructor
  · rcases hwf with h | ⟨t, ts, ht, hts, h1, h2⟩
    · refine ⟨ks.length + 1, fun fuel hf => ?_⟩
      have hg := get_domain_name_plain buflen h (plain_bounds hk) fuel hf
      obtain ⟨size, hc⟩ := calc_ok_of_get_ok hg
      exact ⟨size, _, hc, hg⟩
    · refine ⟨ks.length + ts.length + 2, fun fuel hf => ?_⟩
      have hg := get_domain_name_pointer buflen h1 ht h2 (plain_bounds hk) (plain_bounds hts)
        fuel hf
      obtain ⟨size, hc⟩ := calc_ok_of_get_ok hg
      exact ⟨size, _, hc, hg⟩
  · exact fun fuel => get_domain_name_self_pointer hs hself fuel buflen

/-- The termination of a plain name at a concrete input: `ab.c` stands at offset 2 of one buffer; the other
buffer has at offset 3 the pointer `C0 03`, whose target is offset 3. -/
theorem plain_name_decoding_termination_sample :
    (∃ n, ∀ fuel, n ≤ fuel → ∃ size r,
        calc_domain_name_size fuel [9, 9, 2, 97, 98, 1, 99, 0] 8 2 = .ok size ∧
        netbuf_get_domain_name fuel [9, 9, 2, 97, 98, 1, 99, 0] 8 2 = .ok r) ∧
    (∀ fuel, calc_domain_name_size fuel [0, 0, 0, 192, 3] 5 3 = .error .fuel ∧
        netbuf_get_domain_name fuel [0, 0, 0, 192, 3] 5 3 = .error .fuel) :=
  plain_name_decoding_termination [9, 9, 2, 97, 98, 1, 99, 0] [0, 0, 0, 192, 3] 8 2 3 [[97, 98], [99]]
    (by decide) (Or.inl (by decide)) (by decide) (by decide)

/-- C4 as stated fails: the two bytes `C0 00` at offset 0 are a compression
pointer to offset 0.  Neither the size pre-scan nor `netbuf_get_domain_name`
comes to an end on them with any amount of fuel: each run is still in its loop
when the fuel is used up, and none ends in a result or in an error of the code. -/
theorem name_decoding_hangs_on_self_pointer :
    (¬ ∃ fuel, calc_domain_name_size fuel [192, 0] 2 0 ≠ .error .fuel) ∧
    (¬ ∃ fuel, netbuf_get_domain_name fuel [192, 0] 2 0 ≠ .error .fuel) := by
  have h : ∀ fuel, calc_domain_name_size fuel [192, 0] 2 0 = .error .fuel ∧
      netbuf_get_domain_name fuel [192, 0] 2 0 = .error .fuel :=
    fun fuel => get_domain_name_self_pointer (by decide) (by decide) fuel 2
  exact ⟨fun ⟨fuel, hf⟩ => hf (h fuel).1, fun ⟨fuel, hf⟩ => hf (h fuel).2⟩

/-! ## Resource records -/

theorem load_eq_getD {buf : List Nat} {i : Nat} (h : i < buf.length) :
    load buf i = .ok (buf.getD i 0) := by
  simp [load, List.getD, List.getElem?_eq_getElem h]

theorem get_16bitnum_inb {buf : List Nat} (buflen : Nat) {o : Nat} (h : o + 2 ≤ buf.length) :
    netbuf_get_16bitnum buf buflen o = .ok (u16At buf o, o + 2) := by
  unfold netbuf_get_16bitnum
  dsimp only
  rw [load_eq_getD (by omega), load_eq_getD (by omega)]
  rfl

theorem get_32bitnum_inb {buf : List Nat} (buflen : Nat) {o : Nat} (h : o + 4 ≤ buf.length) :
    netbuf_get_32bitnum buf buflen o = .ok (u32At buf o, o + 4) := by
  unfold netbuf_get_32bitnum
  dsimp only
  rw [load_eq_getD (by omega), load_eq_getD (by omega), load_eq_getD (by omega),
    load_eq_getD (by omega)]
  rfl

/-- What `netbuf_get_dnsquery_resourcerecord` does once the owner name is decoded
and the ten fixed bytes lie inside the buffer: the cursor comes from `rdlength`
alone. -/
theorem get_resourcerecord_eq {fuel : Nat} {buf : List Nat} {buflen o : Nat}
    {name : List Nat} {o1 : Nat}
    (hname : netbuf_get_domain_name fuel buf buflen o = .ok (name, o1))
    (hfix : o1 + 10 ≤ buf.length) :
    netbuf_get_dnsquery_resourcerecord fuel buf buflen o =
      if u16At buf o1 = 33 then
        (netbuf_get_dnsquery_srvrdata fuel buf buflen (o1 + 10)) >>= fun r =>
          pure ({ name := name, type := u16At buf o1, _class := u16At buf (o1 + 2),
                  ttl := u32At buf (o1 + 4), rdlength := u16At buf (o1 + 8),
                  rdata := rdata_t.srv r.1 }, o1 + 10 + u16At buf (o1 + 8))
      else
        pure ({ name := name, type := u16At buf o1, _class := u16At buf (o1 + 2),
                ttl := u32At buf (o1 + 4), rdlength := u16At buf (o1 + 8),
                rdata := rdata_t.raw (o1 + 10) }, o1 + 10 + u16At buf (o1 + 8)) := by
  unfold netbuf_get_dnsquery_resourcerecord
  rw [hname]
  simp only [ok_bind]
  rw [get_16bitnum_inb buflen (by omega)]
  simp only [ok_bind]
  rw [get_16bitnum_inb buflen (by omega)]
  simp only [ok_bind]
  rw [get_32bitnum_inb buflen (by omega)]
  simp only [ok_bind]
  rw [get_16bitnum_inb buflen (by omega)]
  simp only [ok_bind]
  have e1 : o1 + 2 + 2 = o1 + 4 := by omega
  have e2 : o1 + 2 + 2 + 4 = o1 + 8 := by omega
  have e3 : o1 + 2 + 2 + 4 + 2 = o1 + 10 := by omega
  simp only [e1, e2, e3]
  by_cases ht : u16At buf o1 = 33
  · simp only [if_pos ht]
    cases hs : netbuf_get_dnsquery_srvrdata fuel buf buflen (o1 + 10) with
    | error e => rfl
    | ok r => rfl
  · simp only [if_neg ht]
    rfl

/-- C5 (amended). `netbuf_get_dnsquery_resourcerecord` never compares `rdlength`
with `buflen` and has no error result.  For every buffer of length `buflen` in
which the owner name decodes and the ten bytes of type, class, ttl and rdlength
lie inside the buffer, a record of a type other than 33 is returned normally
without any read outside the buffer (its rdata is not read at all), and the
cursor is left at (offset after the rdlength field) + rdlength: beyond `buflen`
whenever `rdlength` exceeds the bytes that remain. -/
theorem resourcerecord_rdlength_unchecked (fuel : Nat) (buf : List Nat) (o : Nat)
    (name : List Nat) (o1 : Nat)
    (hname : netbuf_get_domain_name fuel buf buf.length o = .ok (name, o1))
    (hfix : o1 + 10 ≤ buf.length) (htype : u16At buf o1 ≠ 33) :
    netbuf_get_dnsquery_resourcerecord fuel buf buf.length o
      = .ok ({ name := name, type := u16At buf o1, _class := u16At buf (o1 + 2),
               ttl := u32At buf (o1 + 4), rdlength := u16At buf (o1 + 8),
               rdata := rdata_t.raw (o1 + 10) }, o1 + 10 + u16At buf (o1 + 8)) ∧
    (buf.length - (o1 + 10) < u16At buf (o1 + 8) →
      buf.length < o1 + 10 + u16At buf (o1 + 8)) := by
  refine ⟨?_, fun h => by omega⟩
  rw [get_resourcerecord_eq hname hfix, if_neg htype]
  rfl

/-- C5 at a concrete input: a record of type 1 with the root name as owner and
`rdlength` 100 in a buffer of 11 bytes. -/
theorem resourcerecord_rdlength_unchecked_witness :
    netbuf_get_dnsquery_resourcerecord 1 [0, 0, 1, 0, 1, 0, 0, 0, 0, 0, 100]
        (List.length [0, 0, 1, 0, 1, 0, 0, 0, 0, 0, 100]) 0
      = .ok ({ name := [], type := u16At [0, 0, 1, 0, 1, 0, 0, 0, 0, 0, 100] 1,
               _class := u16At [0, 0, 1, 0, 1, 0, 0, 0, 0, 0, 100] (1 + 2),
               ttl := u32At [0, 0, 1, 0, 1, 0, 0, 0, 0, 0, 100] (1 + 4),
               rdlength := u16At [0, 0, 1, 0, 1, 0, 0, 0, 0, 0, 100] (1 + 8),
               rdata := rdata_t.raw (1 + 10) },
             1 + 10 + u16At [0, 0, 1, 0, 1, 0, 0, 0, 0, 0, 100] (1 + 8)) ∧
    (List.length [0, 0, 1, 0, 1, 0, 0, 0, 0, 0, 100] - (1 + 10)
        < u16At [0, 0, 1, 0, 1, 0, 0, 0, 0, 0, 100] (1 + 8) →
      List.length [0, 0, 1, 0, 1, 0, 0, 0, 0, 0, 100]
        < 1 + 10 + u16At [0, 0, 1, 0, 1, 0, 0, 0, 0, 0, 100] (1 + 8)) :=
  resourcerecord_rdlength_unchecked 1 [0, 0, 1, 0, 1, 0, 0, 0, 0, 0, 100] 0 [] 1
    (by decide) (by decide) (by decide)

/-- C5 as stated fails: in a buffer of 11 bytes that ends with the rdlength field
of a type 1 record, the declared `rdlength` 100 exceeds the 0 bytes that remain;
the function returns the record normally, with no error, and leaves the cursor
at 111, beyond `buflen` = 11.  With type 33 in the same place the nested SRV
decode reads `buf[11]`, outside the buffer. -/
theorem resourcerecord_no_decode_error :
    netbuf_get_dnsquery_resourcerecord 1 [0, 0, 1, 0, 1, 0, 0, 0, 0, 0, 100] 11 0
      = .ok ({ name := [], type := 1, _class := 1, ttl := 0, rdlength := 100,
               rdata := rdata_t.raw 11 }, 111) ∧
    List.length [0, 0, 1, 0, 1, 0, 0, 0, 0, 0, 100] = 11 ∧ 11 - 11 < 100 ∧ 11 < 111 ∧
    netbuf_get_dnsquery_resourcerecord 1 [0, 0, 33, 0, 1, 0, 0, 0, 0, 0, 100] 11 0
      = .error .oob := by
  decide

/-- What the second loop of `sock_srv_lookup` does on records that decode. -/
theorem record_loop_eq {fuel : Nat} {buf : List Nat} (shapes : List (Nat × Nat)) (o : Nat)
    (h : RecordsAt fuel buf o shapes) :
    record_loop fuel buf shapes.length o
      = .ok (o + (shapes.map (fun s => s.1 + 10 + s.2)).sum) := by
  induction shapes generalizing o with
  | nil => rfl
  | cons s rest ih =>
    obtain ⟨namelen, rdlength⟩ := s
    obtain ⟨h1, h2, h3, h4, h5⟩ := h
    cases hn : netbuf_get_domain_name fuel buf 65536 o with
    | error e => rw [hn] at h1; cases h1
    | ok r =>
      obtain ⟨name, o1⟩ := r
      rw [hn] at h1
      have ho1 : o1 = o + namelen := Except.ok.inj h1
      subst ho1
      rw [List.length_cons, record_loop, get_resourcerecord_eq hn h2]
      by_cases ht : u16At buf (o + namelen) = 33
      · have hs := h4 ht
        cases hsr : netbuf_get_dnsquery_srvrdata fuel buf 65536 (o + namelen + 10) with
        | error e => rw [hsr] at hs; cases hs
        | ok r =>
          simp only [if_pos ht, ok_bind, pure_eq_ok, h3]
          rw [ih _ h5]
          simp
          omega
      · simp only [if_neg ht, ok_bind, pure_eq_ok, h3]
        rw [ih _ h5]
        simp
        omega

/-- C6 (amended). Record accounting: for every buffer in which a record's owner
name decodes, the ten bytes of type, class, ttl and rdlength lie inside the
buffer and, for type 33, the nested SRV decode returns,
`netbuf_get_dnsquery_resourcerecord` leaves the cursor at (offset after the owner
name) + 10 + rdlength, for type 33 and for every other type alike and whatever
the nested SRV decode consumed; hence decoding `n` consecutive such records
advances the cursor by the sum over the records of (owner-name bytes consumed +
10 + rdlength). -/
theorem record_accounting (fuel : Nat) (buf : List Nat) (o : Nat) (shapes : List (Nat × Nat))
    (h : RecordsAt fuel buf o shapes) :
    (∀ namelen rdlength rest, shapes = (namelen, rdlength) :: rest →
      ∃ rr, netbuf_get_dnsquery_resourcerecord fuel buf 65536 o
          = .ok (rr, o + namelen + 10 + rdlength) ∧ rr.rdlength = rdlength) ∧
    record_loop fuel buf shapes.length o
      = .ok (o + (shapes.map (fun s => s.1 + 10 + s.2)).sum) := by
  refine ⟨?_, record_loop_eq shapes o h⟩
  rintro namelen rdlength rest rfl
  obtain ⟨h1, h2, h3, h4, -⟩ := h
  cases hn : netbuf_get_domain_name fuel buf 65536 o with
  | error e => rw [hn] at h1; cases h1
  | ok r =>
    obtain ⟨name, o1⟩ := r
    rw [hn] at h1
    have ho1 : o1 = o + namelen := Except.ok.inj h1
    subst ho1
    rw [get_resourcerecord_eq hn h2]
    by_cases ht : u16At buf (o + namelen) = 33
    · have hs := h4 ht
      cases hsr : netbuf_get_dnsquery_srvrdata fuel buf 65536 (o + namelen + 10) with
      | error e => rw [hsr] at hs; cases hs
      | ok r =>
        simp only [if_pos ht, ok_bind, pure_eq_ok, h3]
        exact ⟨_, rfl, rfl⟩
    · simp only [if_neg ht, pure_eq_ok, h3]
      exact ⟨_, rfl, rfl⟩

/-- C6 at a concrete input: an SRV record for `a` with `rdlength` 10 whose nested
decode takes 8 bytes (priority, weight, port 5269 and a pointer), then a type 1
record with a pointer as owner and `rdlength` 4; 39 bytes in all. -/
theorem record_accounting_witness :
    (∀ namelen rdlength rest, [(3, 10), (2, 4)] = (namelen, rdlength) :: rest →
      ∃ rr, netbuf_get_dnsquery_resourcerecord 3
          [1, 97, 0, 0, 33, 0, 1, 0, 0, 0, 9, 0, 10, 0, 1, 0, 2, 20, 149, 192, 0, 7, 7,
            192, 0, 0, 1, 0, 1, 0, 0, 0, 0, 0, 4, 1, 2, 3, 4] 65536 0
          = .ok (rr, 0 + namelen + 10 + rdlength) ∧ rr.rdlength = rdlength) ∧
    record_loop 3
        [1, 97, 0, 0, 33, 0, 1, 0, 0, 0, 9, 0, 10, 0, 1, 0, 2, 20, 149, 192, 0, 7, 7,
          192, 0, 0, 1, 0, 1, 0, 0, 0, 0, 0, 4, 1, 2, 3, 4] [(3, 10), (2, 4)].length 0
      = .ok (0 + ([(3, 10), (2, 4)].map (fun s => s.1 + 10 + s.2)).sum) :=
  record_accounting 3
    [1, 97, 0, 0, 33, 0, 1, 0, 0, 0, 9, 0, 10, 0, 1, 0, 2, 20, 149, 192, 0, 7, 7,
      192, 0, 0, 1, 0, 1, 0, 0, 0, 0, 0, 4, 1, 2, 3, 4] 0 [(3, 10), (2, 4)]
    (by decide)

/-- C6 as stated fails: in this buffer the owner name of the record at offset 0
decodes (the root name, one byte), the record is of type 33 with `rdlength` 8,
and the target in its rdata is a compression pointer at offset 17 to offset 17.
The nested SRV decode never comes back, so no run of
`netbuf_get_dnsquery_resourcerecord` returns and no cursor is left anywhere. -/
theorem record_accounting_fails_on_looping_target :
    netbuf_get_domain_name 1 [0, 0, 33, 0, 1, 0, 0, 0, 0, 0, 8, 0, 0, 0, 0, 0, 0, 192, 17] 19 0
      = .ok ([], 1) ∧
    ¬ ∃ fuel r,
      netbuf_get_dnsquery_resourcerecord fuel
        [0, 0, 33, 0, 1, 0, 0, 0, 0, 0, 8, 0, 0, 0, 0, 0, 0, 192, 17] 19 0 = .ok r := by
  refine ⟨by decide, ?_⟩
  rintro ⟨fuel, r, h⟩
  have h1 : netbuf_get_domain_name 1
      [0, 0, 33, 0, 1, 0, 0, 0, 0, 0, 8, 0, 0, 0, 0, 0, 0, 192, 17] 19 0 = .ok ([], 1) := by
    decide
  cases hn : netbuf_get_domain_name fuel
      [0, 0, 33, 0, 1, 0, 0, 0, 0, 0, 8, 0, 0, 0, 0, 0, 0, 192, 17] 19 0 with
  | error e =>
    unfold netbuf_get_dnsquery_resourcerecord at h
    rw [hn] at h
    cases h
  | ok r1 =>
    have := get_domain_name_det hn h1
    subst this
    rw [get_resourcerecord_eq hn (by decide), if_pos (by decide)] at h
    have hs : netbuf_get_dnsquery_srvrdata fuel
        [0, 0, 33, 0, 1, 0, 0, 0, 0, 0, 8, 0, 0, 0, 0, 0, 0, 192, 17] 19 (1 + 10)
          = .error .fuel := by
      unfold netbuf_get_dnsquery_srvrdata
      rw [get_16bitnum_inb _ (by decide)]
      simp only [ok_bind]
      rw [get_16bitnum_inb _ (by decide)]
      simp only [ok_bind]
      rw [get_16bitnum_inb _ (by decide)]
      simp only [ok_bind]
      rw [(get_domain_name_self_pointer (s := 17) (by decide) (by decide) fuel 19).2]
      rfl
    rw [hs] at h
    cases h

/-! ## Decoding reads a prefix of the buffer

A decoder that returns on a buffer returns the same on every buffer that
continues it: it depends on the bytes it has read only. -/

theorem bind_eq_ok {α β : Type} {x : Res α} {f : α → Res β} {r : β}
    (h : (x >>= f) = .ok r) : ∃ a, x = .ok a ∧ f a = .ok r := by
  cases x with
  | error e => cases h
  | ok a => exact ⟨a, rfl, h⟩

theorem load_append {pre : List Nat} {i b : Nat} (rest : List Nat)
    (h : load pre i = .ok b) : load (pre ++ rest) i = .ok b := by
  unfold load at h ⊢
  cases hb : pre[i]? with
  | none => rw [hb] at h; cases h
  | some c =>
    rw [hb] at h
    have hlt : i < pre.length := by
      by_contra hc
      rw [List.getElem?_eq_none (by omega)] at hb
      cases hb
    rw [List.getElem?_append_left hlt, hb]
    exact h

theorem strncat_append {pre : List Nat} (rest : List Nat) {n p : Nat} {dst r : List Nat}
    (h : strncat pre dst p n = .ok r) : strncat (pre ++ rest) dst p n = .ok r := by
  induction n generalizing dst p with
  | zero => exact h
  | succ n ih =>
    rw [strncat] at h ⊢
    obtain ⟨c, hc, h⟩ := bind_eq_ok h
    rw [load_append rest hc]
    simp only [ok_bind]
    by_cases h0 : c = 0
    · simpa [h0] using h
    · rw [if_neg h0] at h ⊢
      exact ih h

theorem calc_loop_append {pre : List Nat} (rest : List Nat) {fuel p len r : Nat}
    (h : calc_domain_name_size_loop pre fuel p len = .ok r) :
    calc_domain_name_size_loop (pre ++ rest) fuel p len = .ok r := by
  induction fuel generalizing p len with
  | zero => cases h
  | succ n ih =>
    rw [calc_domain_name_size_loop] at h ⊢
    obtain ⟨b, hb, h⟩ := bind_eq_ok h
    rw [load_append rest hb]
    simp only [ok_bind]
    by_cases h0 : b = 0
    · simpa [h0] using h
    · rw [if_neg h0] at h ⊢
      by_cases hp : b &&& 0xC0 = 0xC0
      · rw [if_pos hp] at h ⊢
        obtain ⟨b1, hb1, h⟩ := bind_eq_ok h
        rw [load_append rest hb1]
        exact ih h
      · rw [if_neg hp] at h ⊢
        exact ih h

theorem get_loop_append {pre : List Nat} (rest : List Nat) {start fuel p : Nat}
    {name : List Nat} {cur : Bool} {off : Nat} {r : List Nat × Nat}
    (h : netbuf_get_domain_name_loop pre start fuel p name cur off = .ok r) :
    netbuf_get_domain_name_loop (pre ++ rest) start fuel p name cur off = .ok r := by
  induction fuel generalizing p name cur off with
  | zero => cases h
  | succ n ih =>
    rw [netbuf_get_domain_name_loop] at h ⊢
    obtain ⟨b, hb, h⟩ := bind_eq_ok h
    rw [load_append rest hb]
    simp only [ok_bind]
    by_cases h0 : b = 0
    · simpa [h0] using h
    · rw [if_neg h0] at h ⊢
      by_cases hp : b &&& 0xC0 = 0xC0
      · rw [if_pos hp] at h ⊢
        obtain ⟨b1, hb1, h⟩ := bind_eq_ok h
        rw [load_append rest hb1]
        exact ih h
      · rw [if_neg hp] at h ⊢
        obtain ⟨nm, hnm, h⟩ := bind_eq_ok h
        rw [strncat_append rest hnm]
        exact ih h

theorem get_domain_name_append {pre : List Nat} (rest : List Nat) {fuel buflen o : Nat}
    {r : List Nat × Nat} (h : netbuf_get_domain_name fuel pre buflen o = .ok r) :
    netbuf_get_domain_name fuel (pre ++ rest) buflen o = .ok r := by
  unfold netbuf_get_domain_name calc_domain_name_size at h ⊢
  obtain ⟨s, hs, h⟩ := bind_eq_ok h
  rw [calc_loop_append rest hs]
  exact get_loop_append rest h

theorem get_16bitnum_append {pre : List Nat} (rest : List Nat) {buflen o : Nat} {r : Nat × Nat}
    (h : netbuf_get_16bitnum pre buflen o = .ok r) :
    netbuf_get_16bitnum (pre ++ rest) buflen o = .ok r := by
  unfold netbuf_get_16bitnum at h ⊢
  obtain ⟨b0, hb0, h⟩ := bind_eq_ok h
  obtain ⟨b1, hb1, h⟩ := bind_eq_ok h
  dsimp only
  rw [load_append rest hb0]
  simp only [ok_bind]
  rw [load_append rest hb1]
  exact h

theorem get_32bitnum_append {pre : List Nat} (rest : List Nat) {buflen o : Nat} {r : Nat × Nat}
    (h : netbuf_get_32bitnum pre buflen o = .ok r) :
    netbuf_get_32bitnum (pre ++ rest) buflen o = .ok r := by
  unfold netbuf_get_32bitnum at h ⊢
  obtain ⟨b0, hb0, h⟩ := bind_eq_ok h
  obtain ⟨b1, hb1, h⟩ := bind_eq_ok h
  obtain ⟨b2, hb2, h⟩ := bind_eq_ok h
  obtain ⟨b3, hb3, h⟩ := bind_eq_ok h
  dsimp only
  rw [load_append rest hb0]
  simp only [ok_bind]
  rw [load_append rest hb1]
  simp only [ok_bind]
  rw [load_append rest hb2]
  simp only [ok_bind]
  rw [load_append rest hb3]
  exact h

theorem get_dnsquery_header_append {pre : List Nat} (rest : List Nat) {buflen o : Nat}
    {r : dnsquery_header × Nat} (h : netbuf_get_dnsquery_header pre buflen o = .ok r) :
    netbuf_get_dnsquery_header (pre ++ rest) buflen o = .ok r := by
  unfold netbuf_get_dnsquery_header at h ⊢
  obtain ⟨a1, h1, h⟩ := bind_eq_ok h
  obtain ⟨a2, h2, h⟩ := bind_eq_ok h
  obtain ⟨a3, h3, h⟩ := bind_eq_ok h
  obtain ⟨a4, h4, h⟩ := bind_eq_ok h
  obtain ⟨a5, h5, h⟩ := bind_eq_ok h
  obtain ⟨a6, h6, h⟩ := bind_eq_ok h
  obtain ⟨a7, h7, h⟩ := bind_eq_ok h
  rw [get_16bitnum_append rest h1]
  simp only [ok_bind]
  rw [load_append rest h2]
  simp only [ok_bind]
  rw [load_append rest h3]
  simp only [ok_bind]
  rw [get_16bitnum_append rest h4]
  simp only [ok_bind]
  rw [get_16bitnum_append rest h5]
  simp only [ok_bind]
  rw [get_16bitnum_append rest h6]
  simp only [ok_bind]
  rw [get_16bitnum_append rest h7]
  exact h

theorem get_dnsquery_question_append {pre : List Nat} (rest : List Nat) {fuel buflen o : Nat}
    {r : dnsquery_question × Nat} (h : netbuf_get_dnsquery_question fuel pre buflen o = .ok r) :
    netbuf_get_dnsquery_question fuel (pre ++ rest) buflen o = .ok r := by
  unfold netbuf_get_dnsquery_question at h ⊢
  obtain ⟨a1, h1, h⟩ := bind_eq_ok h
  obtain ⟨a2, h2, h⟩ := bind_eq_ok h
  obtain ⟨a3, h3, h⟩ := bind_eq_ok h
  rw [get_domain_name_append rest h1]
  simp only [ok_bind]
  rw [get_16bitnum_append rest h2]
  simp only [ok_bind]
  rw [get_16bitnum_append rest h3]
  exact h

theorem get_dnsquery_srvrdata_append {pre : List Nat} (rest : List Nat) {fuel buflen o : Nat}
    {r : dnsquery_srvrdata × Nat} (h : netbuf_get_dnsquery_srvrdata fuel pre buflen o = .ok r) :
    netbuf_get_dnsquery_srvrdata fuel (pre ++ rest) buflen o = .ok r := by
  unfold netbuf_get_dnsquery_srvrdata at h ⊢
  obtain ⟨a1, h1, h⟩ := bind_eq_ok h
  obtain ⟨a2, h2, h⟩ := bind_eq_ok h
  obtain ⟨a3, h3, h⟩ := bind_eq_ok h
  obtain ⟨a4, h4, h⟩ := bind_eq_ok h
  rw [get_16bitnum_append rest h1]
  simp only [ok_bind]
  rw [get_16bitnum_append rest h2]
  simp only [ok_bind]
  rw [get_16bitnum_append rest h3]
  simp only [ok_bind]
  rw [get_domain_name_append rest h4]
  exact h

theorem get_dnsquery_resourcerecord_append {pre : List Nat} (rest : List Nat)
    {fuel buflen o : Nat} {r : dnsquery_resourcerecord × Nat}
    (h : netbuf_get_dnsquery_resourcerecord fuel pre buflen o = .ok r) :
    netbuf_get_dnsquery_resourcerecord fuel (pre ++ rest) buflen o = .ok r := by
  unfold netbuf_get_dnsquery_resourcerecord at h ⊢
  obtain ⟨a1, h1, h⟩ := bind_eq_ok h
  obtain ⟨a2, h2, h⟩ := bind_eq_ok h
  obtain ⟨a3, h3, h⟩ := bind_eq_ok h
  obtain ⟨a4, h4, h⟩ := bind_eq_ok h
  obtain ⟨a5, h5, h⟩ := bind_eq_ok h
  rw [get_domain_name_append rest h1]
  simp only [ok_bind]
  rw [get_16bitnum_append rest h2]
  simp only [ok_bind]
  rw [get_16bitnum_append rest h3]
  simp only [ok_bind]
  rw [get_32bitnum_append rest h4]
  simp only [ok_bind]
  rw [get_16bitnum_append rest h5]
  simp only [ok_bind]
  obtain ⟨rdl, off5⟩ := a5
  dsimp only at h ⊢
  by_cases ht : a2.1 = 33
  · simp only [if_pos ht] at h ⊢
    obtain ⟨s, hs, h⟩ := bind_eq_ok h
    rw [get_dnsquery_srvrdata_append rest hs]
    exact h
  · simp only [if_neg ht] at h ⊢
    exact h

theorem question_loop_append {pre : List Nat} (rest : List Nat) {fuel n o r : Nat}
    (h : question_loop fuel pre n o = .ok r) : question_loop fuel (pre ++ rest) n o = .ok r := by
  induction n generalizing o with
  | zero => exact h
  | succ n ih =>
    rw [question_loop] at h ⊢
    obtain ⟨a, ha, h⟩ := bind_eq_ok h
    rw [get_dnsquery_question_append rest ha]
    exact ih h

theorem record_loop_append {pre : List Nat} (rest : List Nat) {fuel n o r : Nat}
    (h : record_loop fuel pre n o = .ok r) : record_loop fuel (pre ++ rest) n o = .ok r := by
  induction n generalizing o with
  | zero => exact h
  | succ n ih =>
    rw [record_loop] at h ⊢
    obtain ⟨a, ha, h⟩ := bind_eq_ok h
    rw [get_dnsquery_resourcerecord_append rest ha]
    exact ih h

theorem answer_loop_append {pre : List Nat} (rest : List Nat) {win32 : Bool}
    {fuel len n o : Nat} {st : srv_result} {r : Nat × srv_result}
    (h : answer_loop win32 fuel pre len n o st = .ok r) :
    answer_loop win32 fuel (pre ++ rest) len n o st = .ok r := by
  induction n generalizing o st with
  | zero => exact h
  | succ n ih =>
    rw [answer_loop] at h ⊢
    obtain ⟨a, ha, h⟩ := bind_eq_ok h
    rw [get_dnsquery_resourcerecord_append rest ha]
    simp only [ok_bind] at h ⊢
    obtain ⟨st', hst, h⟩ := bind_eq_ok h
    rw [hst]
    exact ih h

theorem sock_srv_lookup_parse_append {pre : List Nat} (rest : List Nat) {win32 : Bool}
    {fuel : Nat} {insize : Int} {len : Nat} {st r : srv_result}
    (h : sock_srv_lookup_parse win32 fuel pre insize len st = .ok r) :
    sock_srv_lookup_parse win32 fuel (pre ++ rest) insize len st = .ok r := by
  unfold sock_srv_lookup_parse at h ⊢
  dsimp only at h ⊢
  by_cases hi : insize > 0
  · rw [if_pos hi] at h ⊢
    obtain ⟨a1, h1, h⟩ := bind_eq_ok h
    obtain ⟨a2, h2, h⟩ := bind_eq_ok h
    obtain ⟨a3, h3, h⟩ := bind_eq_ok h
    obtain ⟨a4, h4, h⟩ := bind_eq_ok h
    rw [get_dnsquery_header_append rest h1]
    simp only [ok_bind]
    rw [question_loop_append rest h2]
    simp only [ok_bind]
    rw [answer_loop_append rest h3]
    simp only [ok_bind]
    rw [record_loop_append rest h4]
    exact h
  · rw [if_neg hi] at h ⊢
    exact h

/-! ## The query and the exchange with the name servers -/

theorem length_queryBytes (labels : List (List Nat)) :
    (queryBytes labels).length = 12 + (wireName labels).length + 4 := by
  simp [queryBytes, length_headerBytes, be16]
  omega

/-- The query `sock_srv_lookup` writes into its buffer. -/
theorem sock_srv_lookup_query_eq {buf : List Nat} (labels : List (List Nat))
    (hl : ∀ l ∈ labels, IsLabel l) (h : 12 + (wireName labels).length + 4 ≤ buf.length) :
    sock_srv_lookup_query buf (dotJoin labels)
      = .ok (splice buf 0 (queryBytes labels), 12 + (wireName labels).length + 4) := by
  unfold sock_srv_lookup_query
  dsimp only
  rw [add_dnsquery_header_eq _ _ (by omega)]
  simp only [ok_bind, Nat.zero_add]
  rw [add_dnsquery_question_eq 65536 labels 33 1 hl
    (by rw [length_splice (by rw [length_headerBytes]; omega)]; omega)]
  have := @splice_splice buf 0 (headerBytes srv_query_header)
    (wireName labels ++ be16 33 ++ be16 1) (by simp [length_headerBytes, be16]; omega)
  rw [length_headerBytes, Nat.zero_add] at this
  rw [this]
  rfl

/-- The first name server answers its first poll with a datagram of positive
length: the exchange ends with that datagram at the start of the buffer. -/
theorem nameserver_loop_first {env : srv_env} {reply : List Nat} (n : Nat) (buf : List Nat)
    (hrecv : env.recvfrom 0 0 = .received reply) (h0 : 0 < reply.length)
    (hlen : reply.length ≤ buf.length) :
    nameserver_loop env (n + 1) 0 0 buf
      = ((reply.length : Int), reply ++ buf.drop reply.length) := by
  have htake : reply.take buf.length = reply := List.take_of_length_le hlen
  have hpoll : recv_poll env 0 50 0 0 buf
      = ((reply.length : Int), reply ++ buf.drop reply.length) := by
    rw [recv_poll, hrecv]
    simp only [htake]
  rw [nameserver_loop, if_pos (le_refl 0), hpoll]
  dsimp only
  cases n with
  | zero => rfl
  | succ m =>
    rw [nameserver_loop, if_neg (by omega)]

/-- `sock_srv_lookup` under `_WIN32` when the native resolver is missing, there
is a name server and the first one answers at once: the query is written, the
reply overwrites the start of the buffer and is parsed. -/
theorem sock_srv_lookup_manual_eq (env : srv_env) (fuel : Nat) (service proto domain : List Nat)
    (resulttarget : List Nat) (len resultport : Nat) (labels : List (List Nat))
    (reply : List Nat)
    (hd : env.dnsapi = none) (hn : env.numdnsservers ≠ 0)
    (hlab : fulldomain_text service proto domain = dotJoin labels)
    (hl : ∀ l ∈ labels, IsLabel l) (htext : (dotJoin labels).length < 2048)
    (hstack : env.stack.length = 65536)
    (hrecv : env.recvfrom 0 0 = .received reply) (h0 : 0 < reply.length)
    (hlen : reply.length ≤ 65536) :
    sock_srv_lookup true env fuel service proto domain resulttarget len resultport
      = (sock_srv_lookup_parse true fuel
            (reply ++ (splice env.stack 0 (queryBytes labels)).drop reply.length)
            reply.length len
            { set := 0, resulttarget := resulttarget, resultport := resultport })
          >>= sock_srv_lookup_finish true domain len := by
  have hw := length_wireName_le labels
  obtain ⟨k, hk⟩ : ∃ k, env.numdnsservers = k + 1 := ⟨env.numdnsservers - 1, by omega⟩
  unfold sock_srv_lookup
  simp only [hlab, hd, if_true, htext, pure_eq_ok, ok_bind, hn, ne_eq, not_false_eq_true]
  rw [sock_srv_lookup_query_eq labels hl (by omega)]
  simp only [ok_bind]
  rw [hk, nameserver_loop_first k _ hrecv h0
    (by rw [length_splice (by rw [length_queryBytes]; simp; omega)]; omega)]
  rfl

/-! ## `sock_srv_lookup` on sample replies -/

theorem drop_splice_replicate (N k m : Nat) (Q : List Nat) (hQ : Q.length ≤ k)
    (hk : k + m ≤ N) :
    (splice (List.replicate N 0) 0 Q).drop k
      = List.replicate m 0 ++ List.replicate (N - k - m) 0 := by
  have e1 : splice (List.replicate N 0) 0 Q = Q ++ List.replicate (N - Q.length) 0 := by
    simp only [splice, List.take_zero, List.nil_append, Nat.zero_add, List.drop_replicate]
  rw [e1, List.drop_append_eq_append_drop, List.drop_eq_nil_of_le hQ, List.nil_append,
    List.drop_replicate, ← List.replicate_add]
  congr 1
  omega

/-- The sample surroundings: the reply followed by zero bytes is what the
reply-parsing step works on. -/
theorem sock_srv_lookup_sample_eq (reply : List Nat) (fuel m : Nat)
    (resulttarget : List Nat) (len resultport : Nat) (h0 : 0 < reply.length)
    (hq : (queryBytes sample_labels).length ≤ reply.length)
    (hlen : reply.length + m ≤ 65536) {r : srv_result}
    (hparse : sock_srv_lookup_parse true fuel (reply ++ List.replicate m 0) reply.length len
      { set := 0, resulttarget := resulttarget, resultport := resultport } = .ok r) :
    sock_srv_lookup true (sample_env reply) fuel
        [120, 109, 112, 112, 45, 99, 108, 105, 101, 110, 116] [116, 99, 112]
        [101, 120, 97, 109, 112, 108, 101, 46, 99, 111, 109] resulttarget len resultport
      = sock_srv_lookup_finish true [101, 120, 97, 109, 112, 108, 101, 46, 99, 111, 109] len r := by
  rw [sock_srv_lookup_manual_eq (sample_env reply) fuel _ _ _ resulttarget len resultport
    sample_labels reply rfl (Nat.succ_ne_zero 0) (by decide) (by decide) (by decide)
    (List.length_replicate 65536 0) rfl h0 (by omega)]
  have hb : (sample_env reply).stack = List.replicate 65536 0 := rfl
  rw [hb, drop_splice_replicate 65536 reply.length m _ hq hlen, ← List.append_assoc,
    sock_srv_lookup_parse_append _ hparse]
  rfl

/-- The reply-parsing step, from the results of its four parts. -/
theorem sock_srv_lookup_parse_eq {win32 : Bool} {fuel : Nat} {buf : List Nat} {insize : Int}
    {len : Nat} {st st' : srv_result} {header : dnsquery_header} {o0 o1 o2 o3 : Nat}
    (hi : insize > 0)
    (h1 : netbuf_get_dnsquery_header buf 65536 0 = .ok (header, o0))
    (h2 : question_loop fuel buf header.qdcount o0 = .ok o1)
    (h3 : answer_loop win32 fuel buf len header.ancount o1 st = .ok (o2, st'))
    (h4 : record_loop fuel buf header.ancount o2 = .ok o3) :
    sock_srv_lookup_parse win32 fuel buf insize len st = .ok st' := by
  unfold sock_srv_lookup_parse
  dsimp only
  rw [if_pos hi, h1]
  simp only [ok_bind]
  rw [h2]
  simp only [ok_bind]
  rw [h3]
  simp only [ok_bind]
  rw [h4]
  rfl

set_option maxRecDepth 100000 in
theorem parse_sample_reply :
    sock_srv_lookup_parse true 8 (sample_reply ++ List.replicate 11 0)
        sample_reply.length 32 { set := 0, resulttarget := List.replicate 32 0, resultport := 0 }
      = .ok { set := 1,
              resulttarget := [120, 109, 112, 112, 46, 101, 120, 97, 109, 112, 108, 101, 46, 99,
                111, 109, 0, 0, 0, 0, 0, 0, 0, 0, 0, 0, 0, 0, 0, 0, 0, 0],
              resultport := 5269 } :=
  sock_srv_lookup_parse_eq (by decide)
    (show netbuf_get_dnsquery_header (sample_reply ++ List.replicate 11 0) 65536 0
        = .ok ({ id := 12345, qr := 1, opcode := 0, aa := 0, tc := 0, rd := 1, ra := 1, z := 0,
                 rcode := 0, qdcount := 1, ancount := 1, nscount := 0, arcount := 0 }, 12)
      from by decide)
    (show question_loop 8 (sample_reply ++ List.replicate 11 0) 1 12 = .ok 47 from by decide)
    (show answer_loop true 8 (sample_reply ++ List.replicate 11 0) 32 1 47 _ = .ok (83, _)
      from by decide)
    (show record_loop 8 (sample_reply ++ List.replicate 11 0) 1 83 = .ok 94 from by decide)

set_option maxRecDepth 100000 in
theorem parse_sample_reply_percent :
    sock_srv_lookup_parse true 8 (sample_reply_percent ++ List.replicate 11 0)
        sample_reply_percent.length 32
        { set := 0, resulttarget := List.replicate 32 0, resultport := 0 }
      = .ok { set := 1,
              resulttarget := [120, 109, 112, 112, 37, 46, 101, 120, 97, 109, 112, 108, 101, 46,
                99, 111, 109, 0, 0, 0, 0, 0, 0, 0, 0, 0, 0, 0, 0, 0, 0, 0],
              resultport := 5269 } :=
  sock_srv_lookup_parse_eq (by decide)
    (show netbuf_get_dnsquery_header (sample_reply_percent ++ List.replicate 11 0) 65536 0
        = .ok ({ id := 12345, qr := 1, opcode := 0, aa := 0, tc := 0, rd := 1, ra := 1, z := 0,
                 rcode := 0, qdcount := 1, ancount := 1, nscount := 0, arcount := 0 }, 12)
      from by decide)
    (show question_loop 8 (sample_reply_percent ++ List.replicate 11 0) 1 12 = .ok 47
      from by decide)
    (show answer_loop true 8 (sample_reply_percent ++ List.replicate 11 0) 32 1 47 _
        = .ok (85, _) from by decide)
    (show record_loop 8 (sample_reply_percent ++ List.replicate 11 0) 1 85 = .ok 96
      from by decide)

set_option maxRecDepth 100000 in
theorem parse_sample_reply_two :
    sock_srv_lookup_parse true 8 (sample_reply_two ++ List.replicate 22 0)
        sample_reply_two.length 32
        { set := 0, resulttarget := List.replicate 32 0, resultport := 0 }
      = .ok { set := 1,
              resulttarget := [115, 101, 99, 111, 110, 100, 46, 101, 120, 97, 109, 112, 108, 101,
                46, 99, 111, 109, 0, 0, 0, 0, 0, 0, 0, 0, 0, 0, 0, 0, 0, 0],
              resultport := 5223 } :=
  sock_srv_lookup_parse_eq (by decide)
    (show netbuf_get_dnsquery_header (sample_reply_two ++ List.replicate 22 0) 65536 0
        = .ok ({ id := 12345, qr := 1, opcode := 0, aa := 0, tc := 0, rd := 1, ra := 1, z := 0,
                 rcode := 0, qdcount := 1, ancount := 2, nscount := 0, arcount := 0 }, 12)
      from by decide)
    (show question_loop 8 (sample_reply_two ++ List.replicate 22 0) 1 12 = .ok 47
      from by decide)
    (show answer_loop true 8 (sample_reply_two ++ List.replicate 22 0) 32 2 47 _
        = .ok (122, _) from by decide)
    (show record_loop 8 (sample_reply_two ++ List.replicate 22 0) 2 122 = .ok 144
      from by decide)

/-- C7 at the input of the claim and at a failing input.  The reply with the
target `xmpp.example.com` and port 5269 gives that target, that port and the
return value 1 (the array `buf` being zero behind the reply).  The reply whose
target decodes to `xmpp%%.example.com` gives the target `xmpp%.example.com`:
`snprintf` is handed the target as its format string. -/
theorem srv_extraction_format_string :
    sock_srv_lookup true (sample_env sample_reply) 8
        [120, 109, 112, 112, 45, 99, 108, 105, 101, 110, 116] [116, 99, 112]
        [101, 120, 97, 109, 112, 108, 101, 46, 99, 111, 109] (List.replicate 32 0) 32 0
      = .ok (1, [120, 109, 112, 112, 46, 101, 120, 97, 109, 112, 108, 101, 46, 99, 111, 109, 0,
              0, 0, 0, 0, 0, 0, 0, 0, 0, 0, 0, 0, 0, 0, 0], 5269) ∧
    netbuf_get_domain_name 8 sample_reply_percent 65536 65
      = .ok ([120, 109, 112, 112, 37, 37, 46, 101, 120, 97, 109, 112, 108, 101, 46, 99, 111, 109],
          85) ∧
    sock_srv_lookup true (sample_env sample_reply_percent) 8
        [120, 109, 112, 112, 45, 99, 108, 105, 101, 110, 116] [116, 99, 112]
        [101, 120, 97, 109, 112, 108, 101, 46, 99, 111, 109] (List.replicate 32 0) 32 0
      = .ok (1, [120, 109, 112, 112, 37, 46, 101, 120, 97, 109, 112, 108, 101, 46, 99, 111, 109,
              0, 0, 0, 0, 0, 0, 0, 0, 0, 0, 0, 0, 0, 0, 0], 5269) := by
  refine ⟨?_, by decide, ?_⟩
  · rw [sock_srv_lookup_sample_eq sample_reply 8 11 _ 32 0 (by decide) (by decide) (by decide)
      parse_sample_reply]
    rfl
  · rw [sock_srv_lookup_sample_eq sample_reply_percent 8 11 _ 32 0 (by decide) (by decide)
      (by decide) parse_sample_reply_percent]
    rfl

/-- C8 at a failing input.  The reply holds two SRV answers, `first.example.com`
port 5222 and then `second.example.com` port 5223: the loop over the answers
stores every SRV record, so the result is the second one.  The scan of the
native resolver's records, given the same two records, stops at the first. -/
theorem first_srv_record_overwritten :
    sock_srv_lookup true (sample_env sample_reply_two) 8
        [120, 109, 112, 112, 45, 99, 108, 105, 101, 110, 116] [116, 99, 112]
        [101, 120, 97, 109, 112, 108, 101, 46, 99, 111, 109] (List.replicate 32 0) 32 0
      = .ok (1, [115, 101, 99, 111, 110, 100, 46, 101, 120, 97, 109, 112, 108, 101, 46, 99, 111,
              109, 0, 0, 0, 0, 0, 0, 0, 0, 0, 0, 0, 0, 0, 0], 5223) ∧
    sock_srv_lookup true
        (sample_env_dnsapi
          [{ wType := 33, pNameTarget := [102, 105, 114, 115, 116, 46, 101, 120, 97, 109, 112,
               108, 101, 46, 99, 111, 109], wPort := 5222 },
           { wType := 33, pNameTarget := [115, 101, 99, 111, 110, 100, 46, 101, 120, 97, 109,
               112, 108, 101, 46, 99, 111, 109], wPort := 5223 }]) 8
        [120, 109, 112, 112, 45, 99, 108, 105, 101, 110, 116] [116, 99, 112]
        [101, 120, 97, 109, 112, 108, 101, 46, 99, 111, 109] (List.replicate 32 0) 32 0
      = .ok (1, [102, 105, 114, 115, 116, 46, 101, 120, 97, 109, 112, 108, 101, 46, 99, 111, 109,
              0, 0, 0, 0, 0, 0, 0, 0, 0, 0, 0, 0, 0, 0, 0], 5222) := by
  refine ⟨?_, by decide⟩
  rw [sock_srv_lookup_sample_eq sample_reply_two 8 22 _ 32 0 (by decide) (by decide) (by decide)
    parse_sample_reply_two]
  rfl

set_option maxRecDepth 100000 in
/-- C9 at the input of the claim and at a failing input, with and without
`_WIN32`, the native resolver missing and no name server known.  For
`("xmpp-client", "tcp", "example.com")` the result is `example.com`, port 5222
and the return value 0.  For the domain `a%%b` the result target is `a%b`:
`snprintf` is handed the domain as its format string; for the domain `%s` it is
given a conversion without an argument. -/
theorem fallback_format_string :
    (∀ win32 : Bool, sock_srv_lookup win32 sample_env_none 8
        [120, 109, 112, 112, 45, 99, 108, 105, 101, 110, 116] [116, 99, 112]
        [101, 120, 97, 109, 112, 108, 101, 46, 99, 111, 109] (List.replicate 16 0) 16 0
      = .ok (0, [101, 120, 97, 109, 112, 108, 101, 46, 99, 111, 109, 0, 0, 0, 0, 0], 5222)) ∧
    (∀ win32 : Bool, sock_srv_lookup win32 sample_env_none 8
        [120, 109, 112, 112, 45, 99, 108, 105, 101, 110, 116] [116, 99, 112]
        [97, 37, 37, 98] (List.replicate 16 0) 16 0
      = .ok (0, [97, 37, 98, 0, 0, 0, 0, 0, 0, 0, 0, 0, 0, 0, 0, 0], 5222)) ∧
    (∀ win32 : Bool, sock_srv_lookup win32 sample_env_none 8
        [120, 109, 112, 112, 45, 99, 108, 105, 101, 110, 116] [116, 99, 112]
        [37, 115] (List.replicate 16 0) 16 0 = .error .ub) := by
  refine ⟨?_, ?_, ?_⟩ <;> intro win32 <;> cases win32 <;> decide

/-- What `sock_connect` does when every candidate fails: it has called `socket()`
for every element of the list, once and in order, and returns the value of the
last `socket()` call (`-1` when the list is empty). -/
theorem sock_connect_loop_exhausted (pf : platform) (cands : List addrinfo)
    (hfail : ∀ a ∈ cands, ¬ (a.connect = 0 ∨ (a.connect < 0 ∧ _in_progress pf a.error = true)))
    (sock : Int) (tried : List addrinfo) :
    sock_connect_loop pf cands sock tried
      = (cands.foldl (fun _ a => a.socket) sock, tried ++ cands) := by
  induction cands generalizing sock tried with
  | nil => simp [sock_connect_loop]
  | cons a rest ih =>
    have ha := hfail a (by simp)
    have hrest : ∀ b ∈ rest, ¬ (b.connect = 0 ∨ (b.connect < 0 ∧ _in_progress pf b.error = true)) :=
      fun b hb => hfail b (by simp [hb])
    rw [sock_connect_loop, List.foldl_cons]
    dsimp only
    by_cases hs : a.socket ≥ 0
    · rw [if_pos hs, if_neg ha, ih hrest]
      simp
    · rw [if_neg hs, ih hrest]
      simp

/-- C10, what the code does: for every list of candidates on which each connect
attempt fails with an error that is not "in progress", `sock_connect` calls
`socket()` for every candidate once and in list order and returns the value of
the last `socket()` call: the descriptor of the last socket when that socket
could be created, and `-1` only when it could not or the list is empty. -/
theorem sock_connect_exhausted (pf : platform) (cands : List addrinfo)
    (hfail : ∀ a ∈ cands, ¬ (a.connect = 0 ∨ (a.connect < 0 ∧ _in_progress pf a.error = true))) :
    sock_connect pf (0, cands)
      = (cands.foldl (fun _ a => a.socket) (-1), cands) := by
  unfold sock_connect
  simp only [ne_eq, not_true_eq_false, if_false]
  rw [sock_connect_loop_exhausted pf cands hfail]
  simp

/-- C10 at a failing input: three candidates, the sockets 3, 4 and 5 are created
and each `connect` fails with `ECONNREFUSED` (111).  All three are tried in
order, and the function returns 5, not the failure indicator -1. -/
theorem sock_connect_exhausted_witness :
    sock_connect sample_platform
        (0, [{ socket := 3, connect := -1, error := 111 },
             { socket := 4, connect := -1, error := 111 },
             { socket := 5, connect := -1, error := 111 }])
      = (([{ socket := 3, connect := -1, error := 111 },
           { socket := 4, connect := -1, error := 111 },
           ({ socket := 5, connect := -1, error := 111 } : addrinfo)].foldl
              (fun _ a => a.socket) (-1)),
         [{ socket := 3, connect := -1, error := 111 },
          { socket := 4, connect := -1, error := 111 },
          { socket := 5, connect := -1, error := 111 }]) :=
  sock_connect_exhausted sample_platform _ (by decide)

/-! ## The fallback on names without conversions -/

theorem format_noargs_plain (s : List Nat) (h : ∀ c ∈ s, c ≠ 0 ∧ c ≠ 37) :
    format_noargs s = .ok s := by
  induction s with
  | nil => rfl
  | cons c cs ih =>
    obtain ⟨h0, h37⟩ := h c (by simp)
    have ih' := ih (fun d hd => h d (by simp [hd]))
    unfold format_noargs
    simp only [if_neg h0, if_neg h37, ih', ok_bind, pure_eq_ok]

theorem snprintf_store_fits (win32 : Bool) (dst : List Nat) (n : Nat) (out : List Nat)
    (hfit : out.length < n) (hn : n ≤ dst.length) :
    snprintf_store win32 dst n out = .ok (out ++ [0] ++ dst.drop (out.length + 1)) := by
  have h1 : ¬ n = 0 := by omega
  have h2 : out.take (n - 1) = out := List.take_of_length_le (by omega)
  unfold snprintf_store
  cases win32
  · simp only [Bool.false_eq_true, if_false, if_neg h1, h2, List.length_append,
      List.length_singleton]
    rw [if_pos (by omega)]
    rfl
  · simp only [if_true, if_pos hfit, List.length_append, List.length_singleton]
    rw [if_pos (by omega)]
    rfl

/-- Without an SRV record from the native resolver and without a name server,
`sock_srv_lookup` returns 0, the domain and port 5222 for every domain that has
no `%` in it and fits the result array, with and without `_WIN32`. -/
theorem sock_srv_lookup_fallback_plain (win32 : Bool) (env : srv_env) (fuel : Nat)
    (service proto domain resulttarget : List Nat) (len resultport : Nat)
    (hd : env.dnsapi = none) (hn : env.numdnsservers = 0)
    (hdom : ∀ c ∈ domain, c ≠ 0 ∧ c ≠ 37)
    (hfit : domain.length < len) (hlen : len ≤ resulttarget.length) :
    sock_srv_lookup win32 env fuel service proto domain resulttarget len resultport
      = .ok (0, domain ++ [0] ++ resulttarget.drop (domain.length + 1), 5222) := by
  unfold sock_srv_lookup snprintf_noargs
  cases win32 <;>
    simp [hd, hn, format_noargs_plain domain hdom,
      snprintf_store_fits _ resulttarget len domain hfit hlen]

/-! ## Recoverable errors -/

/-- C11 (amended). `sock_is_recoverable(e)` depends on `e` and the platform's
constants alone.  Under `_WIN32` it is true exactly for `WSAEINTR`,
`WSAEWOULDBLOCK` and `WSAEINPROGRESS`; without `_WIN32` it is true exactly for
`EAGAIN` and `EINTR`, so that `EINPROGRESS`, a code of its own, is classified as
not recoverable there. -/
theorem sock_is_recoverable_iff (pf : platform) (e : Int)
    (hdistinct : pf.EINPROGRESS ≠ pf.EAGAIN ∧ pf.EINPROGRESS ≠ pf.EINTR) :
    (sock_is_recoverable pf e = true ↔
      if pf.win32 = true then e = pf.WSAEINTR ∨ e = pf.WSAEWOULDBLOCK ∨ e = pf.WSAEINPROGRESS
      else e = pf.EAGAIN ∨ e = pf.EINTR) ∧
    (pf.win32 = false → sock_is_recoverable pf pf.EINPROGRESS = false) := by
  constructor
  · unfold sock_is_recoverable
    cases hw : pf.win32 <;> simp
  · intro hw
    unfold sock_is_recoverable
    simp [hw, hdistinct.1, hdistinct.2]

/-- C11 at a concrete input: the error codes of Linux, `e = EAGAIN` (11). -/
theorem sock_is_recoverable_iff_witness :
    (sock_is_recoverable sample_platform 11 = true ↔
      if sample_platform.win32 = true then
        (11 : Int) = sample_platform.WSAEINTR ∨ (11 : Int) = sample_platform.WSAEWOULDBLOCK ∨
          (11 : Int) = sample_platform.WSAEINPROGRESS
      else (11 : Int) = sample_platform.EAGAIN ∨ (11 : Int) = sample_platform.EINTR) ∧
    (sample_platform.win32 = false →
      sock_is_recoverable sample_platform sample_platform.EINPROGRESS = false) :=
  sock_is_recoverable_iff sample_platform 11 (by decide)

/-- C11 as stated fails: without `_WIN32` and with the error codes of Linux,
`EINPROGRESS` (115) is one of the three codes the claim names, and
`sock_is_recoverable(EINPROGRESS)` is false. -/
theorem sock_is_recoverable_einprogress :
    sample_platform.win32 = false ∧ sample_platform.EINPROGRESS = 115 ∧
    sock_is_recoverable sample_platform 115 = false := by
  decide

/-! ## Integer cursor round trips -/

theorem shl_or_32 {b0 b1 b2 b3 : Nat} (h1 : b1 < 256) (h2 : b2 < 256) (h3 : b3 < 256) :
    (b0 <<< 24) ||| (b1 <<< 16) ||| (b2 <<< 8) ||| b3
      = b0 * 16777216 + b1 * 65536 + b2 * 256 + b3 := by
  simp only [Nat.shiftLeft_eq]
  have e1 : b0 * 2 ^ 24 ||| b1 * 2 ^ 16 = b0 * 2 ^ 24 + b1 * 2 ^ 16 := by
    have := @Nat.mul_add_lt_is_or 24 (b1 * 2 ^ 16) (by omega) b0
    rw [Nat.mul_comm (2 ^ 24) b0] at this
    exact this.symm
  have e2 : (b0 * 2 ^ 24 + b1 * 2 ^ 16) ||| b2 * 2 ^ 8
      = b0 * 2 ^ 24 + b1 * 2 ^ 16 + b2 * 2 ^ 8 := by
    have := @Nat.mul_add_lt_is_or 16 (b2 * 2 ^ 8) (by omega) (b0 * 256 + b1)
    have e : 2 ^ 16 * (b0 * 256 + b1) = b0 * 2 ^ 24 + b1 * 2 ^ 16 := by omega
    rw [e] at this
    exact this.symm
  have e3 : (b0 * 2 ^ 24 + b1 * 2 ^ 16 + b2 * 2 ^ 8) ||| b3
      = b0 * 2 ^ 24 + b1 * 2 ^ 16 + b2 * 2 ^ 8 + b3 := by
    have := @Nat.mul_add_lt_is_or 8 b3 (by omega) (b0 * 65536 + b1 * 256 + b2)
    have e : 2 ^ 8 * (b0 * 65536 + b1 * 256 + b2)
        = b0 * 2 ^ 24 + b1 * 2 ^ 16 + b2 * 2 ^ 8 := by omega
    rw [e] at this
    exact this.symm
  rw [e1, e2, e3]
  omega

theorem add_32bitnum_eq {buf : List Nat} (buflen : Nat) {o : Nat} (v : Nat)
    (h : o + 4 ≤ buf.length) :
    netbuf_add_32bitnum buf buflen o v = .ok (splice buf o (be32 v), o + 4) := by
  unfold netbuf_add_32bitnum
  dsimp only
  rw [store_eq_splice _ (by omega)]
  simp only [ok_bind]
  rw [store_splice _ (by simp) (by omega)]
  simp only [ok_bind]
  rw [store_splice _ (by simp) (by omega)]
  simp only [ok_bind]
  rw [store_splice _ (by simp) (by omega)]
  simp only [ok_bind, pure_eq_ok]
  simp [be32, and_255, Nat.shiftRight_eq_div_pow]

theorem get_32bitnum_eq {buf : List Nat} (buflen : Nat) {o b0 b1 b2 b3 : Nat}
    (h : HoldsAt buf o [b0, b1, b2, b3]) (h0 : b0 < 256) (h1 : b1 < 256) (h2 : b2 < 256)
    (h3 : b3 < 256) :
    netbuf_get_32bitnum buf buflen o
      = .ok (b0 * 16777216 + b1 * 65536 + b2 * 256 + b3, o + 4) := by
  unfold netbuf_get_32bitnum
  dsimp only
  have e0 := load_of_holdsAt h (i := 0) (by simp)
  have e1 := load_of_holdsAt h (i := 1) (by simp)
  have e2 := load_of_holdsAt h (i := 2) (by simp)
  have e3 := load_of_holdsAt h (i := 3) (by simp)
  simp only [Nat.add_zero, List.get_eq_getElem, List.getElem_cons_zero,
    List.getElem_cons_succ] at e0 e1 e2 e3
  rw [e0]
  simp only [ok_bind]
  rw [e1]
  simp only [ok_bind]
  rw [e2]
  simp only [ok_bind]
  rw [e3]
  simp only [ok_bind, pure_eq_ok]
  rw [shl_or_32 h1 h2 h3]
  congr 2
  omega

theorem get_32bitnum_be32 {buf : List Nat} (buflen : Nat) {o v : Nat}
    (h : HoldsAt buf o (be32 v)) (hv : v < 2 ^ 32) :
    netbuf_get_32bitnum buf buflen o = .ok (v, o + 4) := by
  rw [get_32bitnum_eq buflen h (Nat.mod_lt _ (by decide)) (Nat.mod_lt _ (by decide))
    (Nat.mod_lt _ (by decide)) (Nat.mod_lt _ (by decide))]
  congr 2
  omega

/-- C12. Integer cursor round trip: for every 16-bit value `v`, every buffer and
every offset `o` with at least 2 bytes of buffer after it, `netbuf_get_16bitnum`
at `o` after `netbuf_add_16bitnum(v)` at `o` returns `v`, and each of the two
calls advances the cursor by exactly 2; likewise for every 32-bit value `w`,
every buffer and every offset `p` with at least 4 bytes after it, with
`netbuf_add_32bitnum`, `netbuf_get_32bitnum` and an advance of exactly 4. -/
theorem integer_round_trip (buf buf32 : List Nat) (buflen o p v w : Nat)
    (hv : v < 2 ^ 16) (hw : w < 2 ^ 32)
    (ho : o + 2 ≤ buf.length) (hp : p + 4 ≤ buf32.length) :
    (∃ buf', netbuf_add_16bitnum buf buflen o v = .ok (buf', o + 2) ∧
      netbuf_get_16bitnum buf' buflen o = .ok (v, o + 2)) ∧
    (∃ buf', netbuf_add_32bitnum buf32 buflen p w = .ok (buf', p + 4) ∧
      netbuf_get_32bitnum buf' buflen p = .ok (w, p + 4)) :=
  ⟨⟨_, add_16bitnum_eq buflen v ho,
      get_16bitnum_be16 buflen (holdsAt_splice (by simpa [be16] using ho)) hv⟩,
    ⟨_, add_32bitnum_eq buflen w hp,
      get_32bitnum_be32 buflen (holdsAt_splice (by simpa [be32] using hp)) hw⟩⟩

/-- C12 at a concrete input: 5269 written at offset 1 of a 3-byte buffer and
3735928559 written at offset 4 of a 9-byte buffer. -/
theorem integer_round_trip_witness :
    (∃ buf', netbuf_add_16bitnum [9, 9, 9] 9 1 5269 = .ok (buf', 1 + 2) ∧
      netbuf_get_16bitnum buf' 9 1 = .ok (5269, 1 + 2)) ∧
    (∃ buf', netbuf_add_32bitnum [9, 9, 9, 9, 9, 9, 9, 9, 9] 9 4 3735928559 = .ok (buf', 4 + 4) ∧
      netbuf_get_32bitnum buf' 9 4 = .ok (3735928559, 4 + 4)) :=
  integer_round_trip [9, 9, 9] [9, 9, 9, 9, 9, 9, 9, 9, 9] 9 1 4 5269 3735928559
    (by decide) (by decide) (by decide) (by decide)

/-! ## Wire layout of the header and of the integers -/

theorem flagByte0_inRange : ∀ qr < 2, ∀ opcode < 16, ∀ aa < 2, ∀ tc < 2, ∀ rd < 2,
    (((qr &&& 0x01) <<< 7) ||| ((opcode &&& 0x0F) <<< 3) ||| ((aa &&& 0x01) <<< 2)
        ||| ((tc &&& 0x01) <<< 1) ||| (rd &&& 0x01)) % 256
      = (qr <<< 7) ||| (opcode <<< 3) ||| (aa <<< 2) ||| (tc <<< 1) ||| rd := by
  intro qr hqr opcode hop aa haa tc htc rd hrd
  interval_cases qr <;> interval_cases aa <;> interval_cases tc <;> interval_cases rd <;>
    interval_cases opcode <;> decide

theorem flagByte1_inRange : ∀ ra < 2, ∀ z < 8, ∀ rcode < 16,
    (((ra &&& 0x01) <<< 7) ||| ((z &&& 0x07) <<< 4) ||| (rcode &&& 0x0F)) % 256
      = (ra <<< 7) ||| (z <<< 4) ||| rcode := by
  intro ra hra z hz rcode hrc
  interval_cases ra <;> interval_cases z <;> interval_cases rcode <;> decide

/-- C13. Header wire layout: for every header with fields inside their bit widths
and every offset `o` with 12 bytes of buffer after it,
`netbuf_add_dnsquery_header` writes exactly the 12 bytes from `o` on (the rest of
the buffer stays as it is): the id big-endian, the byte
`qr<<7 | opcode<<3 | aa<<2 | tc<<1 | rd`, the byte `ra<<7 | z<<4 | rcode`, then
`qdcount`, `ancount`, `nscount`, `arcount` big-endian in that order; the cursor
ends at `o + 12`. -/
theorem header_wire_layout (buf : List Nat) (buflen o : Nat) (h : dnsquery_header)
    (hr : h.InRange) (hroom : o + 12 ≤ buf.length) :
    netbuf_add_dnsquery_header buf buflen o h
      = .ok (splice buf o
          [h.id / 256, h.id % 256,
           (h.qr <<< 7) ||| (h.opcode <<< 3) ||| (h.aa <<< 2) ||| (h.tc <<< 1) ||| h.rd,
           (h.ra <<< 7) ||| (h.z <<< 4) ||| h.rcode,
           h.qdcount / 256, h.qdcount % 256, h.ancount / 256, h.ancount % 256,
           h.nscount / 256, h.nscount % 256, h.arcount / 256, h.arcount % 256], o + 12) := by
  obtain ⟨hid, hqr, hop, haa, htc, hrd, hra, hz, hrc, hqd, han, hns, har⟩ := hr
  rw [add_dnsquery_header_eq buflen h hroom]
  have f0 := flagByte0_inRange _ hqr _ hop _ haa _ htc _ hrd
  have f1 := flagByte1_inRange _ hra _ hz _ hrc
  have d1 : h.id / 256 % 256 = h.id / 256 := Nat.mod_eq_of_lt (by omega)
  have d2 : h.qdcount / 256 % 256 = h.qdcount / 256 := Nat.mod_eq_of_lt (by omega)
  have d3 : h.ancount / 256 % 256 = h.ancount / 256 := Nat.mod_eq_of_lt (by omega)
  have d4 : h.nscount / 256 % 256 = h.nscount / 256 := Nat.mod_eq_of_lt (by omega)
  have d5 : h.arcount / 256 % 256 = h.arcount / 256 := Nat.mod_eq_of_lt (by omega)
  simp only [headerBytes, be16, flagByte0, flagByte1, f0, f1, d1, d2, d3, d4, d5,
    List.cons_append, List.nil_append]

/-- C13 at a concrete input: the header of a reply (id 12345, `qr`, `rd`, `ra`,
response code 3, one question, two answers) written at offset 1 of a 14-byte
buffer. -/
theorem header_wire_layout_witness :
    netbuf_add_dnsquery_header (List.replicate 14 7) 14 1
        { id := 12345, qr := 1, opcode := 0, aa := 0, tc := 0, rd := 1, ra := 1, z := 0,
          rcode := 3, qdcount := 1, ancount := 2, nscount := 0, arcount := 0 }
      = .ok (splice (List.replicate 14 7) 1
          [12345 / 256, 12345 % 256,
           (1 <<< 7) ||| (0 <<< 3) ||| (0 <<< 2) ||| (0 <<< 1) ||| 1,
           (1 <<< 7) ||| (0 <<< 4) ||| 3,
           1 / 256, 1 % 256, 2 / 256, 2 % 256, 0 / 256, 0 % 256, 0 / 256, 0 % 256], 1 + 12) :=
  header_wire_layout (List.replicate 14 7) 14 1
    { id := 12345, qr := 1, opcode := 0, aa := 0, tc := 0, rd := 1, ra := 1, z := 0,
      rcode := 3, qdcount := 1, ancount := 2, nscount := 0, arcount := 0 }
    (by decide) (by decide)

theorem getElem?_splice_outside {buf : List Nat} {o : Nat} {bs : List Nat} {i : Nat}
    (h : o + bs.length ≤ buf.length) (hi : i < o ∨ o + bs.length ≤ i) :
    (splice buf o bs)[i]? = buf[i]? := by
  have h1 : (buf.take o).length = o := by simp; omega
  unfold splice
  rcases hi with hi | hi
  · rw [List.append_assoc, List.getElem?_append_left (by omega), List.getElem?_take_of_lt hi]
  · rw [List.getElem?_append_right (by simp; omega), List.getElem?_drop]
    congr 1
    simp
    omega

theorem getElem?_splice_inside {buf : List Nat} {o : Nat} {bs : List Nat} {j : Nat}
    (h : o + bs.length ≤ buf.length) (hj : j < bs.length) :
    (splice buf o bs)[o + j]? = bs[j]? := by
  have h1 : (buf.take o).length = o := by simp; omega
  unfold splice
  rw [List.append_assoc, List.getElem?_append_right (by omega), h1,
    List.getElem?_append_left (by omega)]
  congr 1
  omega

/-- C17. Big-endian layout and frame: for every buffer and every offset `o` with
at least 2 bytes after it, `netbuf_add_16bitnum(v)` at `o` sets
`buf[o] = (v >> 8) & 0xff` and `buf[o+1] = v & 0xff` and leaves every other byte
and the length of the buffer unchanged; for every buffer and every offset `p`
with at least 4 bytes after it, `netbuf_add_32bitnum(w)` at `p` sets
`buf[p..p+3]` to the four bytes of `w`, most significant first, and leaves every
other byte unchanged.  The two read operations are functions of the buffer that
return a value and a cursor only: they have no buffer to change. -/
theorem big_endian_frame (buf buf32 : List Nat) (buflen o p v w : Nat)
    (ho : o + 2 ≤ buf.length) (hp : p + 4 ≤ buf32.length) :
    (∃ buf', netbuf_add_16bitnum buf buflen o v = .ok (buf', o + 2) ∧
      buf'.length = buf.length ∧
      buf'[o]? = some ((v >>> 8) &&& 0xff) ∧ buf'[o + 1]? = some (v &&& 0xff) ∧
      ∀ i, i ≠ o → i ≠ o + 1 → buf'[i]? = buf[i]?) ∧
    (∃ buf', netbuf_add_32bitnum buf32 buflen p w = .ok (buf', p + 4) ∧
      buf'.length = buf32.length ∧
      buf'[p]? = some ((w >>> 24) &&& 0xff) ∧ buf'[p + 1]? = some ((w >>> 16) &&& 0xff) ∧
      buf'[p + 2]? = some ((w >>> 8) &&& 0xff) ∧ buf'[p + 3]? = some (w &&& 0xff) ∧
      ∀ i, i < p ∨ p + 4 ≤ i → buf'[i]? = buf32[i]?) := by
  have l2 : o + (be16 v).length ≤ buf.length := by simpa [be16] using ho
  have l4 : p + (be32 w).length ≤ buf32.length := by simpa [be32] using hp
  constructor
  · refine ⟨_, add_16bitnum_eq buflen v ho, length_splice l2, ?_, ?_, ?_⟩
    · have := @getElem?_splice_inside buf o (be16 v) 0 l2 (by simp [be16])
      simpa [be16, and_255, Nat.shiftRight_eq_div_pow] using this
    · have := @getElem?_splice_inside buf o (be16 v) 1 l2 (by simp [be16])
      simpa [be16, and_255] using this
    · intro i h1 h2
      exact getElem?_splice_outside l2 (by simp [be16]; omega)
  · refine ⟨_, add_32bitnum_eq buflen w hp, length_splice l4, ?_, ?_, ?_, ?_, ?_⟩
    · have := @getElem?_splice_inside buf32 p (be32 w) 0 l4 (by simp [be32])
      simpa [be32, and_255, Nat.shiftRight_eq_div_pow] using this
    · have := @getElem?_splice_inside buf32 p (be32 w) 1 l4 (by simp [be32])
      simpa [be32, and_255, Nat.shiftRight_eq_div_pow] using this
    · have := @getElem?_splice_inside buf32 p (be32 w) 2 l4 (by simp [be32])
      simpa [be32, and_255, Nat.shiftRight_eq_div_pow] using this
    · have := @getElem?_splice_inside buf32 p (be32 w) 3 l4 (by simp [be32])
      simpa [be32, and_255] using this
    · intro i hi
      exact getElem?_splice_outside l4 (by simp [be32]; omega)

/-- C17 at a concrete input: 5269 written at offset 1 of a 3-byte buffer and
3735928559 written at offset 4 of a 9-byte buffer. -/
theorem big_endian_frame_witness :
    (∃ buf', netbuf_add_16bitnum [9, 8, 7] 9 1 5269 = .ok (buf', 1 + 2) ∧
      buf'.length = [9, 8, 7].length ∧
      buf'[1]? = some ((5269 >>> 8) &&& 0xff) ∧ buf'[1 + 1]? = some (5269 &&& 0xff) ∧
      ∀ i, i ≠ 1 → i ≠ 1 + 1 → buf'[i]? = [9, 8, 7][i]?) ∧
    (∃ buf', netbuf_add_32bitnum [9, 8, 7, 6, 5, 4, 3, 2, 1] 9 4 3735928559
        = .ok (buf', 4 + 4) ∧
      buf'.length = [9, 8, 7, 6, 5, 4, 3, 2, 1].length ∧
      buf'[4]? = some ((3735928559 >>> 24) &&& 0xff) ∧
      buf'[4 + 1]? = some ((3735928559 >>> 16) &&& 0xff) ∧
      buf'[4 + 2]? = some ((3735928559 >>> 8) &&& 0xff) ∧
      buf'[4 + 3]? = some (3735928559 &&& 0xff) ∧
      ∀ i, i < 4 ∨ 4 + 4 ≤ i → buf'[i]? = [9, 8, 7, 6, 5, 4, 3, 2, 1][i]?) :=
  big_endian_frame [9, 8, 7] [9, 8, 7, 6, 5, 4, 3, 2, 1] 9 1 4 5269 3735928559
    (by decide) (by decide)

/-! ## Header: parse, then serialise -/

theorem splice_of_holdsAt {buf : List Nat} {o : Nat} {bs : List Nat} (h : HoldsAt buf o bs) :
    splice buf o bs = buf := by
  obtain ⟨t, ht⟩ := h
  have hd : buf.drop (o + bs.length) = t := by
    have := congrArg (List.drop bs.length) ht
    simpa [List.drop_drop, Nat.add_comm] using this.symm
  unfold splice
  rw [hd, List.append_assoc, ht, List.take_append_drop]

theorem flagByte0_of_byte : ∀ f < 256,
    ((((f >>> 7) &&& 0x01) &&& 0x01) <<< 7 ||| (((f >>> 3) &&& 0x0F) &&& 0x0F) <<< 3
        ||| (((f >>> 2) &&& 0x01) &&& 0x01) <<< 2 ||| (((f >>> 1) &&& 0x01) &&& 0x01) <<< 1
        ||| ((f &&& 0x01) &&& 0x01)) % 256 = f := by
  intro f hf
  interval_cases f <;> decide

theorem flagByte1_of_byte : ∀ f < 256,
    ((((f >>> 7) &&& 0x01) &&& 0x01) <<< 7 ||| (((f >>> 4) &&& 0x07) &&& 0x07) <<< 4
        ||| ((f &&& 0x0F) &&& 0x0F)) % 256 = f := by
  intro f hf
  interval_cases f <;> decide

/-- Decoding twelve bytes and encoding the header again gives the twelve bytes. -/
theorem header_bytes_of_decoded {buf : List Nat} (buflen : Nat) {o : Nat} {bs : List Nat}
    (hb : HoldsAt buf o bs) (hlen : bs.length = 12) (hbytes : ∀ x ∈ bs, x < 256) :
    ∃ h, netbuf_get_dnsquery_header buf buflen o = .ok (h, o + 12) ∧ headerBytes h = bs := by
  match bs, hlen with
  | [b0, b1, b2, b3, b4, b5, b6, b7, b8, b9, b10, b11], _ =>
    have c0 := hbytes b0 (by simp)
    have c1 := hbytes b1 (by simp)
    have c2 := hbytes b2 (by simp)
    have c3 := hbytes b3 (by simp)
    have c4 := hbytes b4 (by simp)
    have c5 := hbytes b5 (by simp)
    have c6 := hbytes b6 (by simp)
    have c7 := hbytes b7 (by simp)
    have c8 := hbytes b8 (by simp)
    have c9 := hbytes b9 (by simp)
    have c10 := hbytes b10 (by simp)
    have c11 := hbytes b11 (by simp)
    have s : HoldsAt buf o ([b0, b1] ++ ([b2, b3] ++ ([b4, b5] ++ ([b6, b7] ++ ([b8, b9] ++
        [b10, b11]))))) := by simpa using hb
    simp only [holdsAt_append, List.length_cons, List.length_nil] at s
    obtain ⟨s0, s1, s2, s3, s4, s5⟩ := s
    simp only [Nat.zero_add, Nat.add_assoc, Nat.reduceAdd] at s1 s2 s3 s4 s5
    have e2 := load_of_holdsAt s1 (i := 0) (by simp)
    have e3 := load_of_holdsAt s1 (i := 1) (by simp)
    simp only [Nat.add_zero, Nat.add_assoc, Nat.reduceAdd, List.get_eq_getElem,
      List.getElem_cons_zero, List.getElem_cons_succ] at e2 e3
    refine ⟨{ id := b0 * 256 + b1
              qr := (b2 >>> 7) &&& 0x01
              opcode := (b2 >>> 3) &&& 0x0F
              aa := (b2 >>> 2) &&& 0x01
              tc := (b2 >>> 1) &&& 0x01
              rd := b2 &&& 0x01
              ra := (b3 >>> 7) &&& 0x01
              z := (b3 >>> 4) &&& 0x07
              rcode := b3 &&& 0x0F
              qdcount := b4 * 256 + b5
              ancount := b6 * 256 + b7
              nscount := b8 * 256 + b9
              arcount := b10 * 256 + b11 }, ?_, ?_⟩
    · unfold netbuf_get_dnsquery_header
      rw [get_16bitnum_eq buflen s0 c0 c1]
      simp only [ok_bind, Nat.add_assoc, Nat.reduceAdd]
      rw [e2]
      simp only [ok_bind]
      rw [e3]
      simp only [ok_bind]
      rw [get_16bitnum_eq buflen s2 c4 c5]
      simp only [ok_bind, Nat.add_assoc, Nat.reduceAdd]
      rw [get_16bitnum_eq buflen s3 c6 c7]
      simp only [ok_bind, Nat.add_assoc, Nat.reduceAdd]
      rw [get_16bitnum_eq buflen s4 c8 c9]
      simp only [ok_bind, Nat.add_assoc, Nat.reduceAdd]
      rw [get_16bitnum_eq buflen s5 c10 c11]
      simp only [ok_bind, pure_eq_ok, Nat.add_assoc, Nat.reduceAdd]
    · have q0 : (b0 * 256 + b1) / 256 % 256 = b0 ∧ (b0 * 256 + b1) % 256 = b1 := by omega
      have q4 : (b4 * 256 + b5) / 256 % 256 = b4 ∧ (b4 * 256 + b5) % 256 = b5 := by omega
      have q6 : (b6 * 256 + b7) / 256 % 256 = b6 ∧ (b6 * 256 + b7) % 256 = b7 := by omega
      have q8 : (b8 * 256 + b9) / 256 % 256 = b8 ∧ (b8 * 256 + b9) % 256 = b9 := by omega
      have q10 : (b10 * 256 + b11) / 256 % 256 = b10 ∧ (b10 * 256 + b11) % 256 = b11 := by
        omega
      simp only [headerBytes, be16, flagByte0, flagByte1, flagByte0_of_byte b2 c2,
        flagByte1_of_byte b3 c3, q0.1, q0.2, q4.1, q4.2, q6.1, q6.2, q8.1, q8.2, q10.1, q10.2,
        List.cons_append, List.nil_append]

/-- C20. Header parse-then-serialise identity: for every 12 bytes `bs` that stand
at offset `o` of a buffer, `netbuf_get_dnsquery_header` returns a header, and
`netbuf_add_dnsquery_header` of that header writes exactly the bytes `bs`, at any
offset `q` of any buffer with room for them; written back at `o`, it leaves the
buffer as it was. -/
theorem header_parse_serialise (buf : List Nat) (buflen o : Nat) (bs : List Nat)
    (hb : HoldsAt buf o bs) (hlen : bs.length = 12) (hbytes : ∀ x ∈ bs, x < 256) :
    ∃ h, netbuf_get_dnsquery_header buf buflen o = .ok (h, o + 12) ∧
      (∀ (out : List Nat) (q : Nat), q + 12 ≤ out.length →
        netbuf_add_dnsquery_header out buflen q h = .ok (splice out q bs, q + 12)) ∧
      netbuf_add_dnsquery_header buf buflen o h = .ok (buf, o + 12) := by
  obtain ⟨h, h1, h2⟩ := header_bytes_of_decoded buflen hb hlen hbytes
  have hroom : o + 12 ≤ buf.length := by
    obtain ⟨t, ht⟩ := hb
    have := congrArg List.length ht
    simp at this
    omega
  refine ⟨h, h1, fun out q hq => ?_, ?_⟩
  · rw [add_dnsquery_header_eq buflen h hq, h2]
  · rw [add_dnsquery_header_eq buflen h hroom, h2, splice_of_holdsAt hb]

/-- C20 at a concrete input: twelve bytes with every flag bit pattern mixed
(`A5 5A` as the flag bytes) at offset 2 of a 16-byte buffer. -/
theorem header_parse_serialise_witness :
    ∃ h, netbuf_get_dnsquery_header
        [1, 2, 48, 57, 165, 90, 255, 0, 1, 2, 3, 4, 128, 127, 7, 7] 16 2 = .ok (h, 2 + 12) ∧
      (∀ (out : List Nat) (q : Nat), q + 12 ≤ out.length →
        netbuf_add_dnsquery_header out 16 q h
          = .ok (splice out q [48, 57, 165, 90, 255, 0, 1, 2, 3, 4, 128, 127], q + 12)) ∧
      netbuf_add_dnsquery_header [1, 2, 48, 57, 165, 90, 255, 0, 1, 2, 3, 4, 128, 127, 7, 7] 16 2 h
        = .ok ([1, 2, 48, 57, 165, 90, 255, 0, 1, 2, 3, 4, 128, 127, 7, 7], 2 + 12) :=
  header_parse_serialise [1, 2, 48, 57, 165, 90, 255, 0, 1, 2, 3, 4, 128, 127, 7, 7] 16 2
    [48, 57, 165, 90, 255, 0, 1, 2, 3, 4, 128, 127] (by decide) (by decide) (by decide)

/-! ## What the encoder writes, for every name -/

theorem wordLength_le (s : List Nat) : wordLength s ≤ s.length := by
  induction s with
  | nil => simp [wordLength]
  | cons c cs ih =>
    unfold wordLength
    split
    · simp
    · simp; omega

theorem headD_drop_wordLength (s : List Nat) :
    (s.drop (wordLength s)).headD 0 = 0 ∨ (s.drop (wordLength s)).headD 0 = 46 := by
  induction s with
  | nil => simp [wordLength]
  | cons c cs ih =>
    unfold wordLength
    split
    · next h => simpa using h
    · simpa using ih

theorem rest_length_lt {name : List Nat} (h : name.headD 0 ≠ 0) :
    (if (name.drop (wordLength name)).headD 0 = 46 then (name.drop (wordLength name)).drop 1
      else name.drop (wordLength name)).length < name.length := by
  have hle := wordLength_le name
  cases name with
  | nil => simp at h
  | cons c cs =>
    by_cases hw : wordLength (c :: cs) = 0
    · have hc : c = 46 := by
        unfold wordLength at hw
        split at hw
        · next h' =>
          rcases h' with h' | h'
          · simp [h'] at h
          · exact h'
        · omega
      rw [hw]
      subst hc
      simp only [List.drop_zero, List.headD_cons, if_true, List.drop_succ_cons, List.length_cons]
      omega
    · split
      · simp; omega
      · simp; omega

theorem copyWord_map {buf : List Nat} {p : Nat} (w : List Nat)
    (h : p + w.length ≤ buf.length) :
    copyWord buf p w = .ok (splice buf p (w.map (· % 256)), p + w.length) := by
  induction w generalizing buf p with
  | nil => simp [copyWord, splice_nil]
  | cons c cs ih =>
    have hlen : p + 1 + cs.length ≤ buf.length := by simp at h; omega
    rw [copyWord, store_eq_splice _ (by omega)]
    simp only [ok_bind]
    rw [ih (by rw [length_splice (by simp; omega)]; exact hlen)]
    have := @splice_splice buf p [c % 256] (cs.map (· % 256)) (by simp; omega)
    simp only [List.length_singleton] at this
    rw [this]
    simp
    omega

/-- The encoding loop writes `encodedLabels` and nothing else. -/
theorem add_loop_encoded (fuel : Nat) (name buf : List Nat) (p : Nat)
    (hf : name.length < fuel) (h : p + (encodedLabels fuel name).length ≤ buf.length) :
    netbuf_add_domain_name_loop fuel buf p name
      = .ok (splice buf p (encodedLabels fuel name), p + (encodedLabels fuel name).length) := by
  induction fuel generalizing name buf p with
  | zero => omega
  | succ n ih =>
    rw [netbuf_add_domain_name_loop]
    by_cases h0 : name.headD 0 = 0
    · rw [if_pos h0, encodedLabels, if_pos h0, splice_nil]
      rfl
    · have hrest := rest_length_lt h0
      have hwl := wordLength_le name
      have htake : (name.take (wordLength name)).length = wordLength name := by
        simp; omega
      rw [if_neg h0]
      unfold encodedLabels at h ⊢
      rw [if_neg h0] at h ⊢
      dsimp only at h ⊢
      generalize hlen : (if wordLength name > 0x3F then 0x3F else wordLength name) = len at h ⊢
      have hl63 : len ≤ 63 := by rw [← hlen]; split <;> omega
      generalize hr : (if (name.drop (wordLength name)).headD 0 = 46
        then (name.drop (wordLength name)).drop 1 else name.drop (wordLength name)) = rest
        at h hrest ⊢
      simp only [List.length_append, List.length_cons, List.length_map, htake] at h
      have hA : (splice buf p [len]).length = buf.length := length_splice (by simp; omega)
      have s1 : splice (splice buf p [len]) (p + 1) ((name.take (wordLength name)).map (· % 256))
          = splice buf p (len :: (name.take (wordLength name)).map (· % 256)) := by
        have := @splice_splice buf p [len] ((name.take (wordLength name)).map (· % 256))
          (by simp [htake]; omega)
        simpa using this
      have hB : (splice buf p (len :: (name.take (wordLength name)).map (· % 256))).length
          = buf.length := length_splice (by simp [htake]; omega)
      rw [store_eq_splice _ (by omega), Nat.mod_eq_of_lt (by omega)]
      simp only [ok_bind]
      rw [copyWord_map _ (by rw [hA, htake]; omega)]
      simp only [ok_bind]
      rw [s1, htake, ih rest _ _ (by omega) (by rw [hB]; omega)]
      have := @splice_splice buf p (len :: (name.take (wordLength name)).map (· % 256))
        (encodedLabels n rest) (by simp [htake]; omega)
      simp only [List.length_cons, List.length_map, htake] at this
      rw [show p + 1 + wordLength name = p + (wordLength name + 1) by omega, this]
      simp [htake]
      omega

theorem length_encodedLabels_le (fuel : Nat) (name : List Nat) :
    (encodedLabels fuel name).length ≤ name.length + 1 := by
  induction fuel generalizing name with
  | zero => simp [encodedLabels]
  | succ n ih =>
    unfold encodedLabels
    by_cases h0 : name.headD 0 = 0
    · rw [if_pos h0]
      simp
    · have hwl := wordLength_le name
      have htake : (name.take (wordLength name)).length = wordLength name := by
        simp; omega
      rw [if_neg h0]
      dsimp only
      simp only [List.length_append, List.length_cons, List.length_map, htake]
      by_cases h46 : (name.drop (wordLength name)).headD 0 = 46
      · rw [if_pos h46]
        have hi := ih ((name.drop (wordLength name)).drop 1)
        have hne : (name.drop (wordLength name)) ≠ [] := by
          intro hc; simp [hc] at h46
        have hpos : 0 < (name.drop (wordLength name)).length := List.length_pos.2 hne
        rw [List.length_drop] at hpos
        rw [List.length_drop, List.length_drop] at hi
        omega
      · rw [if_neg h46]
        have hz : (name.drop (wordLength name)).headD 0 = 0 := by
          rcases headD_drop_wordLength name with h | h
          · exact h
          · exact absurd h h46
        have : encodedLabels n (name.drop (wordLength name)) = [] := by
          cases n with
          | zero => rfl
          | succ m => rw [encodedLabels, if_pos hz]
        rw [this]
        simp
        omega

theorem length_encodedName_le (name : List Nat) : (encodedName name).length ≤ name.length + 2 := by
  have := length_encodedLabels_le (name.length + 1) name
  simp [encodedName]
  omega

/-- `netbuf_add_domain_name` writes `encodedName` and nothing else, for every name. -/
theorem add_domain_name_encoded {buf : List Nat} (buflen : Nat) {o : Nat} (name : List Nat)
    (h : o + (encodedName name).length ≤ buf.length) :
    netbuf_add_domain_name buf buflen o name
      = .ok (splice buf o (encodedName name), o + (encodedName name).length) := by
  have h' : o + (encodedLabels (name.length + 1) name).length + 1 ≤ buf.length := by
    simpa [encodedName, Nat.add_assoc] using h
  unfold netbuf_add_domain_name
  dsimp only
  rw [add_loop_encoded _ name buf o (by omega) (by omega)]
  simp only [ok_bind]
  rw [store_splice _ rfl (by omega)]
  simp [encodedName]
  omega

/-! ## Long labels, the layout of a name, the query -/

theorem encodedLabels_nil (fuel : Nat) : encodedLabels fuel [] = [] := by
  cases fuel with
  | zero => rfl
  | succ n => rw [encodedLabels, if_pos (show ([] : List Nat).headD 0 = 0 from rfl)]

theorem map_mod_of_bytes {l : List Nat} (h : ∀ c ∈ l, c < 256) : l.map (· % 256) = l := by
  induction l with
  | nil => rfl
  | cons c cs ih =>
    rw [List.map_cons, ih (fun d hd => h d (by simp [hd])), Nat.mod_eq_of_lt (h c (by simp))]

theorem encodedName_long_label {l : List Nat} (hl : ∀ c ∈ l, c ≠ 0 ∧ c ≠ 46 ∧ c < 256)
    (hlong : 63 < l.length) : encodedName l = 63 :: l ++ [0] := by
  have hw : wordLength l = l.length := by
    have := wordLength_append (fun d hd => ⟨(hl d hd).1, (hl d hd).2.1⟩) [] (Or.inl rfl)
    simpa using this
  have hh : l.headD 0 ≠ 0 := by
    cases l with
    | nil => simp at hlong
    | cons c cs => simpa using (hl c (by simp)).1
  unfold encodedName
  rw [encodedLabels, if_neg hh]
  dsimp only
  rw [hw, if_pos (by omega), List.take_length, List.drop_length]
  simp only [List.headD_nil, show ¬ ((0 : Nat) = 46) by decide, if_false, encodedLabels_nil,
    List.append_nil, map_mod_of_bytes (fun c hc => (hl c hc).2.2)]

/-- C14, what the code does: for every name that is one label of more than 63
bytes, `netbuf_add_domain_name` writes the length byte 63, then every byte of the
label (not its first 63 bytes only), then the zero byte, and advances the cursor
by the length of the label plus 2: the length byte is smaller than the number of
label bytes that follow it. -/
theorem long_label_written_whole (buf : List Nat) (buflen o : Nat) (l : List Nat)
    (hl : ∀ c ∈ l, c ≠ 0 ∧ c ≠ 46 ∧ c < 256) (hlong : 63 < l.length)
    (hroom : o + (l.length + 2) ≤ buf.length) :
    netbuf_add_domain_name buf buflen o l
      = .ok (splice buf o (63 :: l ++ [0]), o + (l.length + 2)) := by
  have e := encodedName_long_label hl hlong
  rw [add_domain_name_encoded buflen l (by rw [e]; simp; omega), e]
  simp

/-- C14 at a failing input: the name of 64 letters `a`.  The bytes written are
`3F`, 64 times `61`, `00`; the cursor moves by 66. -/
theorem long_label_written_whole_witness :
    netbuf_add_domain_name (List.replicate 70 0) 70 2 (List.replicate 64 97)
      = .ok (splice (List.replicate 70 0) 2 (63 :: List.replicate 64 97 ++ [0]),
          2 + ((List.replicate 64 97).length + 2)) :=
  long_label_written_whole (List.replicate 70 0) 70 2 (List.replicate 64 97)
    (by decide) (by decide) (by decide)

theorem length_byte_high_bits : ∀ n, n ≤ 63 → n &&& 0xC0 = 0 := by
  intro n h
  interval_cases n <;> decide

/-- C16. Name encoding layout: for every name made of one or more labels of 1 to
63 bytes joined by single dots, `netbuf_add_domain_name` at offset `o` writes
`wireLabels`, that is for each label in order one byte equal to its length and
then its bytes, followed by one zero byte, and nothing else; every length byte
has its two high bits clear, so none begins a compression pointer; the cursor
advances by exactly `strlen(name) + 2`.  For the empty name, at every offset `q`
of every buffer `out` with one byte of room, it writes a single zero byte and
advances the cursor by 1. -/
theorem name_encoding_layout (buf out : List Nat) (buflen o q : Nat)
    (labels : List (List Nat))
    (hl : ∀ l ∈ labels, IsLabel l) (hne : labels ≠ [])
    (hroom : o + ((dotJoin labels).length + 2) ≤ buf.length)
    (hone : q + 1 ≤ out.length) :
    netbuf_add_domain_name buf buflen o (dotJoin labels)
      = .ok (splice buf o (wireLabels labels ++ [0]), o + ((dotJoin labels).length + 2)) ∧
    (∀ l ∈ labels, List.length l &&& 0xC0 = 0) ∧
    netbuf_add_domain_name out buflen q [] = .ok (splice out q [0], q + 1) := by
  have hw := (length_wireLabels_le labels).2 hne
  have hwn : (wireName labels).length = (dotJoin labels).length + 2 := by
    simp [wireName, hw]
  refine ⟨?_, fun l h => length_byte_high_bits _ (hl l h).2.1, ?_⟩
  · rw [add_domain_name_eq buflen labels hl (by omega), hwn]
    rfl
  · have := @add_domain_name_eq out buflen q [] (by simp) (by
      simp [wireName, wireLabels]; omega)
    simpa [dotJoin, wireName, wireLabels] using this

/-- C16 at a concrete input: `xmpp.example.com` written at offset 1 of a 20-byte
buffer, and the empty name written at offset 0 of a 1-byte buffer. -/
theorem name_encoding_layout_witness :
    netbuf_add_domain_name (List.replicate 20 9) 20 1
        (dotJoin [[120, 109, 112, 112], [101, 120, 97, 109, 112, 108, 101], [99, 111, 109]])
      = .ok (splice (List.replicate 20 9) 1
          (wireLabels [[120, 109, 112, 112], [101, 120, 97, 109, 112, 108, 101], [99, 111, 109]]
            ++ [0]),
          1 + ((dotJoin [[120, 109, 112, 112], [101, 120, 97, 109, 112, 108, 101],
            [99, 111, 109]]).length + 2)) ∧
    (∀ l ∈ [[120, 109, 112, 112], [101, 120, 97, 109, 112, 108, 101], [99, 111, 109]],
      List.length l &&& 0xC0 = 0) ∧
    netbuf_add_domain_name [9] 20 0 [] = .ok (splice [9] 0 [0], 0 + 1) :=
  name_encoding_layout (List.replicate 20 9) [9] 20 1 0
    [[120, 109, 112, 112], [101, 120, 97, 109, 112, 108, 101], [99, 111, 109]]
    (by decide) (by decide) (by decide) (by decide)

/-- For a name of well-formed labels the encoder writes the wire form of the labels. -/
theorem encodedName_dotJoin (labels : List (List Nat)) (hl : ∀ l ∈ labels, IsLabel l) :
    encodedName (dotJoin labels) = wireName labels := by
  have h1 := length_encodedName_le (dotJoin labels)
  have h2 := length_wireName_le labels
  let buf := List.replicate ((dotJoin labels).length + 2) 0
  have hb : buf.length = (dotJoin labels).length + 2 := List.length_replicate _ _
  have e1 := @add_domain_name_encoded buf 0 0 (dotJoin labels) (by omega)
  have e2 := @add_domain_name_eq buf 0 0 labels hl (by omega)
  rw [e1] at e2
  have e3 := Except.ok.inj e2
  have hlen : (encodedName (dotJoin labels)).length = (wireName labels).length := by
    have := congrArg Prod.snd e3
    simpa using this
  have hs : splice buf 0 (encodedName (dotJoin labels)) = splice buf 0 (wireName labels) :=
    congrArg Prod.fst e3
  unfold splice at hs
  simp only [List.take_zero, List.nil_append, Nat.zero_add] at hs
  exact (List.append_inj hs hlen).1

/-- The query in terms of what the encoder writes: for every service, protocol and domain whose composed
name `_<service>._<protocol>.<domain>` is shorter than 2048 bytes, the query that
`sock_srv_lookup` builds in its 65536-byte buffer is the 12-byte header with id
12345, `rd = 1`, `qdcount = 1`, every other flag and count zero, followed by the
encoding `netbuf_add_domain_name` gives the composed name (for a name of
well-formed labels: each label as its length byte and its bytes, then a zero
byte), followed by `qtype` 33 and `qclass` 1 as big-endian 16-bit values; its
length is 12 + (encoded name length) + 4. -/
theorem query_message (buf service proto domain : List Nat)
    (hs : ∀ c ∈ service, c ≠ 0) (hp : ∀ c ∈ proto, c ≠ 0) (hd : ∀ c ∈ domain, c ≠ 0)
    (hbuf : buf.length = 65536)
    (hlen : ([95] ++ service ++ [46, 95] ++ proto ++ [46] ++ domain).length < 2048) :
    fulldomain_text service proto domain
      = [95] ++ service ++ [46, 95] ++ proto ++ [46] ++ domain ∧
    sock_srv_lookup_query buf ([95] ++ service ++ [46, 95] ++ proto ++ [46] ++ domain)
      = .ok (splice buf 0
          ([48, 57, 1, 0, 0, 1, 0, 0, 0, 0, 0, 0]
            ++ encodedName ([95] ++ service ++ [46, 95] ++ proto ++ [46] ++ domain)
            ++ [0, 33, 0, 1]),
          12 + (encodedName ([95] ++ service ++ [46, 95] ++ proto ++ [46] ++ domain)).length
            + 4) ∧
    (∀ (out : List Nat) (q : Nat),
      q + (encodedName ([95] ++ service ++ [46, 95] ++ proto ++ [46] ++ domain)).length
          ≤ out.length →
        netbuf_add_domain_name out 65536 q
            ([95] ++ service ++ [46, 95] ++ proto ++ [46] ++ domain)
          = .ok (splice out q
              (encodedName ([95] ++ service ++ [46, 95] ++ proto ++ [46] ++ domain)),
              q + (encodedName
                ([95] ++ service ++ [46, 95] ++ proto ++ [46] ++ domain)).length)) ∧
    (∀ labels : List (List Nat), (∀ l ∈ labels, IsLabel l) →
      [95] ++ service ++ [46, 95] ++ proto ++ [46] ++ domain = dotJoin labels →
      encodedName ([95] ++ service ++ [46, 95] ++ proto ++ [46] ++ domain)
        = wireName labels) := by
  generalize hname : [95] ++ service ++ [46, 95] ++ proto ++ [46] ++ domain = name at hlen ⊢
  have hle := length_encodedName_le name
  refine ⟨?_, ?_, fun out q hq => add_domain_name_encoded 65536 name hq, ?_⟩
  · rw [← hname]
    unfold fulldomain_text
    rw [cstr_eq_self hs, cstr_eq_self hp, cstr_eq_self hd]
  · have hh : headerBytes srv_query_header = [48, 57, 1, 0, 0, 1, 0, 0, 0, 0, 0, 0] := by
      decide
    unfold sock_srv_lookup_query netbuf_add_dnsquery_question
    dsimp only
    rw [add_dnsquery_header_eq _ _ (by omega)]
    simp only [ok_bind, Nat.zero_add]
    rw [add_domain_name_encoded 65536 name
      (by rw [length_splice (by rw [length_headerBytes]; omega)]; omega)]
    simp only [ok_bind]
    rw [add_16bitnum_eq _ _ (by
      rw [length_splice (by rw [length_splice (by rw [length_headerBytes]; omega)]; omega),
        length_splice (by rw [length_headerBytes]; omega)]; omega)]
    simp only [ok_bind]
    rw [add_16bitnum_eq _ _ (by
      rw [length_splice (by
          rw [length_splice (by
            rw [length_splice (by rw [length_headerBytes]; omega)]; omega),
            length_splice (by rw [length_headerBytes]; omega)]
          simp [be16]; omega),
        length_splice (by rw [length_splice (by rw [length_headerBytes]; omega)]; omega),
        length_splice (by rw [length_headerBytes]; omega)]; omega)]
    simp only [ok_bind, pure_eq_ok]
    have s1 := @splice_splice buf 0 (headerBytes srv_query_header) (encodedName name)
      (by rw [length_headerBytes]; omega)
    rw [length_headerBytes, Nat.zero_add] at s1
    rw [s1]
    have s2 := @splice_splice buf 0 (headerBytes srv_query_header ++ encodedName name)
      (be16 33) (by simp [length_headerBytes, be16]; omega)
    simp only [List.length_append, length_headerBytes, Nat.zero_add] at s2
    rw [s2]
    have s3 := @splice_splice buf 0 (headerBytes srv_query_header ++ encodedName name ++ be16 33)
      (be16 1) (by simp [length_headerBytes, be16]; omega)
    simp only [List.length_append, length_headerBytes, Nat.zero_add,
      show (be16 33).length = 2 from rfl] at s3
    rw [s3, hh, show be16 33 = [0, 33] from by decide, show be16 1 = [0, 1] from by decide]
    simp only [List.append_assoc, List.cons_append, List.nil_append, Nat.add_assoc]
  · intro labels hl he
    rw [he]
    exact encodedName_dotJoin labels hl

/-- The query at a concrete input: service `xmpp-client`, protocol `tcp`, domain
`example.com`, the buffer all zero. -/
theorem query_message_witness :
    fulldomain_text [120, 109, 112, 112, 45, 99, 108, 105, 101, 110, 116] [116, 99, 112]
        [101, 120, 97, 109, 112, 108, 101, 46, 99, 111, 109]
      = [95] ++ [120, 109, 112, 112, 45, 99, 108, 105, 101, 110, 116] ++ [46, 95]
          ++ [116, 99, 112] ++ [46] ++ [101, 120, 97, 109, 112, 108, 101, 46, 99, 111, 109] ∧
    sock_srv_lookup_query (List.replicate 65536 0)
        ([95] ++ [120, 109, 112, 112, 45, 99, 108, 105, 101, 110, 116] ++ [46, 95]
          ++ [116, 99, 112] ++ [46] ++ [101, 120, 97, 109, 112, 108, 101, 46, 99, 111, 109])
      = .ok (splice (List.replicate 65536 0) 0
          ([48, 57, 1, 0, 0, 1, 0, 0, 0, 0, 0, 0]
            ++ encodedName ([95] ++ [120, 109, 112, 112, 45, 99, 108, 105, 101, 110, 116]
              ++ [46, 95] ++ [116, 99, 112] ++ [46]
              ++ [101, 120, 97, 109, 112, 108, 101, 46, 99, 111, 109])
            ++ [0, 33, 0, 1]),
          12 + (encodedName ([95] ++ [120, 109, 112, 112, 45, 99, 108, 105, 101, 110, 116]
              ++ [46, 95] ++ [116, 99, 112] ++ [46]
              ++ [101, 120, 97, 109, 112, 108, 101, 46, 99, 111, 109])).length + 4) ∧
    (∀ (out : List Nat) (q : Nat),
      q + (encodedName ([95] ++ [120, 109, 112, 112, 45, 99, 108, 105, 101, 110, 116]
              ++ [46, 95] ++ [116, 99, 112] ++ [46]
              ++ [101, 120, 97, 109, 112, 108, 101, 46, 99, 111, 109])).length ≤ out.length →
        netbuf_add_domain_name out 65536 q
            ([95] ++ [120, 109, 112, 112, 45, 99, 108, 105, 101, 110, 116] ++ [46, 95]
              ++ [116, 99, 112] ++ [46] ++ [101, 120, 97, 109, 112, 108, 101, 46, 99, 111, 109])
          = .ok (splice out q
              (encodedName ([95] ++ [120, 109, 112, 112, 45, 99, 108, 105, 101, 110, 116]
                ++ [46, 95] ++ [116, 99, 112] ++ [46]
                ++ [101, 120, 97, 109, 112, 108, 101, 46, 99, 111, 109])),
              q + (encodedName ([95] ++ [120, 109, 112, 112, 45, 99, 108, 105, 101, 110, 116]
                ++ [46, 95] ++ [116, 99, 112] ++ [46]
                ++ [101, 120, 97, 109, 112, 108, 101, 46, 99, 111, 109])).length)) ∧
    (∀ labels : List (List Nat), (∀ l ∈ labels, IsLabel l) →
      [95] ++ [120, 109, 112, 112, 45, 99, 108, 105, 101, 110, 116] ++ [46, 95]
          ++ [116, 99, 112] ++ [46] ++ [101, 120, 97, 109, 112, 108, 101, 46, 99, 111, 109]
        = dotJoin labels →
      encodedName ([95] ++ [120, 109, 112, 112, 45, 99, 108, 105, 101, 110, 116] ++ [46, 95]
          ++ [116, 99, 112] ++ [46] ++ [101, 120, 97, 109, 112, 108, 101, 46, 99, 111, 109])
        = wireName labels) :=
  query_message (List.replicate 65536 0) [120, 109, 112, 112, 45, 99, 108, 105, 101, 110, 116]
    [116, 99, 112] [101, 120, 97, 109, 112, 108, 101, 46, 99, 111, 109]
    (by decide) (by decide) (by decide) (List.length_replicate 65536 0) (by decide)

/-! ## The size pre-scan and the labels reached -/

theorem lt_of_load_ok {buf : List Nat} {i b : Nat} (h : load buf i = .ok b) :
    i < buf.length := by
  unfold load at h
  by_contra hc
  rw [List.getElem?_eq_none (by omega)] at h
  cases h

theorem lt_of_labelsReached_ok {buf : List Nat} {fuel p : Nat} {ls : List (List Nat)}
    (h : labelsReached buf fuel p = .ok ls) : p < buf.length := by
  cases fuel with
  | zero => cases h
  | succ n =>
    rw [labelsReached] at h
    obtain ⟨b, hb, -⟩ := bind_eq_ok h
    exact lt_of_load_ok hb

theorem holdsAt_take_drop (buf : List Nat) (p b : Nat) :
    HoldsAt buf p ((buf.drop p).take b) := by
  unfold HoldsAt
  exact List.take_prefix _ _

/-- The size pre-scan counts the labels reached. -/
theorem calc_loop_labelsReached {buf : List Nat} {fuel p : Nat} {ls : List (List Nat)}
    (h : labelsReached buf fuel p = .ok ls) (len : Nat) :
    calc_domain_name_size_loop buf fuel p len = .ok (sizeLabels len ls) := by
  induction fuel generalizing p len ls with
  | zero => cases h
  | succ n ih =>
    rw [labelsReached] at h
    rw [calc_domain_name_size_loop]
    obtain ⟨b, hb, h⟩ := bind_eq_ok h
    rw [hb]
    simp only [ok_bind]
    by_cases h0 : b = 0
    · rw [if_pos h0] at h ⊢
      cases h
      rfl
    · rw [if_neg h0] at h ⊢
      by_cases hp : b &&& 0xC0 = 0xC0
      · rw [if_pos hp] at h ⊢
        obtain ⟨b1, hb1, h⟩ := bind_eq_ok h
        rw [hb1]
        exact ih h len
      · rw [if_neg hp] at h ⊢
        obtain ⟨rest, hr, h⟩ := bind_eq_ok h
        cases h
        have hlt := lt_of_labelsReached_ok hr
        rw [ih hr]
        simp only [sizeLabels, List.foldl_cons, List.length_take, List.length_drop]
        have e : min b (buf.length - (p + 1)) = b := by omega
        rw [e]

/-- The decoding loop appends the labels reached, each up to its first zero byte. -/
theorem get_loop_labelsReached {buf : List Nat} {fuel p : Nat} {ls : List (List Nat)}
    (h : labelsReached buf fuel p = .ok ls) (start : Nat) (name : List Nat) (cur : Bool)
    (off : Nat) :
    ∃ off2, netbuf_get_domain_name_loop buf start fuel p name cur off
      = .ok (appendLabels name ls, off2) := by
  induction fuel generalizing p name cur off ls with
  | zero => cases h
  | succ n ih =>
    rw [labelsReached] at h
    rw [netbuf_get_domain_name_loop]
    obtain ⟨b, hb, h⟩ := bind_eq_ok h
    rw [hb]
    simp only [ok_bind]
    by_cases h0 : b = 0
    · rw [if_pos h0] at h ⊢
      cases h
      cases cur
      · exact ⟨_, rfl⟩
      · exact ⟨_, rfl⟩
    · rw [if_neg h0] at h ⊢
      by_cases hp : b &&& 0xC0 = 0xC0
      · rw [if_pos hp] at h ⊢
        obtain ⟨b1, hb1, h⟩ := bind_eq_ok h
        rw [hb1]
        exact ih h _ _ _
      · rw [if_neg hp] at h ⊢
        obtain ⟨rest, hr, h⟩ := bind_eq_ok h
        cases h
        have hlt := lt_of_labelsReached_ok hr
        have hlen : ((buf.drop (p + 1)).take b).length = b := by
          rw [List.length_take, List.length_drop]; omega
        have hs := strncat_eq ((buf.drop (p + 1)).take b)
          (if name ≠ [] then name ++ [46] else name) (holdsAt_take_drop buf (p + 1) b)
        rw [hlen] at hs
        rw [hs]
        simp only [ok_bind]
        obtain ⟨off2, ho⟩ := ih hr (p := p + (b + 1))
          ((if name ≠ [] then name ++ [46] else name) ++ cstr ((buf.drop (p + 1)).take b))
          cur off
        exact ⟨off2, by rw [ho]; simp only [appendLabels, List.foldl_cons]⟩

/-- Where the size pre-scan returns, the labels reached are defined. -/
theorem labelsReached_of_calc_ok {buf : List Nat} {fuel p len r : Nat}
    (h : calc_domain_name_size_loop buf fuel p len = .ok r) :
    ∃ ls, labelsReached buf fuel p = .ok ls := by
  induction fuel generalizing p len with
  | zero => cases h
  | succ n ih =>
    rw [calc_domain_name_size_loop] at h
    rw [labelsReached]
    obtain ⟨b, hb, h⟩ := bind_eq_ok h
    rw [hb]
    simp only [ok_bind]
    by_cases h0 : b = 0
    · rw [if_pos h0]
      exact ⟨[], rfl⟩
    · rw [if_neg h0] at h ⊢
      by_cases hp : b &&& 0xC0 = 0xC0
      · rw [if_pos hp] at h ⊢
        obtain ⟨b1, hb1, h⟩ := bind_eq_ok h
        rw [hb1]
        exact ih h
      · rw [if_neg hp] at h ⊢
        obtain ⟨rest, hr⟩ := ih h
        rw [hr]
        exact ⟨_, rfl⟩

/-- Every label reached has at least one byte, and at most 191 in a buffer of bytes. -/
theorem labelsReached_bounds {buf : List Nat} {fuel p : Nat} {ls : List (List Nat)}
    (h : labelsReached buf fuel p = .ok ls) :
    (∀ l ∈ ls, 1 ≤ l.length) ∧ ((∀ x ∈ buf, x < 256) → ∀ l ∈ ls, l.length ≤ 191) := by
  induction fuel generalizing p ls with
  | zero => cases h
  | succ n ih =>
    rw [labelsReached] at h
    obtain ⟨b, hb, h⟩ := bind_eq_ok h
    by_cases h0 : b = 0
    · rw [if_pos h0] at h
      cases h
      simp
    · rw [if_neg h0] at h
      by_cases hp : b &&& 0xC0 = 0xC0
      · rw [if_pos hp] at h
        obtain ⟨b1, hb1, h⟩ := bind_eq_ok h
        exact ih h
      · rw [if_neg hp] at h
        obtain ⟨rest, hr, h⟩ := bind_eq_ok h
        cases h
        have hlt := lt_of_labelsReached_ok hr
        have hlen : ((buf.drop (p + 1)).take b).length = b := by
          rw [List.length_take, List.length_drop]; omega
        obtain ⟨i1, i2⟩ := ih hr
        refine ⟨?_, ?_⟩
        · intro l hl
          rcases List.mem_cons.1 hl with rfl | hl
          · rw [hlen]; omega
          · exact i1 l hl
        · intro hbytes l hl
          rcases List.mem_cons.1 hl with rfl | hl
          · rw [hlen]
            have hb256 : b < 256 := by
              have hp0 := lt_of_load_ok hb
              have hm : b ∈ buf := by
                unfold load at hb
                rw [List.getElem?_eq_getElem hp0] at hb
                cases hb
                exact List.getElem_mem _
              exact hbytes b hm
            by_contra hc
            have : ∀ x, x < 256 → ¬ x ≤ 191 → x &&& 0xC0 = 0xC0 := by
              intro x hx1 hx2
              interval_cases x <;> first | omega | decide
            exact hp (this b hb256 hc)
          · exact i2 hbytes l hl
theorem appendLabels_eq_of {ls : List (List Nat)}
    (h : ∀ l ∈ ls, 1 ≤ l.length ∧ ∀ c ∈ l, c ≠ 0) (name : List Nat) :
    appendLabels name ls
      = if name = [] then dotJoin ls else if ls = [] then name else name ++ 46 :: dotJoin ls := by
  induction ls generalizing name with
  | nil => by_cases hn : name = [] <;> simp [appendLabels, dotJoin, hn]
  | cons l ls ih =>
    have hl := h l (by simp)
    have hne : l ≠ [] := by
      intro hc; have := hl.1; simp [hc] at this
    have step : appendLabels name (l :: ls)
        = appendLabels ((if name ≠ [] then name ++ [46] else name) ++ l) ls := by
      simp only [appendLabels, List.foldl_cons, cstr_eq_self hl.2]
    rw [step, ih (fun m hm => h m (by simp [hm]))]
    have hne2 : (if name ≠ [] then name ++ [46] else name) ++ l ≠ [] := by simp [hne]
    rw [if_neg hne2]
    cases ls with
    | nil => by_cases hn : name = [] <;> simp [dotJoin, hn]
    | cons m ms => by_cases hn : name = [] <;> simp [dotJoin_cons_cons, hn]

/-- A run of `netbuf_get_domain_name` that returns has reached a list of labels:
the string is what the labels append to, and the size is what they count to. -/
theorem get_domain_name_labelsReached {fuel : Nat} {buf : List Nat} {buflen o : Nat}
    {name : List Nat} {off : Nat}
    (hget : netbuf_get_domain_name fuel buf buflen o = .ok (name, off)) :
    ∃ labels, labelsReached buf fuel o = .ok labels ∧ name = appendLabels [] labels ∧
      calc_domain_name_size fuel buf buflen o = .ok (sizeLabels 0 labels) := by
  obtain ⟨size, hsize⟩ := calc_ok_of_get_ok hget
  obtain ⟨labels, hl⟩ := labelsReached_of_calc_ok hsize
  have hc := @calc_loop_labelsReached buf fuel o labels hl 0
  obtain ⟨off2, hg⟩ := get_loop_labelsReached hl o [] true o
  refine ⟨labels, hl, ?_, hc⟩
  unfold netbuf_get_domain_name at hget
  rw [hsize] at hget
  simp only [ok_bind] at hget
  rw [hg] at hget
  exact (congrArg Prod.fst (Except.ok.inj hget)).symm

/-- C19 (amended). Label-length bytes on decode: `netbuf_get_domain_name` treats
every non-zero byte whose two high bits are not both set as a label length, so in
a buffer of bytes every label of a decoded name has between 1 and 191 bytes; a
byte whose two high bits are 01 or 10 is consumed as the length of a label of 64
to 191 bytes: labels of 1 to 191 non-zero bytes that stand in wire form are
decoded to the labels joined by dots. -/
theorem label_length_bytes (fuel : Nat) (buf : List Nat) (buflen o : Nat) (name : List Nat)
    (off : Nat) (hbytes : ∀ x ∈ buf, x < 256)
    (hget : netbuf_get_domain_name fuel buf buflen o = .ok (name, off)) :
    (∃ labels, labelsReached buf fuel o = .ok labels ∧
      name = appendLabels [] labels ∧
      ∀ l ∈ labels, 1 ≤ l.length ∧ l.length ≤ 191) ∧
    (∀ (msg : List Nat) (q : Nat) (ls : List (List Nat)),
      (∀ l ∈ ls, 1 ≤ l.length ∧ l.length ≤ 191 ∧ ∀ c ∈ l, c ≠ 0) →
      HoldsAt msg q (wireName ls) →
      netbuf_get_domain_name (ls.length + 1) msg buflen q
        = .ok (dotJoin ls, q + (wireName ls).length)) := by
  constructor
  · obtain ⟨labels, hl, hname, -⟩ := get_domain_name_labelsReached hget
    obtain ⟨h1, h2⟩ := labelsReached_bounds hl
    exact ⟨labels, hl, hname, fun l hm => ⟨h1 l hm, h2 hbytes l hm⟩⟩
  · intro msg q ls hls hh
    rw [get_domain_name_plain buflen hh
      (fun l hm => ⟨(hls l hm).1, by have := (hls l hm).2.1; omega⟩) _ (Nat.le_refl _)]
    rw [appendLabels_eq_of (fun l hm => ⟨(hls l hm).1, (hls l hm).2.2⟩), if_pos rfl]

set_option maxRecDepth 100000 in
/-- C19 at a concrete input: a length byte of 100 (high bits 01) in front of 100
bytes `b`, then the closing zero byte. -/
theorem label_length_bytes_witness :
    (∀ x ∈ [100] ++ List.replicate 100 98 ++ [0], x < 256) ∧
    netbuf_get_domain_name 2 ([100] ++ List.replicate 100 98 ++ [0]) 102 0
      = .ok (List.replicate 100 98, 102) ∧
    (∃ labels, labelsReached ([100] ++ List.replicate 100 98 ++ [0]) 2 0 = .ok labels ∧
      List.replicate 100 98 = appendLabels [] labels ∧
      ∀ l ∈ labels, 1 ≤ l.length ∧ l.length ≤ 191) ∧
    (∀ (msg : List Nat) (q : Nat) (ls : List (List Nat)),
      (∀ l ∈ ls, 1 ≤ l.length ∧ l.length ≤ 191 ∧ ∀ c ∈ l, c ≠ 0) →
      HoldsAt msg q (wireName ls) →
      netbuf_get_domain_name (ls.length + 1) msg 102 q
        = .ok (dotJoin ls, q + (wireName ls).length)) :=
  ⟨by decide, by decide,
    label_length_bytes 2 ([100] ++ List.replicate 100 98 ++ [0]) 102 0
      (List.replicate 100 98) 102 (by decide) (by decide)⟩

/-- C19 as first stated fails on a length byte of 64 (high bits 01): the decoder
consumes it as the length of a label of 64 bytes. -/
theorem label_of_64_bytes_decoded :
    64 &&& 0xC0 = 0x40 ∧
    netbuf_get_domain_name 2 ([64] ++ List.replicate 64 97 ++ [0]) 66 0
      = .ok (List.replicate 64 97, 66) ∧
    labelsReached ([64] ++ List.replicate 64 97 ++ [0]) 2 0 = .ok [List.replicate 64 97] ∧
    ¬ (List.replicate 64 97).length ≤ 63 := by
  decide

/-! ## The allocation of the decoded name -/

theorem length_cstr_le (l : List Nat) : (cstr l).length ≤ l.length := by
  unfold cstr
  exact (List.takeWhile_sublist _).length_le

/-- The string built from labels is never longer than the count the size
pre-scan reaches over the same labels, when it was not longer before them. -/
theorem length_appendLabels_le (ls : List (List Nat)) (name : List Nat) (len : Nat)
    (h : name.length ≤ len) : (appendLabels name ls).length ≤ sizeLabels len ls := by
  induction ls generalizing name len with
  | nil => simpa [appendLabels, sizeLabels] using h
  | cons l ls ih =>
    have step1 : appendLabels name (l :: ls)
        = appendLabels ((if name ≠ [] then name ++ [46] else name) ++ cstr l) ls := by
      simp only [appendLabels, List.foldl_cons]
    have step2 : sizeLabels len (l :: ls)
        = sizeLabels ((if len ≠ 0 then len + 1 else len) + l.length) ls := by
      simp only [sizeLabels, List.foldl_cons]
    rw [step1, step2]
    apply ih
    have hc := length_cstr_le l
    rw [List.length_append]
    by_cases hn : name = []
    · subst hn
      rw [if_neg (by simp)]
      by_cases h0 : len = 0
      · rw [if_neg (by simp [h0])]
        simp only [List.length_nil]
        omega
      · rw [if_pos h0]
        simp only [List.length_nil]
        omega
    · have hlen : len ≠ 0 := by
        have : name.length ≠ 0 := by
          intro hz
          exact hn (List.length_eq_zero.1 hz)
        omega
      rw [if_pos hn, if_pos hlen, List.length_append]
      simp only [List.length_singleton]
      omega

theorem le_sizeLabels (ls : List (List Nat)) (len : Nat) : len ≤ sizeLabels len ls := by
  induction ls generalizing len with
  | nil => simp [sizeLabels]
  | cons l ls ih =>
    have step : sizeLabels len (l :: ls)
        = sizeLabels ((if len ≠ 0 then len + 1 else len) + l.length) ls := by
      simp only [sizeLabels, List.foldl_cons]
    rw [step]
    refine Nat.le_trans ?_ (ih _)
    by_cases h0 : len = 0
    · rw [if_neg (by simp [h0])]; omega
    · rw [if_pos h0]; omega

/-- C21. Allocation suffices: for every buffer and offset on which
`netbuf_get_domain_name` returns (labels that contain zero bytes included), the
size pre-scan `calc_domain_name_size` returns a size, and the string built is not
longer than that size, so the string and its terminator fit the size + 1 bytes
allocated; the same holds for the string as it stands after each label reached. -/
theorem allocation_suffices (fuel : Nat) (buf : List Nat) (buflen o : Nat) (name : List Nat)
    (off : Nat) (hget : netbuf_get_domain_name fuel buf buflen o = .ok (name, off)) :
    ∃ size, calc_domain_name_size fuel buf buflen o = .ok size ∧
      name.length ≤ size ∧ name.length + 1 ≤ size + 1 ∧
      ∃ labels, labelsReached buf fuel o = .ok labels ∧
        ∀ k, (appendLabels [] (labels.take k)).length + 1 ≤ size + 1 := by
  obtain ⟨labels, hl, hname, hc⟩ := get_domain_name_labelsReached hget
  have hle : name.length ≤ sizeLabels 0 labels := by
    rw [hname]
    exact length_appendLabels_le labels [] 0 (Nat.le_refl _)
  refine ⟨sizeLabels 0 labels, hc, hle, by omega, labels, hl, ?_⟩
  intro k
  have h1 := length_appendLabels_le (labels.take k) [] 0 (Nat.le_refl _)
  have h2 : sizeLabels 0 (labels.take k) ≤ sizeLabels 0 labels := by
    have e : sizeLabels 0 labels
        = sizeLabels (sizeLabels 0 (labels.take k)) (labels.drop k) := by
      rw [← sizeLabels_append, List.take_append_drop]
    rw [e]
    exact le_sizeLabels _ _
  omega

/-- C21 at a concrete input: the label `61 00 62`, of which `strncat` copies the
first byte only, and the label `cd`: the string `a.cd` has 4 bytes, the size
pre-scan returns 6. -/
theorem allocation_suffices_witness :
    netbuf_get_domain_name 3 [3, 97, 0, 98, 2, 99, 100, 0] 8 0
      = .ok ([97, 46, 99, 100], 8) ∧
    calc_domain_name_size 3 [3, 97, 0, 98, 2, 99, 100, 0] 8 0 = .ok 6 ∧
    ∃ size, calc_domain_name_size 3 [3, 97, 0, 98, 2, 99, 100, 0] 8 0 = .ok size ∧
      [97, 46, 99, 100].length ≤ size ∧ [97, 46, 99, 100].length + 1 ≤ size + 1 ∧
      ∃ labels, labelsReached [3, 97, 0, 98, 2, 99, 100, 0] 3 0 = .ok labels ∧
        ∀ k, (appendLabels [] (labels.take k)).length + 1 ≤ size + 1 :=
  ⟨by decide, by decide,
    allocation_suffices 3 [3, 97, 0, 98, 2, 99, 100, 0] 8 0 [97, 46, 99, 100] 8 (by decide)⟩

/-! ## Termination of name decoding: the walk over positions -/

theorem load_cases (buf : List Nat) (p : Nat) :
    load buf p = .error .oob ∨ ∃ b, load buf p = .ok b ∧ p < buf.length := by
  unfold load
  cases h : buf[p]? with
  | none => exact Or.inl rfl
  | some b =>
    refine Or.inr ⟨b, rfl, ?_⟩
    by_contra hc
    rw [List.getElem?_eq_none (by omega)] at h
    cases h

/-- One pass of the size pre-scan follows `nextPosition`. -/
theorem calc_loop_step (buf : List Nat) (fuel p len : Nat) :
    (nextPosition buf p = .error .oob ∧
      calc_domain_name_size_loop buf (fuel + 1) p len = .error .oob) ∨
    (nextPosition buf p = .ok none ∧
      calc_domain_name_size_loop buf (fuel + 1) p len = .ok len) ∨
    (∃ q len2, nextPosition buf p = .ok (some q) ∧ p < buf.length ∧
      calc_domain_name_size_loop buf (fuel + 1) p len
        = calc_domain_name_size_loop buf fuel q len2) := by
  rw [calc_domain_name_size_loop]
  unfold nextPosition
  rcases load_cases buf p with hb | ⟨b, hb, hlt⟩
  · rw [hb]
    exact Or.inl ⟨rfl, rfl⟩
  · rw [hb]
    simp only [ok_bind]
    by_cases h0 : b = 0
    · rw [if_pos h0, if_pos h0]
      exact Or.inr (Or.inl ⟨rfl, rfl⟩)
    · rw [if_neg h0, if_neg h0]
      by_cases hp : b &&& 0xC0 = 0xC0
      · rw [if_pos hp, if_pos hp]
        rcases load_cases buf (p + 1) with hb1 | ⟨b1, hb1, -⟩
        · rw [hb1]
          exact Or.inl ⟨rfl, rfl⟩
        · rw [hb1]
          simp only [ok_bind]
          exact Or.inr (Or.inr ⟨_, len, rfl, hlt, rfl⟩)
      · rw [if_neg hp, if_neg hp]
        exact Or.inr (Or.inr ⟨_, _, rfl, hlt, rfl⟩)

theorem positionAt_succ_of_next {buf : List Nat} {p q : Nat}
    (h : nextPosition buf p = .ok (some q)) (k : Nat) :
    positionAt buf (k + 1) p = positionAt buf k q := by
  rw [positionAt, h]

/-- A run of the size pre-scan ends in a size, or reads outside the buffer, or
is still in its loop when the fuel is used up; then every pass so far has
started at a position inside the buffer. -/
theorem calc_loop_outcome (buf : List Nat) (fuel p len : Nat) :
    (∃ r, calc_domain_name_size_loop buf fuel p len = .ok r) ∨
    calc_domain_name_size_loop buf fuel p len = .error .oob ∨
    (calc_domain_name_size_loop buf fuel p len = .error .fuel ∧
      ∀ k, k < fuel → ∃ q, positionAt buf k p = some q ∧ q < buf.length) := by
  induction fuel generalizing p len with
  | zero => exact Or.inr (Or.inr ⟨rfl, fun k hk => absurd hk (Nat.not_lt_zero k)⟩)
  | succ n ih =>
    rcases calc_loop_step buf n p len with ⟨-, h⟩ | ⟨-, h⟩ | ⟨q, len2, hq, hlt, h⟩
    · exact Or.inr (Or.inl h)
    · exact Or.inl ⟨len, h⟩
    · rw [h]
      rcases ih q len2 with h1 | h1 | ⟨h1, h2⟩
      · exact Or.inl h1
      · exact Or.inr (Or.inl h1)
      · refine Or.inr (Or.inr ⟨h1, fun k hk => ?_⟩)
        cases k with
        | zero => exact ⟨p, rfl, hlt⟩
        | succ k =>
          rw [positionAt_succ_of_next hq]
          exact h2 k (by omega)

/-- More passes than the buffer has bytes, all started inside the buffer: two of
them started at the same position. -/
theorem positionAt_repeats {buf : List Nat} {p : Nat}
    (h : ∀ k, k < buf.length + 1 → ∃ q, positionAt buf k p = some q ∧ q < buf.length) :
    ∃ i j x, i < j ∧ j ≤ buf.length ∧ positionAt buf i p = some x ∧
      positionAt buf j p = some x := by
  have hget : ∀ k : Fin (buf.length + 1), (positionAt buf k.1 p).getD 0 < buf.length := by
    intro k
    obtain ⟨q, hq, hlt⟩ := h k.1 k.2
    rw [hq]
    exact hlt
  let f : Fin (buf.length + 1) → Fin buf.length := fun k =>
    ⟨(positionAt buf k.1 p).getD 0, hget k⟩
  obtain ⟨a, b, hab, hf⟩ := Fintype.exists_ne_map_eq_of_card_lt f (by simp)
  have hv : (positionAt buf a.1 p).getD 0 = (positionAt buf b.1 p).getD 0 :=
    congrArg Fin.val hf
  obtain ⟨qa, hqa, -⟩ := h a.1 a.2
  obtain ⟨qb, hqb, -⟩ := h b.1 b.2
  rw [hqa, hqb] at hv
  have hv2 : qa = qb := hv
  have hne : a.1 ≠ b.1 := fun hc => hab (Fin.ext hc)
  have ha := a.2
  have hb := b.2
  rcases Nat.lt_or_gt_of_ne hne with hlt | hlt
  · exact ⟨a.1, b.1, qa, hlt, by omega, hqa, by rw [hqb, hv2]⟩
  · exact ⟨b.1, a.1, qa, hlt, by omega, by rw [hqb, hv2], hqa⟩

theorem positionAt_add (buf : List Nat) (i j p : Nat) :
    positionAt buf (i + j) p = (positionAt buf i p).bind (positionAt buf j) := by
  induction i generalizing p with
  | zero => simp [positionAt]
  | succ i ih =>
    rw [Nat.add_right_comm, positionAt, positionAt]
    cases hn : nextPosition buf p with
    | error e => rfl
    | ok r =>
      cases r with
      | none => rfl
      | some q => exact ih q

theorem positionAt_of_add {buf : List Nat} {a b p y : Nat}
    (h : positionAt buf (a + b) p = some y) : ∃ z, positionAt buf a p = some z := by
  rw [positionAt_add] at h
  cases hz : positionAt buf a p with
  | none => rw [hz] at h; cases h
  | some z => exact ⟨z, rfl⟩

/-- A walk that comes back to a position goes on for ever. -/
theorem positionAt_cycle {buf : List Nat} {o i j x : Nat} (hij : i < j)
    (hi : positionAt buf i o = some x) (hj : positionAt buf j o = some x) :
    ∀ k, ∃ z, positionAt buf k o = some z := by
  obtain ⟨d, rfl⟩ : ∃ d, j = i + d := ⟨j - i, by omega⟩
  have hd : positionAt buf d x = some x := by
    rw [positionAt_add, hi] at hj
    exact hj
  have hm : ∀ m, positionAt buf (m * d) x = some x := by
    intro m
    induction m with
    | zero => simp [positionAt]
    | succ m ih =>
      rw [Nat.succ_mul, positionAt_add, ih]
      exact hd
  have hx : ∀ k, ∃ z, positionAt buf k x = some z := by
    intro k
    have hk : k * d = k + (k * d - k) := by
      have : k ≤ k * d := Nat.le_mul_of_pos_right k (by omega)
      omega
    have h1 := hm k
    rw [hk] at h1
    exact positionAt_of_add h1
  intro k
  by_cases hk : k ≤ i
  · have e : i = k + (i - k) := by omega
    rw [e] at hi
    exact positionAt_of_add hi
  · have e : k = i + (k - i) := by omega
    rw [e, positionAt_add, hi]
    exact hx (k - i)

/-- On a walk that goes on for ever the size pre-scan never returns. -/
theorem calc_loop_never_returns {buf : List Nat} (fuel : Nat) {p : Nat} (len : Nat)
    (h : ∀ k, ∃ z, positionAt buf k p = some z) :
    calc_domain_name_size_loop buf fuel p len = .error .fuel := by
  induction fuel generalizing p len with
  | zero => rfl
  | succ n ih =>
    obtain ⟨z, hz⟩ := h 1
    rcases calc_loop_step buf n p len with ⟨hn, -⟩ | ⟨hn, -⟩ | ⟨q, len2, hq, -, hc⟩
    · rw [positionAt, hn] at hz; cases hz
    · rw [positionAt, hn] at hz; cases hz
    · rw [hc]
      apply ih
      intro k
      rw [← positionAt_succ_of_next hq]
      exact h (k + 1)

/-- Where the size pre-scan returns, `netbuf_get_domain_name` returns with the
same fuel. -/
theorem get_ok_of_calc_ok {buf : List Nat} {buflen fuel o size : Nat}
    (h : calc_domain_name_size fuel buf buflen o = .ok size) :
    ∃ name off, netbuf_get_domain_name fuel buf buflen o = .ok (name, off) := by
  obtain ⟨labels, hl⟩ := labelsReached_of_calc_ok h
  obtain ⟨off2, hg⟩ := get_loop_labelsReached hl o [] true o
  refine ⟨appendLabels [] labels, off2, ?_⟩
  unfold netbuf_get_domain_name
  rw [h]
  simp only [ok_bind]
  exact hg

theorem get_error_of_calc_error {buf : List Nat} {buflen fuel o : Nat} {e : Fault}
    (h : calc_domain_name_size fuel buf buflen o = .error e) :
    netbuf_get_domain_name fuel buf buflen o = .error e := by
  unfold netbuf_get_domain_name
  rw [h]
  rfl

/-- C4 (amended). Loop safety: for every buffer and offset, name decoding
(`netbuf_get_domain_name` and its size pre-scan `calc_domain_name_size`) either
terminates, within one loop pass more than the buffer has bytes, or reads a byte
outside the buffer, or comes back to a position at which an earlier pass of its
loop started.  So it terminates on every chain of labels and compression
pointers that stays inside the buffer and visits no position twice.  The code
has no bound on pointer hops and no record of visited offsets: whenever the walk
comes back to a position (a pointer whose target is itself, pointers that form a
cycle), neither function returns, whatever the number of loop passes, and no
decode error is produced. -/
theorem name_decoding_termination (buf : List Nat) (buflen o : Nat) :
    ((∃ name off size, ∀ fuel, buf.length + 1 ≤ fuel →
        calc_domain_name_size fuel buf buflen o = .ok size ∧
        netbuf_get_domain_name fuel buf buflen o = .ok (name, off)) ∨
      (calc_domain_name_size (buf.length + 1) buf buflen o = .error .oob ∧
        netbuf_get_domain_name (buf.length + 1) buf buflen o = .error .oob) ∨
      ∃ i j x, i < j ∧ j ≤ buf.length ∧
        positionAt buf i o = some x ∧ positionAt buf j o = some x) ∧
    (∀ i j x, i < j → positionAt buf i o = some x → positionAt buf j o = some x →
      ∀ fuel, calc_domain_name_size fuel buf buflen o = .error .fuel ∧
        netbuf_get_domain_name fuel buf buflen o = .error .fuel) := by
  constructor
  · rcases calc_loop_outcome buf (buf.length + 1) o 0 with ⟨size, h⟩ | h | ⟨-, h⟩
    · left
      have hc : calc_domain_name_size (buf.length + 1) buf buflen o = .ok size := h
      obtain ⟨name, off, hg⟩ := get_ok_of_calc_ok hc
      refine ⟨name, off, size, fun fuel hf => ?_⟩
      obtain ⟨k, rfl⟩ : ∃ k, fuel = buf.length + 1 + k := ⟨fuel - (buf.length + 1), by omega⟩
      exact ⟨calc_loop_mono h k, get_domain_name_mono hg k⟩
    · right; left
      have hc : calc_domain_name_size (buf.length + 1) buf buflen o = .error .oob := h
      exact ⟨hc, get_error_of_calc_error hc⟩
    · right; right
      exact positionAt_repeats h
  · intro i j x hij hi hj fuel
    have hc : calc_domain_name_size fuel buf buflen o = .error .fuel :=
      calc_loop_never_returns fuel 0 (positionAt_cycle hij hi hj)
    exact ⟨hc, get_error_of_calc_error hc⟩

/-- C4 at concrete inputs: from offset 3 of `00 C0 00 C0 01` a pointer leads to
offset 1 and the pointer there to the zero byte at offset 0, and decoding
terminates; in `C0 02 C0 00` the pointer at offset 0 leads to offset 2 and the
pointer there back to offset 0, and neither function returns. -/
theorem name_decoding_termination_witness :
    (∃ name off size, ∀ fuel, [0, 192, 0, 192, 1].length + 1 ≤ fuel →
        calc_domain_name_size fuel [0, 192, 0, 192, 1] 5 3 = .ok size ∧
        netbuf_get_domain_name fuel [0, 192, 0, 192, 1] 5 3 = .ok (name, off)) ∧
    (∀ fuel, calc_domain_name_size fuel [192, 2, 192, 0] 4 0 = .error .fuel ∧
        netbuf_get_domain_name fuel [192, 2, 192, 0] 4 0 = .error .fuel) :=
  ⟨(name_decoding_termination [0, 192, 0, 192, 1] 5 3).1.elim id
      (fun h => h.elim (fun h2 => absurd h2.1 (by decide))
        (fun ⟨i, j, x, hij, _, hi, hj⟩ => absurd
          (((name_decoding_termination [0, 192, 0, 192, 1] 5 3).2 i j x hij hi hj) 6).1
          (by decide))),
    (name_decoding_termination [192, 2, 192, 0] 4 0).2 0 2 0 (by decide) (by decide)
      (by decide)⟩

/-! ## The query for a domain with a label of more than 63 bytes -/

theorem splice_replicate_zero (N m : Nat) (Q : List Nat) (h : Q.length + m ≤ N) :
    splice (List.replicate N 0) 0 Q
      = (Q ++ List.replicate m 0) ++ List.replicate (N - Q.length - m) 0 := by
  have e1 : splice (List.replicate N 0) 0 Q = Q ++ List.replicate (N - Q.length) 0 := by
    simp only [splice, List.take_zero, List.nil_append, Nat.zero_add, List.drop_replicate]
  rw [e1, List.append_assoc, ← List.replicate_add]
  congr 2
  omega

set_option maxRecDepth 100000 in
/-- C15. Query message: for a domain with a label of more than 63 bytes the
query `sock_srv_lookup` builds is not the header, the label encoding of the name,
type 33 and class 1.  For service `xmpp-client`, protocol `tcp` and the domain of
64 bytes `a`, in its buffer of 65536 bytes, the code writes the 100 bytes
`query_domain_64`, in which the length byte 63 stands in front of all 64 bytes of
the label.  A decoder of these 100 bytes takes the last `a` for the length of a
label of 97 bytes and reads outside the message; in a buffer that was all zero
the question reads back with another name, type 0 and class 0.  For every name
of labels of 1 to 63 bytes the query is the header, each label behind its length
byte, the zero byte, type 33 and class 1, and has the length
12 + (encoded name length) + 4. -/
theorem query_long_label_malformed (buf : List Nat) (hbuf : buf.length = 65536) :
    sock_srv_lookup_query buf (fulldomain_text service_xmpp_client proto_tcp domain_64)
      = .ok (splice buf 0 query_domain_64, 100) ∧
    (splice buf 0 query_domain_64).take 100 = query_domain_64 ∧
    netbuf_get_dnsquery_question 5 query_domain_64 100 12 = .error .oob ∧
    netbuf_get_dnsquery_question 5 (splice (List.replicate 65536 0) 0 query_domain_64) 65536 12
      = .ok ({ qname := [95, 120, 109, 112, 112, 45, 99, 108, 105, 101, 110, 116, 46,
                          95, 116, 99, 112, 46] ++ List.replicate 63 97 ++ [46],
               qtype := 0, qclass := 0 }, 197) ∧
    (∀ labels : List (List Nat), (∀ l ∈ labels, IsLabel l) →
      (dotJoin labels).length < 2048 →
      sock_srv_lookup_query buf (dotJoin labels)
        = .ok (splice buf 0
            ([48, 57, 1, 0, 0, 1, 0, 0, 0, 0, 0, 0] ++ wireName labels ++ [0, 33, 0, 1]),
            12 + (wireName labels).length + 4)) := by
  have hq : query_domain_64.length = 100 := by decide
  refine ⟨?_, ?_, by decide, ?_, ?_⟩
  · have ht : fulldomain_text service_xmpp_client proto_tcp domain_64
        = [95] ++ service_xmpp_client ++ [46, 95] ++ proto_tcp ++ [46] ++ domain_64 := by
      decide
    have hm := (query_message buf service_xmpp_client proto_tcp domain_64
      (by decide) (by decide) (by decide) hbuf (by decide)).2.1
    have he : [48, 57, 1, 0, 0, 1, 0, 0, 0, 0, 0, 0]
        ++ encodedName ([95] ++ service_xmpp_client ++ [46, 95] ++ proto_tcp ++ [46]
            ++ domain_64)
        ++ [0, 33, 0, 1] = query_domain_64 := by
      decide
    have hl : (encodedName ([95] ++ service_xmpp_client ++ [46, 95] ++ proto_tcp ++ [46]
        ++ domain_64)).length = 84 := by
      decide
    rw [ht, hm, he, hl]
  · unfold splice
    rw [List.take_zero, List.nil_append,
      List.take_append_of_le_length (Nat.le_of_eq hq.symm),
      List.take_of_length_le (Nat.le_of_eq hq)]
  · have e := splice_replicate_zero 65536 100 query_domain_64 (by omega)
    rw [e]
    exact get_dnsquery_question_append _ (by decide)
  · intro labels hl hlen
    have hw := length_wireName_le labels
    rw [sock_srv_lookup_query_eq labels hl (by omega)]
    have hh : headerBytes srv_query_header = [48, 57, 1, 0, 0, 1, 0, 0, 0, 0, 0, 0] := by
      decide
    unfold queryBytes
    rw [hh, show be16 33 = [0, 33] from by decide, show be16 1 = [0, 1] from by decide]
    simp only [List.append_assoc, List.cons_append, List.nil_append]

/-- C15 at a concrete input: the buffer all zero. -/
theorem query_long_label_malformed_witness :
    (List.replicate 65536 0).length = 65536 ∧
    sock_srv_lookup_query (List.replicate 65536 0)
        (fulldomain_text service_xmpp_client proto_tcp domain_64)
      = .ok (splice (List.replicate 65536 0) 0 query_domain_64, 100) :=
  ⟨List.length_replicate 65536 0,
    (query_long_label_malformed (List.replicate 65536 0) (List.length_replicate 65536 0)).1⟩

end Strophe
